import Mathlib

/-!
# Bill splitting calculator (`src/js/calculator.js`)

A shallow embedding of the `BillCalculator` module, twice.  In `BillCalculator` the
numbers are exact rationals: the decimal arithmetic the module is written for.  In
`BillCalculator.F64` they are IEEE 754 doubles, every operation rounded to the nearest
double, as JavaScript computes them.  Arrays are lists; the records are Lean structures
carrying the fields the module reads and writes.
-/

namespace BillCalculator

/-- A participant record `{ id, name }`. -/
structure Participant where
  id : Int
  name : String
  deriving DecidableEq, Repr

/-- A payment record `{ id, payerId, amount }`. -/
structure Payment where
  id : Int
  payerId : Int
  amount : ℚ
  deriving DecidableEq, Repr

/-- A balance record: the participant's fields (`...p`) with `paid` and `balance`. -/
structure Balance where
  id : Int
  name : String
  paid : ℚ
  balance : ℚ
  deriving DecidableEq, Repr

/-- A settlement record `{ from, to, amount }`. -/
structure Settlement where
  fromName : String
  toName : String
  amount : ℚ
  deriving DecidableEq, Repr

/-- The value of `parseFloat(x.toFixed(2))`: `toFixed` takes the sign off, picks the
integer `n` with `n / 100` closest to the magnitude (the larger `n` on a tie) and puts
the sign back. -/
def round2 (x : ℚ) : ℚ :=
  if x < 0 then -((⌊(-x) * 100 + 1 / 2⌋ : ℤ) : ℚ) / 100
  else ((⌊x * 100 + 1 / 2⌋ : ℤ) : ℚ) / 100

/-- `calculatePerPersonShare(totalBill, numPeople)`. -/
def calculatePerPersonShare (totalBill : ℚ) (numPeople : Nat) : ℚ :=
  if numPeople = 0 then 0 else round2 (totalBill / (numPeople : ℚ))

/-- One pass of the `payments.forEach` body of `calculateBalances`: the first record
whose `id` is the payment's `payerId` (`balances.find`) gets the amount added to
`paid` and to `balance`; without such a record nothing changes. -/
def addPayment : List Balance → Payment → List Balance
  | [], _ => []
  | b :: rest, payment =>
    if b.id = payment.payerId then
      { b with paid := b.paid + payment.amount, balance := b.balance + payment.amount } :: rest
    else b :: addPayment rest payment

/-- `calculateBalances(participants, payments, perPersonShare)`. -/
def calculateBalances (participants : List Participant) (payments : List Payment)
    (perPersonShare : ℚ) : List Balance :=
  let balances : List Balance := participants.map fun p =>
    { id := p.id, name := p.name, paid := 0, balance := -perPersonShare }
  let balances := payments.foldl addPayment balances
  balances.map fun p => { p with balance := round2 p.balance }

/-- `Array.prototype.sort((a, b) => b.balance - a.balance)`: a stable sort, larger
balances first.  The head is inserted in front of the first element of the sorted
tail that is not larger, so records with equal balances keep their order. -/
def sortDesc (l : List Balance) : List Balance :=
  l.insertionSort fun a b => b.balance ≤ a.balance

/-- The creditors array of `generateSettlements` before the loop. -/
def creditorsOf (balances : List Balance) : List Balance :=
  sortDesc (balances.filter fun p => p.balance > 1 / 100)

/-- The debtors array of `generateSettlements` before the loop; `balance` holds the
magnitude of the debt. -/
def debtorsOf (balances : List Balance) : List Balance :=
  sortDesc ((balances.filter fun p => p.balance < -(1 / 100)).map fun p =>
    { p with balance := |p.balance| })

/-- The `while` loop of `generateSettlements`.  The two arguments are the parts of the
debtor and creditor arrays from the cursors `i` and `j` on, their heads holding the
current (already reduced) balances; `i++` and `j++` drop a head.  The result is the
list of settlements pushed from this state on.  `fuel` bounds the number of
iterations. -/
def settleLoop : Nat → List Balance → List Balance → List Settlement
  | 0, _, _ => []
  | _, [], _ => []
  | _, _, [] => []
  | fuel + 1, debtor :: ds, creditor :: cs =>
    let amount := min debtor.balance creditor.balance
    let pushed : List Settlement :=
      if amount > 1 / 100 then
        [{ fromName := debtor.name, toName := creditor.name, amount := round2 amount }]
      else []
    let debtor' : Balance := { debtor with balance := debtor.balance - amount }
    let creditor' : Balance := { creditor with balance := creditor.balance - amount }
    let ds' := if debtor'.balance < 1 / 100 then ds else debtor' :: ds
    let cs' := if creditor'.balance < 1 / 100 then cs else creditor' :: cs
    pushed ++ settleLoop fuel ds' cs'

/-- `generateSettlements(balances)`.  Every iteration of the loop moves a cursor, so
`debtors.length + creditors.length` iterations are enough (`settleLoop_fuel`). -/
def generateSettlements (balances : List Balance) : List Settlement :=
  let creditors := creditorsOf balances
  let debtors := debtorsOf balances
  settleLoop (debtors.length + creditors.length) debtors creditors

/-- The object returned by `calculate`. -/
structure CalculationResult where
  totalBill : ℚ
  totalPaid : ℚ
  perPersonShare : ℚ
  balances : List Balance
  settlements : List Settlement
  participants : List Participant
  payments : List Payment
  deriving DecidableEq, Repr

/-- `payments.reduce((sum, p) => sum + p.amount, 0)`. -/
def sumAmounts (payments : List Payment) : ℚ :=
  payments.foldl (fun sum p => sum + p.amount) 0

/-- `calculate(totalBill, participants, payments)`. -/
def calculate (totalBill : ℚ) (participants : List Participant) (payments : List Payment) :
    CalculationResult :=
  let actualTotal := totalBill
  let perPersonShare := calculatePerPersonShare actualTotal participants.length
  let balances := calculateBalances participants payments perPersonShare
  let settlements := generateSettlements balances
  let totalPaid := sumAmounts payments
  { totalBill := actualTotal
    totalPaid := round2 totalPaid
    perPersonShare := perPersonShare
    balances := balances
    settlements := settlements
    participants := participants
    payments := payments }

/-- The characters `String.prototype.trim` removes: ECMAScript WhiteSpace (tab, VT, FF,
space, NBSP, ZWNBSP and the space separators) and LineTerminator (LF, CR, LS, PS). -/
def isJsWhiteSpace (c : Char) : Bool :=
  decide (c.toNat ∈ [0x09, 0x0A, 0x0B, 0x0C, 0x0D, 0x20, 0xA0, 0x1680, 0x2028, 0x2029,
    0x202F, 0x205F, 0x3000, 0xFEFF]) || (decide (0x2000 ≤ c.toNat) && decide (c.toNat ≤ 0x200A))

/-- `String.prototype.trim`: white space taken off both ends. -/
def jsTrim (s : String) : String :=
  ⟨((s.data.dropWhile isJsWhiteSpace).reverse.dropWhile isJsWhiteSpace).reverse⟩

/-- The object returned by `validate`; `warning` is `none` for `null`. -/
structure ValidationResult where
  valid : Bool
  errors : List String
  warning : Option String
  difference : ℚ
  deriving DecidableEq, Repr

/-- `validate(totalBill, participants, payments)`.  `!totalBill` holds of the number
zero, `!p.name` of the empty string; an array is never falsy. -/
def validate (totalBill : ℚ) (participants : List Participant) (payments : List Payment) :
    ValidationResult :=
  let errors : List String := []
  let errors := if totalBill = 0 ∨ totalBill ≤ 0 then
    errors ++ ["Total bill must be greater than zero"] else errors
  let errors := if participants.length < 2 then
    errors ++ ["At least 2 participants required"] else errors
  let errors := if participants.length > 20 then
    errors ++ ["Maximum 20 participants allowed"] else errors
  let errors := participants.foldl (fun errs p =>
    if p.name = "" ∨ jsTrim p.name = "" then errs ++ ["All participants must have names"]
    else errs) errors
  let errors := if payments.length = 0 then
    errors ++ ["At least one payment required"] else errors
  let errors := payments.foldl (fun errs p =>
    if p.amount ≤ 0 then errs ++ ["All payments must be positive amounts"] else errs) errors
  let totalPaid := sumAmounts payments
  let difference := |totalPaid - totalBill|
  { valid := decide (errors.length = 0)
    errors := errors
    warning :=
      if difference > 1 / 100 then
        (if totalPaid > totalBill then some "overpaid" else some "underpaid")
      else none
    difference := round2 difference }

/-- A whole number of cents. -/
def IsCents (x : ℚ) : Prop := ((⌊x * 100⌋ : ℤ) : ℚ) = x * 100

instance (x : ℚ) : Decidable (IsCents x) := by
  unfold IsCents
  infer_instance

/-- The sum of the amounts of the payments whose `payerId` is `id` (0 if none). -/
def paidBy (payments : List Payment) (id : Int) : ℚ :=
  ((payments.filter fun pay => decide (pay.payerId = id)).map fun pay => pay.amount).sum

/-- The update `addPayment` makes to the record it finds. -/
def credit (amount : ℚ) (b : Balance) : Balance :=
  { b with paid := b.paid + amount, balance := b.balance + amount }

/-- The sum of the `balance` fields. -/
def sumBalances (balances : List Balance) : ℚ :=
  (balances.map fun b => b.balance).sum

/-- A valid input of `calculate`: it passes `validate`, the participant ids are distinct
and every payment's `payerId` is the id of a participant. -/
def ValidInput (totalBill : ℚ) (participants : List Participant) (payments : List Payment) :
    Prop :=
  (validate totalBill participants payments).valid = true ∧
  (participants.map fun p => p.id).Nodup ∧
  ∀ pay ∈ payments, ∃ p ∈ participants, p.id = pay.payerId

instance (totalBill : ℚ) (participants : List Participant) (payments : List Payment) :
    Decidable (ValidInput totalBill participants payments) := by
  unfold ValidInput
  infer_instance

/-- The total of the amounts of the settlements whose `from` is `name`. -/
def sentBy (settlements : List Settlement) (name : String) : ℚ :=
  ((settlements.filter fun s => decide (s.fromName = name)).map fun s => s.amount).sum

/-- The total of the amounts of the settlements whose `to` is `name`. -/
def receivedBy (settlements : List Settlement) (name : String) : ℚ :=
  ((settlements.filter fun s => decide (s.toName = name)).map fun s => s.amount).sum

/-- The balance of `b` after every settlement has been applied: what `b` sent is taken off
its debt, what `b` received is taken off its credit. -/
def applySettlements (settlements : List Settlement) (b : Balance) : ℚ :=
  b.balance + sentBy settlements b.name - receivedBy settlements b.name

/-- The number of participants with `|balance| > 0.01`. -/
def unsettledCount (balances : List Balance) : Nat :=
  (balances.filter fun b => decide (|b.balance| > 1 / 100)).length

/-- Every record has a whole number of cents as `balance`. -/
def AllCents (l : List Balance) : Prop := ∀ b ∈ l, IsCents b.balance

/-- The settlement read in the other direction. -/
def Settlement.swap (s : Settlement) : Settlement :=
  { fromName := s.toName, toName := s.fromName, amount := s.amount }

instance (l : List Balance) : Decidable (AllCents l) := by
  unfold AllCents
  infer_instance

/-- The payment's `payerId` is the id of a participant. -/
def knownPayer (participants : List Participant) (pay : Payment) : Bool :=
  decide (pay.payerId ∈ participants.map fun p => p.id)

/-- The balance of the participant called `name` (0 when there is none). -/
def balanceOf (balances : List Balance) (name : String) : ℚ :=
  match balances.find? fun b => decide (b.name = name) with
  | some b => b.balance
  | none => 0

/-- The balance record of a participant when `P` alone paid `n` shares of `s`. -/
def singlePayerBalance (P : Participant) (n : Nat) (s : ℚ) (p : Participant) : Balance :=
  { id := p.id, name := p.name,
    paid := if p.id = P.id then (n : ℚ) * s else 0,
    balance := if p.id = P.id then ((n : ℚ) - 1) * s else -s }

/-! ### The same functions on IEEE 754 doubles

JavaScript numbers are doubles.  A finite double is the rational it stands for; every
arithmetic operation gives the exact result rounded to the nearest double, a tie to the
even significand (`fl`).  Overflow to `Infinity` and `NaN` are outside the model. -/

namespace F64

/-- The nearest integer, a tie going to the even one. -/
def roundHalfEven (t : ℚ) : ℤ :=
  if t - (⌊t⌋ : ℤ) < 1 / 2 then ⌊t⌋
  else if 1 / 2 < t - (⌊t⌋ : ℤ) then ⌊t⌋ + 1
  else if ⌊t⌋ % 2 = 0 then ⌊t⌋ else ⌊t⌋ + 1

/-- The number of halvings that bring `n` below 2, which is `⌊log₂ n⌋` for `n ≥ 1`; the
first argument bounds the recursion. -/
def log2Aux : Nat → Nat → Nat
  | 0, _ => 0
  | fuel + 1, n => if n < 2 then 0 else log2Aux fuel (n / 2) + 1

/-- The integer logarithm `⌊log₂ x⌋` of a rational `x > 0` (`log2Floor_eq_log`): the bit
lengths of numerator and denominator give it up to one, the comparison settles it. -/
def log2Floor (x : ℚ) : ℤ :=
  if (2 : ℚ) ^ ((log2Aux x.num.natAbs x.num.natAbs : ℤ) - (log2Aux x.den x.den : ℤ)) ≤ x then
    (log2Aux x.num.natAbs x.num.natAbs : ℤ) - (log2Aux x.den x.den : ℤ)
  else (log2Aux x.num.natAbs x.num.natAbs : ℤ) - (log2Aux x.den x.den : ℤ) - 1

/-- The exponent of the last bit of the 53-bit significand of the doubles around `x`
(`-1074` in the subnormal range). -/
def ulpExp (x : ℚ) : ℤ := max (log2Floor |x| - 52) (-1074)

/-- The double nearest to `x`, round-to-nearest-even. -/
def fl (x : ℚ) : ℚ :=
  if x = 0 then 0
  else if x < 0 then -((roundHalfEven (-x / 2 ^ ulpExp x) : ℚ) * 2 ^ ulpExp x)
  else (roundHalfEven (x / 2 ^ ulpExp x) : ℚ) * 2 ^ ulpExp x

/-- The number the literal `0.01` denotes. -/
def cent : ℚ := fl (1 / 100)

/-- The value of `parseFloat(x.toFixed(2))`: `toFixed` rounds the exact value of the
double `x` to two decimals (`BillCalculator.round2`), `parseFloat` gives the double
nearest to that numeral. -/
def round2 (x : ℚ) : ℚ := fl (BillCalculator.round2 x)

/-- `calculatePerPersonShare(totalBill, numPeople)`. -/
def calculatePerPersonShare (totalBill : ℚ) (numPeople : Nat) : ℚ :=
  if numPeople = 0 then 0 else round2 (fl (totalBill / (numPeople : ℚ)))

/-- One pass of the `payments.forEach` body of `calculateBalances`. -/
def addPayment : List Balance → Payment → List Balance
  | [], _ => []
  | b :: rest, payment =>
    if b.id = payment.payerId then
      { b with paid := fl (b.paid + payment.amount),
               balance := fl (b.balance + payment.amount) } :: rest
    else b :: addPayment rest payment

/-- `calculateBalances(participants, payments, perPersonShare)`. -/
def calculateBalances (participants : List Participant) (payments : List Payment)
    (perPersonShare : ℚ) : List Balance :=
  let balances : List Balance := participants.map fun p =>
    { id := p.id, name := p.name, paid := 0, balance := -perPersonShare }
  let balances := payments.foldl addPayment balances
  balances.map fun p => { p with balance := round2 p.balance }

/-- `Array.prototype.sort((a, b) => b.balance - a.balance)`: stable, `a` staying in front
of `b` when the comparator's value is not positive. -/
def sortDesc (l : List Balance) : List Balance :=
  l.insertionSort fun a b => fl (b.balance - a.balance) ≤ 0

/-- The creditors array of `generateSettlements` before the loop. -/
def creditorsOf (balances : List Balance) : List Balance :=
  sortDesc (balances.filter fun p => p.balance > cent)

/-- The debtors array of `generateSettlements` before the loop. -/
def debtorsOf (balances : List Balance) : List Balance :=
  sortDesc ((balances.filter fun p => p.balance < -cent).map fun p =>
    { p with balance := |p.balance| })

/-- The `while` loop of `generateSettlements`, on the parts of the two arrays from the
cursors on, as `BillCalculator.settleLoop`. -/
def settleLoop : Nat → List Balance → List Balance → List Settlement
  | 0, _, _ => []
  | _, [], _ => []
  | _, _, [] => []
  | fuel + 1, debtor :: ds, creditor :: cs =>
    let amount := min debtor.balance creditor.balance
    let pushed : List Settlement :=
      if amount > cent then
        [{ fromName := debtor.name, toName := creditor.name, amount := round2 amount }]
      else []
    let debtor' : Balance := { debtor with balance := fl (debtor.balance - amount) }
    let creditor' : Balance := { creditor with balance := fl (creditor.balance - amount) }
    let ds' := if debtor'.balance < cent then ds else debtor' :: ds
    let cs' := if creditor'.balance < cent then cs else creditor' :: cs
    pushed ++ settleLoop fuel ds' cs'

/-- `generateSettlements(balances)`.  Every iteration of the loop moves a cursor, so
`debtors.length + creditors.length` iterations are enough (`double_settleLoop_fuel`). -/
def generateSettlements (balances : List Balance) : List Settlement :=
  let creditors := creditorsOf balances
  let debtors := debtorsOf balances
  settleLoop (debtors.length + creditors.length) debtors creditors

/-- `payments.reduce((sum, p) => sum + p.amount, 0)`. -/
def sumAmounts (payments : List Payment) : ℚ :=
  payments.foldl (fun sum p => fl (sum + p.amount)) 0

/-- `calculate(totalBill, participants, payments)`. -/
def calculate (totalBill : ℚ) (participants : List Participant) (payments : List Payment) :
    CalculationResult :=
  let actualTotal := totalBill
  let perPersonShare := calculatePerPersonShare actualTotal participants.length
  let balances := calculateBalances participants payments perPersonShare
  let settlements := generateSettlements balances
  let totalPaid := sumAmounts payments
  { totalBill := actualTotal
    totalPaid := round2 totalPaid
    perPersonShare := perPersonShare
    balances := balances
    settlements := settlements
    participants := participants
    payments := payments }

/-- `validate(totalBill, participants, payments)`. -/
def validate (totalBill : ℚ) (participants : List Participant) (payments : List Payment) :
    ValidationResult :=
  let errors : List String := []
  let errors := if totalBill = 0 ∨ totalBill ≤ 0 then
    errors ++ ["Total bill must be greater than zero"] else errors
  let errors := if participants.length < 2 then
    errors ++ ["At least 2 participants required"] else errors
  let errors := if participants.length > 20 then
    errors ++ ["Maximum 20 participants allowed"] else errors
  let errors := participants.foldl (fun errs p =>
    if p.name = "" ∨ jsTrim p.name = "" then errs ++ ["All participants must have names"]
    else errs) errors
  let errors := if payments.length = 0 then
    errors ++ ["At least one payment required"] else errors
  let errors := payments.foldl (fun errs p =>
    if p.amount ≤ 0 then errs ++ ["All payments must be positive amounts"] else errs) errors
  let totalPaid := sumAmounts payments
  let difference := |fl (totalPaid - totalBill)|
  { valid := decide (errors.length = 0)
    errors := errors
    warning :=
      if difference > cent then
        (if totalPaid > totalBill then some "overpaid" else some "underpaid")
      else none
    difference := round2 difference }


/-- The amounts of the payments whose `payerId` is `id`, added to `init` one after the
other in payment order, every sum rounded to the nearest double. -/
def accumulate (init : ℚ) (payments : List Payment) (id : Int) : ℚ :=
  (payments.filter fun pay => decide (pay.payerId = id)).foldl
    (fun sum pay => fl (sum + pay.amount)) init

/-- A valid input of `calculate`, as `BillCalculator.ValidInput`. -/
def ValidInput (totalBill : ℚ) (participants : List Participant) (payments : List Payment) :
    Prop :=
  (validate totalBill participants payments).valid = true ∧
  (participants.map fun p => p.id).Nodup ∧
  ∀ pay ∈ payments, ∃ p ∈ participants, p.id = pay.payerId

instance (totalBill : ℚ) (participants : List Participant) (payments : List Payment) :
    Decidable (ValidInput totalBill participants payments) := by
  unfold ValidInput
  infer_instance


/-- The transfers (`amount`) of the loop of `generateSettlements` on doubles from a state
on, whether a settlement is pushed for them or not; the recursion is that of
`settleLoop`. -/
def loopTransfers : Nat → List Balance → List Balance → List ℚ
  | 0, _, _ => []
  | _, [], _ => []
  | _, _, [] => []
  | fuel + 1, debtor :: ds, creditor :: cs =>
    let amount := min debtor.balance creditor.balance
    let debtor' : Balance := { debtor with balance := fl (debtor.balance - amount) }
    let creditor' : Balance := { creditor with balance := fl (creditor.balance - amount) }
    let ds' := if debtor'.balance < cent then ds else debtor' :: ds
    let cs' := if creditor'.balance < cent then cs else creditor' :: cs
    amount :: loopTransfers fuel ds' cs'

/-- The transfers that `generateSettlements(balances)` computes on doubles. -/
def transfers (balances : List Balance) : List ℚ :=
  loopTransfers ((debtorsOf balances).length + (creditorsOf balances).length)
    (debtorsOf balances) (creditorsOf balances)

/-- A whole multiple of `2 ^ (-58)`, the spacing of the doubles from `1 / 64` up to
`1 / 32`. -/
def OnGrid (x : ℚ) : Prop := ∃ k : ℤ, x = (k : ℚ) / 2 ^ 58


/-- What a number is away from the two-decimal numeral `x.toFixed(2)`. -/
def centErr (x : ℚ) : ℚ := |x - BillCalculator.round2 x|

/-- The total of `centErr` over the balances of an array. -/
def errSum (l : List Balance) : ℚ := (l.map fun b => centErr b.balance).sum

/-- The settlements with every amount read as the two-decimal numeral it prints as. -/
def asPrinted (l : List Settlement) : List Settlement :=
  l.map fun s => { s with amount := BillCalculator.round2 s.amount }

/-- The record with its balance read as the two-decimal numeral it prints as. -/
def printed (b : Balance) : Balance := { b with balance := BillCalculator.round2 b.balance }

/-- The state of the loop on doubles below `2 ^ 30`: the balances are multiples of
`2 ^ (-58)` from the double 0.01 on, the names in each array are distinct, and what the
balances are away from their two-decimal numerals, with `2 ^ (-22)` for each record still
in the arrays, comes to at most a quarter of a cent. -/
structure DoubleInv (ds cs : List Balance) : Prop where
  dgrid : ∀ b ∈ ds, OnGrid b.balance
  cgrid : ∀ b ∈ cs, OnGrid b.balance
  dlow : ∀ b ∈ ds, cent ≤ b.balance
  clow : ∀ b ∈ cs, cent ≤ b.balance
  dhigh : ∀ b ∈ ds, b.balance ≤ 2 ^ 30
  chigh : ∀ b ∈ cs, b.balance ≤ 2 ^ 30
  dnames : (ds.map fun b => b.name).Nodup
  cnames : (cs.map fun b => b.name).Nodup
  budget : errSum ds + errSum cs + ((ds.length : ℚ) + (cs.length : ℚ)) / 2 ^ 22 ≤ 1 / 400

/-- Read as two-decimal numerals, the settlements of the loop leave every record of one of
the two arrays with nothing or with one cent. -/
def DoubleSettles (fuel : Nat) (ds cs : List Balance) : Prop :=
  (∀ d ∈ ds,
    0 ≤ BillCalculator.round2 d.balance - sentBy (asPrinted (settleLoop fuel ds cs)) d.name ∧
    BillCalculator.round2 d.balance - sentBy (asPrinted (settleLoop fuel ds cs)) d.name
      ≤ 1 / 100) ∨
  (∀ c ∈ cs,
    0 ≤ BillCalculator.round2 c.balance
      - receivedBy (asPrinted (settleLoop fuel ds cs)) c.name ∧
    BillCalculator.round2 c.balance - receivedBy (asPrinted (settleLoop fuel ds cs)) c.name
      ≤ 1 / 100)

end F64

end BillCalculator

namespace BillCalculator

/-! ## Rounding to cents -/

theorem isCents_iff (x : ℚ) : IsCents x ↔ ∃ k : ℤ, x = (k : ℚ) / 100 := by
  unfold IsCents
  constructor
  · intro h
    exact ⟨⌊x * 100⌋, by rw [h]; ring⟩
  · rintro ⟨k, rfl⟩
    have : (k : ℚ) / 100 * 100 = (k : ℚ) := by ring
    rw [this, Int.floor_intCast]

theorem isCents_intCast_div (k : ℤ) : IsCents ((k : ℚ) / 100) :=
  (isCents_iff _).mpr ⟨k, rfl⟩

theorem IsCents.neg {x : ℚ} (h : IsCents x) : IsCents (-x) := by
  obtain ⟨k, rfl⟩ := (isCents_iff _).mp h
  exact (isCents_iff _).mpr ⟨-k, by push_cast; ring⟩

theorem IsCents.add {x y : ℚ} (hx : IsCents x) (hy : IsCents y) : IsCents (x + y) := by
  obtain ⟨k, rfl⟩ := (isCents_iff _).mp hx
  obtain ⟨m, rfl⟩ := (isCents_iff _).mp hy
  exact (isCents_iff _).mpr ⟨k + m, by push_cast; ring⟩

theorem IsCents.sub {x y : ℚ} (hx : IsCents x) (hy : IsCents y) : IsCents (x - y) := by
  obtain ⟨k, rfl⟩ := (isCents_iff _).mp hx
  obtain ⟨m, rfl⟩ := (isCents_iff _).mp hy
  exact (isCents_iff _).mpr ⟨k - m, by push_cast; ring⟩

theorem IsCents.abs {x : ℚ} (hx : IsCents x) : IsCents |x| := by
  rcases abs_choice x with h | h <;> rw [h]
  · exact hx
  · exact hx.neg

theorem IsCents.min {x y : ℚ} (hx : IsCents x) (hy : IsCents y) : IsCents (min x y) := by
  rcases min_choice x y with h | h <;> rw [h] <;> assumption

theorem isCents_zero : IsCents 0 := (isCents_iff _).mpr ⟨0, by simp⟩

/-- Between two whole numbers of cents there is a gap of a cent. -/
theorem IsCents.add_cent_le {x y : ℚ} (hx : IsCents x) (hy : IsCents y) (h : x < y) :
    x + 1 / 100 ≤ y := by
  obtain ⟨k, rfl⟩ := (isCents_iff _).mp hx
  obtain ⟨m, rfl⟩ := (isCents_iff _).mp hy
  have hkm : k < m := by
    have := (div_lt_div_iff_of_pos_right (show (0 : ℚ) < 100 by norm_num)).mp h
    exact_mod_cast this
  have hkm' : ((k + 1 : ℤ) : ℚ) ≤ (m : ℚ) := by exact_mod_cast hkm
  push_cast at hkm'
  linarith

theorem round2_of_nonneg {x : ℚ} (h : 0 ≤ x) :
    round2 x = ((⌊x * 100 + 1 / 2⌋ : ℤ) : ℚ) / 100 := by
  unfold round2
  rw [if_neg (not_lt.mpr h)]

theorem round2_of_neg {x : ℚ} (h : x < 0) :
    round2 x = -(((⌊(-x) * 100 + 1 / 2⌋ : ℤ) : ℚ) / 100) := by
  unfold round2
  rw [if_pos h]
  ring

theorem round2_zero : round2 0 = 0 := by norm_num [round2]

theorem round2_neg (x : ℚ) : round2 (-x) = -round2 x := by
  rcases lt_trichotomy x 0 with h | h | h
  · rw [round2_of_neg h, round2_of_nonneg (by linarith : (0 : ℚ) ≤ -x)]
    ring
  · subst h
    simp [round2_zero]
  · rw [round2_of_neg (by linarith : -x < 0), round2_of_nonneg (le_of_lt h), neg_neg]

theorem isCents_round2 (x : ℚ) : IsCents (round2 x) := by
  rcases lt_or_le x 0 with h | h
  · rw [round2_of_neg h]
    exact (isCents_intCast_div _).neg
  · rw [round2_of_nonneg h]
    exact isCents_intCast_div _

/-- Rounding moves a value by at most half a cent. -/
theorem abs_round2_sub_le (x : ℚ) : |round2 x - x| ≤ 1 / 200 := by
  have key : ∀ y : ℚ, 0 ≤ y → |round2 y - y| ≤ 1 / 200 := by
    intro y hy
    rw [round2_of_nonneg hy, abs_le]
    have h1 := Int.floor_le (y * 100 + 1 / 2)
    have h2 := Int.lt_floor_add_one (y * 100 + 1 / 2)
    constructor <;> linarith
  rcases lt_or_le x 0 with h | h
  · have := key (-x) (by linarith)
    rw [round2_neg, ← abs_neg] at this
    have e : -(-round2 x - -x) = round2 x - x := by ring
    rw [e] at this
    exact this
  · exact key x h

/-- A whole number of cents is left as it is. -/
theorem round2_of_isCents {x : ℚ} (h : IsCents x) : round2 x = x := by
  have key : ∀ y : ℚ, 0 ≤ y → IsCents y → round2 y = y := by
    intro y hy hc
    obtain ⟨k, rfl⟩ := (isCents_iff _).mp hc
    rw [round2_of_nonneg hy]
    have e : (k : ℚ) / 100 * 100 + 1 / 2 = (k : ℚ) + 1 / 2 := by ring
    have hf : ⌊(k : ℚ) + 1 / 2⌋ = k := by
      rw [Int.floor_eq_iff]
      constructor <;> linarith
    rw [e, hf]
  rcases lt_or_le x 0 with hx | hx
  · have := key (-x) (by linarith) h.neg
    rw [round2_neg] at this
    linarith
  · exact key x hx h

/-- On a tie between two cents the magnitude goes up. -/
theorem round2_tie (x : ℚ) (h : |round2 x - x| = 1 / 200) : |x| < |round2 x| := by
  have key : ∀ y : ℚ, 0 ≤ y → |round2 y - y| = 1 / 200 → |y| < |round2 y| := by
    intro y hy ht
    have h2 := Int.lt_floor_add_one (y * 100 + 1 / 2)
    have hr := round2_of_nonneg hy
    have hgt : y - 1 / 200 < round2 y := by rw [hr]; linarith
    have hval : round2 y - y = 1 / 200 := by
      rcases abs_choice (round2 y - y) with h | h
      · rw [h] at ht; exact ht
      · rw [h] at ht; linarith
    have hpos : 0 ≤ round2 y := by linarith
    rw [abs_of_nonneg hy, abs_of_nonneg hpos]
    linarith
  rcases lt_or_le x 0 with hx | hx
  · have := key (-x) (by linarith) (by
      rw [round2_neg, ← abs_neg]
      have e : -(-round2 x - -x) = round2 x - x := by ring
      rw [e]; exact h)
    rw [round2_neg, abs_neg, abs_neg] at this
    exact this
  · exact key x hx h

/-! ## Balances -/

theorem addPayment_map_id (l : List Balance) (payment : Payment) :
    (addPayment l payment).map (fun b => b.id) = l.map fun b => b.id := by
  induction l with
  | nil => rfl
  | cons b rest ih =>
    unfold addPayment
    split_ifs with h
    · rfl
    · simp only [List.map_cons, ih]

/-- With distinct ids `balances.find` can only hit the one record with the payer's id. -/
theorem addPayment_eq_map (l : List Balance) (payment : Payment)
    (hl : (l.map fun b => b.id).Nodup) :
    addPayment l payment
      = l.map fun b => if b.id = payment.payerId then credit payment.amount b else b := by
  induction l with
  | nil => rfl
  | cons b rest ih =>
    rw [List.map_cons, List.nodup_cons] at hl
    unfold addPayment
    split_ifs with h
    · rw [List.map_cons, if_pos h]
      congr 1
      symm
      conv_rhs => rw [← List.map_id rest]
      apply List.map_congr_left
      intro c hc
      have hne : c.id ≠ payment.payerId := by
        intro hcid
        apply hl.1
        rw [h, ← hcid]
        exact List.mem_map_of_mem (fun b => b.id) hc
      rw [if_neg hne]
      rfl
    · rw [List.map_cons, if_neg h, ih hl.2]

theorem paidBy_cons (payment : Payment) (payments : List Payment) (id : Int) :
    paidBy (payment :: payments) id
      = (if payment.payerId = id then payment.amount else 0) + paidBy payments id := by
  unfold paidBy
  by_cases h : payment.payerId = id <;> simp [List.filter_cons, h]

theorem foldl_addPayment (payments : List Payment) (l : List Balance)
    (hl : (l.map fun b => b.id).Nodup) :
    payments.foldl addPayment l = l.map fun b => credit (paidBy payments b.id) b := by
  induction payments generalizing l with
  | nil =>
    simp [paidBy, credit]
  | cons payment payments ih =>
    rw [List.foldl_cons, ih _ (by rw [addPayment_map_id]; exact hl), addPayment_eq_map _ _ hl,
      List.map_map]
    apply List.map_congr_left
    intro b _
    simp only [Function.comp, paidBy_cons]
    by_cases h : b.id = payment.payerId
    · rw [if_pos h, if_pos h.symm]
      simp only [credit, Balance.mk.injEq, true_and]
      constructor <;> ring
    · rw [if_neg h, if_neg (fun h' => h h'.symm)]
      simp only [credit, zero_add]

/-- The balances in closed form, for distinct ids. -/
theorem calculateBalances_eq_map (participants : List Participant) (payments : List Payment)
    (perPersonShare : ℚ) (hids : (participants.map fun p => p.id).Nodup) :
    calculateBalances participants payments perPersonShare
      = participants.map fun p =>
          { id := p.id, name := p.name, paid := paidBy payments p.id,
            balance := round2 (paidBy payments p.id - perPersonShare) } := by
  unfold calculateBalances
  simp only []
  rw [foldl_addPayment _ _ (by rw [List.map_map]; exact hids), List.map_map, List.map_map]
  apply List.map_congr_left
  intro p _
  simp only [Function.comp, credit, zero_add, Balance.mk.injEq, true_and]
  congr 1
  ring

/-! ## Validation -/

theorem foldl_push_eq {α : Type} (c : α → Prop) [DecidablePred c] (msg : String)
    (l : List α) (init : List String) :
    l.foldl (fun errs p => if c p then errs ++ [msg] else errs) init
      = init ++ (l.filter fun p => decide (c p)).map fun _ => msg := by
  induction l generalizing init with
  | nil => simp
  | cons a l ih =>
    rw [List.foldl_cons, ih]
    by_cases h : c a <;> simp [h]

/-- The error list of `validate`, one block per rule, in the order of the checks. -/
theorem validate_errors (totalBill : ℚ) (participants : List Participant)
    (payments : List Payment) :
    (validate totalBill participants payments).errors
      = (if totalBill = 0 ∨ totalBill ≤ 0 then ["Total bill must be greater than zero"] else [])
        ++ (if participants.length < 2 then ["At least 2 participants required"] else [])
        ++ (if participants.length > 20 then ["Maximum 20 participants allowed"] else [])
        ++ ((participants.filter fun p => decide (p.name = "" ∨ jsTrim p.name = "")).map
              fun _ => "All participants must have names")
        ++ (if payments.length = 0 then ["At least one payment required"] else [])
        ++ ((payments.filter fun p => decide (p.amount ≤ 0)).map
              fun _ => "All payments must be positive amounts") := by
  simp only [validate, foldl_push_eq]
  split_ifs <;> simp

theorem validate_valid_iff_errors (totalBill : ℚ) (participants : List Participant)
    (payments : List Payment) :
    (validate totalBill participants payments).valid = true ↔
      (validate totalBill participants payments).errors = [] := by
  simp [validate, List.length_eq_zero]

theorem jsTrim_empty : jsTrim "" = "" := by decide

theorem name_rule_iff (name : String) :
    (name = "" ∨ jsTrim name = "") ↔ jsTrim name = "" := by
  constructor
  · rintro (h | h)
    · rw [h]; exact jsTrim_empty
    · exact h
  · exact Or.inr

/-- The error list is empty exactly when the five conditions on the input hold. -/
theorem validate_errors_nil_iff (totalBill : ℚ) (participants : List Participant)
    (payments : List Payment) :
    (validate totalBill participants payments).errors = [] ↔
      (0 < totalBill ∧ (2 ≤ participants.length ∧ participants.length ≤ 20) ∧
        (∀ p ∈ participants, jsTrim p.name ≠ "") ∧ payments ≠ [] ∧
        ∀ p ∈ payments, 0 < p.amount) := by
  rw [validate_errors]
  simp only [List.append_eq_nil, List.map_eq_nil_iff, List.filter_eq_nil_iff,
    decide_eq_true_eq, name_rule_iff, List.length_eq_zero]
  constructor
  · rintro ⟨⟨⟨⟨⟨h1, h2⟩, h3⟩, h4⟩, h5⟩, h6⟩
    refine ⟨?_, ⟨?_, ?_⟩, h4, ?_, ?_⟩
    · by_contra hc
      have : totalBill = 0 ∨ totalBill ≤ 0 := Or.inr (not_lt.mp hc)
      simp [this] at h1
    · by_contra hc
      simp [not_le.mp hc] at h2
    · by_contra hc
      simp [not_le.mp hc] at h3
    · intro hc
      simp [hc] at h5
    · intro p hp
      exact not_le.mp (h6 p hp)
  · rintro ⟨h1, ⟨h2, h3⟩, h4, h5, h6⟩
    have h1' : ¬ (totalBill = 0 ∨ totalBill ≤ 0) := by
      rintro (h | h)
      · exact absurd h (ne_of_gt h1)
      · exact absurd h (not_le.mpr h1)
    refine ⟨⟨⟨⟨⟨by simp [h1'], by simp [not_lt.mpr h2]⟩, by simp [not_lt.mpr h3]⟩, h4⟩,
      by simp [h5]⟩, ?_⟩
    intro p hp
    exact not_le.mpr (h6 p hp)

/-- C6: `validate` returns `valid = true` if and only if `totalBill > 0`, the number of
participants is between 2 and 20, every participant's name is non-empty after trimming,
there is at least one payment and every payment amount is positive; in every other case
`valid = false` and `errors` is non-empty. -/
theorem validate_valid_iff_rules (totalBill : ℚ) (participants : List Participant)
    (payments : List Payment) :
    ((validate totalBill participants payments).valid = true ↔
      (0 < totalBill ∧ (2 ≤ participants.length ∧ participants.length ≤ 20) ∧
        (∀ p ∈ participants, jsTrim p.name ≠ "") ∧ payments ≠ [] ∧
        ∀ p ∈ payments, 0 < p.amount)) ∧
    (((validate totalBill participants payments).valid = false ∧
        (validate totalBill participants payments).errors ≠ []) ↔
      ¬ (0 < totalBill ∧ (2 ≤ participants.length ∧ participants.length ≤ 20) ∧
        (∀ p ∈ participants, jsTrim p.name ≠ "") ∧ payments ≠ [] ∧
        ∀ p ∈ payments, 0 < p.amount)) := by
  have hv := validate_valid_iff_errors totalBill participants payments
  have he := validate_errors_nil_iff totalBill participants payments
  refine ⟨hv.trans he, ?_⟩
  rw [← he]
  constructor
  · rintro ⟨_, h⟩
    exact h
  · intro h
    refine ⟨?_, h⟩
    cases hval : (validate totalBill participants payments).valid
    · rfl
    · exact absurd (hv.mp hval) h

/-- C7: `validate` collects every violation: each of the six messages occurs in `errors`
if and only if its own rule is violated, whatever the other rules give. -/
theorem validate_collects_all (totalBill : ℚ) (participants : List Participant)
    (payments : List Payment) :
    ("Total bill must be greater than zero" ∈ (validate totalBill participants payments).errors
        ↔ ¬ 0 < totalBill) ∧
    ("At least 2 participants required" ∈ (validate totalBill participants payments).errors
        ↔ ¬ 2 ≤ participants.length) ∧
    ("Maximum 20 participants allowed" ∈ (validate totalBill participants payments).errors
        ↔ ¬ participants.length ≤ 20) ∧
    ("All participants must have names" ∈ (validate totalBill participants payments).errors
        ↔ ¬ ∀ p ∈ participants, jsTrim p.name ≠ "") ∧
    ("At least one payment required" ∈ (validate totalBill participants payments).errors
        ↔ ¬ payments ≠ []) ∧
    ("All payments must be positive amounts" ∈ (validate totalBill participants payments).errors
        ↔ ¬ ∀ p ∈ payments, 0 < p.amount) := by
  rw [validate_errors]
  have h1 : (totalBill = 0 ∨ totalBill ≤ 0) ↔ ¬ 0 < totalBill := by
    rw [not_lt]
    constructor
    · rintro (h | h)
      · exact le_of_eq h
      · exact h
    · exact Or.inr
  simp only [List.mem_append, List.mem_map, List.mem_filter, decide_eq_true_eq, name_rule_iff,
    List.length_eq_zero]
  refine ⟨?_, ?_, ?_, ?_, ?_, ?_⟩
  · by_cases h : totalBill = 0 ∨ totalBill ≤ 0
    · simp [h, h1.mp h]
    · have := mt h1.mpr h
      split_ifs <;> simp_all
  · by_cases h : participants.length < 2
    · simp [h]
    · split_ifs <;> simp_all
  · by_cases h : participants.length > 20
    · simp [h]
    · split_ifs <;> simp_all
  · split_ifs <;> simp
  · by_cases h : payments = []
    · simp [h]
    · split_ifs <;> simp_all
  · split_ifs <;> simp

/-! ## The sum of the balances -/

theorem sumAmounts_eq_sum (payments : List Payment) :
    sumAmounts payments = (payments.map fun p => p.amount).sum := by
  have h : ∀ (l : List Payment) (init : ℚ),
      l.foldl (fun sum p => sum + p.amount) init = init + (l.map fun p => p.amount).sum := by
    intro l
    induction l with
    | nil => intro init; simp
    | cons p l ih =>
      intro init
      rw [List.foldl_cons, ih, List.map_cons, List.sum_cons]
      ring
  unfold sumAmounts
  rw [h, zero_add]

/-- Rounding each term moves a sum by at most half a cent per term. -/
theorem abs_sum_round2_sub_le {α : Type} (f : α → ℚ) (l : List α) :
    |(l.map fun a => round2 (f a)).sum - (l.map f).sum| ≤ (l.length : ℚ) / 200 := by
  induction l with
  | nil => simp
  | cons a l ih =>
    simp only [List.map_cons, List.sum_cons, List.length_cons, Nat.cast_succ]
    have h1 := abs_round2_sub_le (f a)
    have e : round2 (f a) + (l.map fun a => round2 (f a)).sum - (f a + (l.map f).sum)
        = (round2 (f a) - f a) + ((l.map fun a => round2 (f a)).sum - (l.map f).sum) := by ring
    rw [e]
    refine le_trans (abs_add _ _) ?_
    linarith

/-- A payment by a participant is counted once when the ids are distinct. -/
theorem sum_ite_payer (participants : List Participant) (id : Int) (amount : ℚ)
    (hids : (participants.map fun p => p.id).Nodup)
    (hmem : ∃ p ∈ participants, p.id = id) :
    (participants.map fun p => if id = p.id then amount else 0).sum = amount := by
  induction participants with
  | nil =>
    obtain ⟨p, hp, _⟩ := hmem
    exact absurd hp (List.not_mem_nil p)
  | cons q rest ih =>
    rw [List.map_cons, List.nodup_cons] at hids
    rw [List.map_cons, List.sum_cons]
    by_cases h : id = q.id
    · rw [if_pos h]
      have hz : (rest.map fun p => if id = p.id then amount else 0) = rest.map fun _ => (0 : ℚ) := by
        apply List.map_congr_left
        intro c hc
        have hne : id ≠ c.id := by
          intro hcid
          apply hids.1
          rw [← h, hcid]
          exact List.mem_map_of_mem (fun p => p.id) hc
        rw [if_neg hne]
      rw [hz]
      simp
    · rw [if_neg h, zero_add]
      apply ih hids.2
      obtain ⟨p, hp, hpid⟩ := hmem
      rcases List.mem_cons.mp hp with hpq | hpr
      · exact absurd (hpq ▸ hpid.symm) h
      · exact ⟨p, hpr, hpid⟩

/-- The `paid` fields add up to the total of the payments. -/
theorem sum_paidBy (participants : List Participant) (payments : List Payment)
    (hids : (participants.map fun p => p.id).Nodup)
    (hpay : ∀ pay ∈ payments, ∃ p ∈ participants, p.id = pay.payerId) :
    (participants.map fun p => paidBy payments p.id).sum = sumAmounts payments := by
  rw [sumAmounts_eq_sum]
  induction payments with
  | nil => simp [paidBy]
  | cons pay payments ih =>
    have hsplit : (participants.map fun p => paidBy (pay :: payments) p.id).sum
        = (participants.map fun p => if pay.payerId = p.id then pay.amount else 0).sum
          + (participants.map fun p => paidBy payments p.id).sum := by
      rw [← List.sum_map_add]
      congr 1
      apply List.map_congr_left
      intro p _
      exact paidBy_cons pay payments p.id
    rw [hsplit, ih (fun pay' h => hpay pay' (List.mem_cons_of_mem _ h)),
      sum_ite_payer participants pay.payerId pay.amount hids (hpay pay (List.mem_cons_self _ _)),
      List.map_cons, List.sum_cons]

theorem sum_map_sub_const {α : Type} (f : α → ℚ) (c : ℚ) (l : List α) :
    (l.map fun a => f a - c).sum = (l.map f).sum - (l.length : ℚ) * c := by
  induction l with
  | nil => simp
  | cons a l ih =>
    simp only [List.map_cons, List.sum_cons, List.length_cons, Nat.cast_succ, ih]
    ring

/-- The shares of `n` people add up to the bill within half a cent per person. -/
theorem abs_share_mul_sub_le (totalBill : ℚ) (n : Nat) (hn : 0 < n) :
    |(n : ℚ) * calculatePerPersonShare totalBill n - totalBill| ≤ (n : ℚ) / 200 := by
  have hn' : (0 : ℚ) < n := by exact_mod_cast hn
  unfold calculatePerPersonShare
  rw [if_neg (Nat.pos_iff_ne_zero.mp hn)]
  have h := abs_round2_sub_le (totalBill / (n : ℚ))
  have e : (n : ℚ) * round2 (totalBill / n) - totalBill
      = (n : ℚ) * (round2 (totalBill / n) - totalBill / n) := by
    field_simp
    ring
  rw [e, abs_mul, abs_of_pos hn']
  calc (n : ℚ) * |round2 (totalBill / n) - totalBill / n| ≤ (n : ℚ) * (1 / 200) :=
        mul_le_mul_of_nonneg_left h (le_of_lt hn')
    _ = (n : ℚ) / 200 := by ring

theorem validInput_length {totalBill : ℚ} {participants : List Participant}
    {payments : List Payment} (h : ValidInput totalBill participants payments) :
    2 ≤ participants.length :=
  ((validate_errors_nil_iff _ _ _).mp ((validate_valid_iff_errors _ _ _).mp h.1)).2.1.1

/-- C1 as amended: for every valid input the sum of the returned balances differs from
`totalPaid - totalBill` by at most 0.01 times the number of participants plus 0.005. -/
theorem sum_balances_close (totalBill : ℚ) (participants : List Participant)
    (payments : List Payment) (h : ValidInput totalBill participants payments) :
    |sumBalances (calculate totalBill participants payments).balances
        - ((calculate totalBill participants payments).totalPaid
            - (calculate totalBill participants payments).totalBill)|
      ≤ (participants.length : ℚ) / 100 + 5 / 1000 := by
  have hn := validInput_length h
  obtain ⟨_, hids, hpay⟩ := h
  have hbal : (calculate totalBill participants payments).balances
      = participants.map fun p =>
          { id := p.id, name := p.name, paid := paidBy payments p.id,
            balance := round2 (paidBy payments p.id
              - calculatePerPersonShare totalBill participants.length) } :=
    calculateBalances_eq_map participants payments _ hids
  have htp : (calculate totalBill participants payments).totalPaid
      = round2 (sumAmounts payments) := rfl
  have htb : (calculate totalBill participants payments).totalBill = totalBill := rfl
  rw [hbal, htp, htb]
  unfold sumBalances
  rw [List.map_map]
  set s := calculatePerPersonShare totalBill participants.length with hs
  have h1 := abs_sum_round2_sub_le (fun p : Participant => paidBy payments p.id - s) participants
  rw [sum_map_sub_const (fun p : Participant => paidBy payments p.id) s participants,
    sum_paidBy participants payments hids hpay] at h1
  have h2 := abs_share_mul_sub_le totalBill participants.length (by omega)
  rw [← hs] at h2
  have h3 := abs_round2_sub_le (sumAmounts payments)
  have hfun : ((fun b : Balance => b.balance) ∘ fun p : Participant =>
      ({ id := p.id, name := p.name, paid := paidBy payments p.id,
         balance := round2 (paidBy payments p.id - s) } : Balance))
      = fun p => round2 (paidBy payments p.id - s) := rfl
  rw [hfun]
  rw [abs_le] at h1 h2 h3 ⊢
  constructor <;> linarith [h1.1, h1.2, h2.1, h2.2, h3.1, h3.2]

/-- Witness for `sum_balances_close`: a bill of 100 among seven, one of them paying. -/
theorem sum_balances_close_witness :
    ValidInput 100 [⟨1, "A"⟩, ⟨2, "B"⟩, ⟨3, "C"⟩, ⟨4, "D"⟩, ⟨5, "E"⟩, ⟨6, "F"⟩, ⟨7, "G"⟩]
      [⟨1, 1, 100⟩] ∧
    |sumBalances (calculate 100
          [⟨1, "A"⟩, ⟨2, "B"⟩, ⟨3, "C"⟩, ⟨4, "D"⟩, ⟨5, "E"⟩, ⟨6, "F"⟩, ⟨7, "G"⟩]
          [⟨1, 1, 100⟩]).balances
        - ((calculate 100
          [⟨1, "A"⟩, ⟨2, "B"⟩, ⟨3, "C"⟩, ⟨4, "D"⟩, ⟨5, "E"⟩, ⟨6, "F"⟩, ⟨7, "G"⟩]
          [⟨1, 1, 100⟩]).totalPaid
            - (calculate 100
          [⟨1, "A"⟩, ⟨2, "B"⟩, ⟨3, "C"⟩, ⟨4, "D"⟩, ⟨5, "E"⟩, ⟨6, "F"⟩, ⟨7, "G"⟩]
          [⟨1, 1, 100⟩]).totalBill)|
      ≤ (([⟨1, "A"⟩, ⟨2, "B"⟩, ⟨3, "C"⟩, ⟨4, "D"⟩, ⟨5, "E"⟩, ⟨6, "F"⟩,
            (⟨7, "G"⟩ : Participant)].length : Nat) : ℚ) / 100 + 5 / 1000 :=
  ⟨by decide!, sum_balances_close _ _ _ (by decide!)⟩

/-- C1 fails as stated: a bill of 100 among seven participants, the first paying all of
it, is a valid input; the share is 14.29, the balances are 85.71 and six times -14.29, and
their sum -0.03 is 0.03 away from `totalPaid - totalBill = 0`. -/
theorem sum_balances_counterexample :
    ValidInput 100 [⟨1, "A"⟩, ⟨2, "B"⟩, ⟨3, "C"⟩, ⟨4, "D"⟩, ⟨5, "E"⟩, ⟨6, "F"⟩, ⟨7, "G"⟩]
      [⟨1, 1, 100⟩] ∧
    (calculate 100 [⟨1, "A"⟩, ⟨2, "B"⟩, ⟨3, "C"⟩, ⟨4, "D"⟩, ⟨5, "E"⟩, ⟨6, "F"⟩, ⟨7, "G"⟩]
      [⟨1, 1, 100⟩]).balances.map (fun b => b.balance)
      = [8571 / 100, -(1429 / 100), -(1429 / 100), -(1429 / 100), -(1429 / 100),
          -(1429 / 100), -(1429 / 100)] ∧
    ¬ |sumBalances (calculate 100
          [⟨1, "A"⟩, ⟨2, "B"⟩, ⟨3, "C"⟩, ⟨4, "D"⟩, ⟨5, "E"⟩, ⟨6, "F"⟩, ⟨7, "G"⟩]
          [⟨1, 1, 100⟩]).balances
        - ((calculate 100
          [⟨1, "A"⟩, ⟨2, "B"⟩, ⟨3, "C"⟩, ⟨4, "D"⟩, ⟨5, "E"⟩, ⟨6, "F"⟩, ⟨7, "G"⟩]
          [⟨1, 1, 100⟩]).totalPaid
            - (calculate 100
          [⟨1, "A"⟩, ⟨2, "B"⟩, ⟨3, "C"⟩, ⟨4, "D"⟩, ⟨5, "E"⟩, ⟨6, "F"⟩, ⟨7, "G"⟩]
          [⟨1, 1, 100⟩]).totalBill)| ≤ 1 / 100 := by
  decide!

/-! ## The settlement loop -/

/-- One iteration of the loop, unfolded. -/
theorem settleLoop_succ (fuel : Nat) (d c : Balance) (ds cs : List Balance) :
    settleLoop (fuel + 1) (d :: ds) (c :: cs)
      = (if min d.balance c.balance > 1 / 100 then
          [{ fromName := d.name, toName := c.name, amount := round2 (min d.balance c.balance) }]
          else [])
        ++ settleLoop fuel
            (if d.balance - min d.balance c.balance < 1 / 100 then ds
              else { d with balance := d.balance - min d.balance c.balance } :: ds)
            (if c.balance - min d.balance c.balance < 1 / 100 then cs
              else { c with balance := c.balance - min d.balance c.balance } :: cs) := rfl

theorem settleLoop_nil_left (fuel : Nat) (cs : List Balance) : settleLoop fuel [] cs = [] := by
  cases fuel <;> simp [settleLoop]

theorem settleLoop_nil_right (fuel : Nat) (ds : List Balance) : settleLoop fuel ds [] = [] := by
  cases fuel <;> cases ds <;> simp [settleLoop]

/-- Every iteration moves a cursor: the two arrays lose at least one record. -/
theorem step_length_lt (d c : Balance) (ds cs : List Balance) :
    (if d.balance - min d.balance c.balance < 1 / 100 then ds
        else { d with balance := d.balance - min d.balance c.balance } :: ds).length
      + (if c.balance - min d.balance c.balance < 1 / 100 then cs
        else { c with balance := c.balance - min d.balance c.balance } :: cs).length
      < (d :: ds).length + (c :: cs).length := by
  rcases le_total d.balance c.balance with h | h
  · rw [min_eq_left h, sub_self, if_pos (by norm_num)]
    split_ifs <;> simp only [List.length_cons] <;> omega
  · rw [min_eq_right h, sub_self, if_pos (by norm_num : (0 : ℚ) < 1 / 100)]
    split_ifs <;> simp only [List.length_cons] <;> omega

/-- The loop stops because a cursor reaches the end of its array, not for lack of fuel:
any fuel from `debtors.length + creditors.length` on gives the same settlements. -/
theorem settleLoop_fuel (fuel : Nat) (ds cs : List Balance)
    (h : ds.length + cs.length ≤ fuel) :
    settleLoop fuel ds cs = settleLoop (ds.length + cs.length) ds cs := by
  have key : ∀ (f1 f2 : Nat) (ds cs : List Balance), ds.length + cs.length ≤ f1 →
      ds.length + cs.length ≤ f2 → settleLoop f1 ds cs = settleLoop f2 ds cs := by
    intro f1
    induction f1 with
    | zero =>
      intro f2 ds cs h1 _
      have hd : ds = [] := List.length_eq_zero.mp (by omega)
      subst hd
      rw [settleLoop_nil_left, settleLoop_nil_left]
    | succ f1 ih =>
      intro f2 ds cs h1 h2
      cases ds with
      | nil => rw [settleLoop_nil_left, settleLoop_nil_left]
      | cons d ds =>
        cases cs with
        | nil => rw [settleLoop_nil_right, settleLoop_nil_right]
        | cons c cs =>
          cases f2 with
          | zero => simp at h2
          | succ f2 =>
            rw [settleLoop_succ, settleLoop_succ]
            have hlt := step_length_lt d c ds cs
            rw [ih f2 _ _ (by omega) (by omega)]
  exact key _ _ ds cs h (le_refl _)

/-- The loop pushes fewer settlements than there are records in the two arrays. -/
theorem settleLoop_length (fuel : Nat) (ds cs : List Balance) :
    (settleLoop fuel ds cs).length ≤ ds.length + cs.length - 1 := by
  induction fuel generalizing ds cs with
  | zero => simp [settleLoop]
  | succ fuel ih =>
    cases ds with
    | nil => simp [settleLoop_nil_left]
    | cons d ds =>
      cases cs with
      | nil => simp [settleLoop_nil_right]
      | cons c cs =>
        rw [settleLoop_succ, List.length_append]
        have hlt := step_length_lt d c ds cs
        have hrec := ih
          (if d.balance - min d.balance c.balance < 1 / 100 then ds
            else { d with balance := d.balance - min d.balance c.balance } :: ds)
          (if c.balance - min d.balance c.balance < 1 / 100 then cs
            else { c with balance := c.balance - min d.balance c.balance } :: cs)
        have hp : (if min d.balance c.balance > 1 / 100 then
            [({ fromName := d.name, toName := c.name,
                amount := round2 (min d.balance c.balance) } : Settlement)]
            else []).length ≤ 1 := by
          split_ifs <;> simp
        simp only [List.length_cons] at hlt ⊢
        omega

theorem length_sortDesc (l : List Balance) : (sortDesc l).length = l.length :=
  List.length_insertionSort _ l

theorem perm_sortDesc (l : List Balance) : (sortDesc l).Perm l :=
  List.perm_insertionSort _ l

/-- The unsettled participants are the creditors and the debtors. -/
theorem unsettledCount_eq (balances : List Balance) :
    unsettledCount balances = (debtorsOf balances).length + (creditorsOf balances).length := by
  unfold unsettledCount debtorsOf creditorsOf
  rw [length_sortDesc, length_sortDesc, List.length_map]
  induction balances with
  | nil => rfl
  | cons b l ih =>
    simp only [List.filter_cons]
    by_cases h1 : b.balance > 1 / 100
    · have h2 : ¬ b.balance < -(1 / 100) := by intro h; linarith
      have h3 : |b.balance| > 1 / 100 := lt_of_lt_of_le h1 (le_abs_self _)
      simp only [h1, h2, h3, decide_True, decide_False, if_true, List.length_cons]
      simp only [Bool.false_eq_true, if_false]
      omega
    · by_cases h2 : b.balance < -(1 / 100)
      · have h3 : |b.balance| > 1 / 100 := by
          rw [gt_iff_lt, lt_abs]; right; linarith
        simp only [h1, h2, h3, decide_True, decide_False, if_true, List.length_cons]
        simp only [Bool.false_eq_true, if_false]
        omega
      · have h3 : ¬ |b.balance| > 1 / 100 := by
          rw [gt_iff_lt, lt_abs]; rintro (h | h)
          · exact h1 h
          · exact h2 (by linarith)
        simp only [h1, h2, h3, decide_False, Bool.false_eq_true, if_false]
        exact ih

theorem generateSettlements_length (balances : List Balance) :
    (generateSettlements balances).length ≤ unsettledCount balances - 1 := by
  rw [unsettledCount_eq]
  exact settleLoop_length _ _ _

/-- C3: when at least one participant of the result of `calculate` is unsettled
(`|balance| > 0.01`), the number of settlements is at most the number of unsettled
participants minus one; this holds for every input, valid or not. -/
theorem settlements_count_le (totalBill : ℚ) (participants : List Participant)
    (payments : List Payment)
    (h : 1 ≤ unsettledCount (calculate totalBill participants payments).balances) :
    ((calculate totalBill participants payments).settlements.length : ℤ)
      ≤ (unsettledCount (calculate totalBill participants payments).balances : ℤ) - 1 := by
  have := generateSettlements_length (calculate totalBill participants payments).balances
  have e : (calculate totalBill participants payments).settlements
      = generateSettlements (calculate totalBill participants payments).balances := rfl
  rw [e]
  omega

/-- Witness for `settlements_count_le`: a bill of 300 among three, one paying all. -/
theorem settlements_count_le_witness :
    1 ≤ unsettledCount (calculate 300 [⟨1, "A"⟩, ⟨2, "B"⟩, ⟨3, "C"⟩] [⟨1, 1, 300⟩]).balances ∧
    ((calculate 300 [⟨1, "A"⟩, ⟨2, "B"⟩, ⟨3, "C"⟩] [⟨1, 1, 300⟩]).settlements.length : ℤ)
      ≤ (unsettledCount
          (calculate 300 [⟨1, "A"⟩, ⟨2, "B"⟩, ⟨3, "C"⟩] [⟨1, 1, 300⟩]).balances : ℤ) - 1 :=
  ⟨by decide!, settlements_count_le _ _ _ (by decide!)⟩

/-! ## Whole cents through the loop -/


theorem AllCents.tail {b : Balance} {l : List Balance} (h : AllCents (b :: l)) : AllCents l :=
  fun x hx => h x (List.mem_cons_of_mem _ hx)

theorem AllCents.head {b : Balance} {l : List Balance} (h : AllCents (b :: l)) :
    IsCents b.balance :=
  h b (List.mem_cons_self _ _)

/-- The debtor array after an iteration still holds whole cents. -/
theorem AllCents.step {d : Balance} {ds : List Balance} (a : ℚ) (ha : IsCents a)
    (h : AllCents (d :: ds)) :
    AllCents (if d.balance - a < 1 / 100 then ds
      else { d with balance := d.balance - a } :: ds) := by
  split_ifs
  · exact h.tail
  · intro x hx
    rcases List.mem_cons.mp hx with rfl | hx
    · exact h.head.sub ha
    · exact h.tail x hx

theorem mem_sortDesc {b : Balance} {l : List Balance} : b ∈ sortDesc l ↔ b ∈ l :=
  (perm_sortDesc l).mem_iff

theorem allCents_creditorsOf {balances : List Balance} (h : AllCents balances) :
    AllCents (creditorsOf balances) := by
  intro b hb
  rw [creditorsOf, mem_sortDesc] at hb
  exact h b (List.mem_filter.mp hb).1

theorem allCents_debtorsOf {balances : List Balance} (h : AllCents balances) :
    AllCents (debtorsOf balances) := by
  intro b hb
  rw [debtorsOf, mem_sortDesc] at hb
  obtain ⟨p, hp, rfl⟩ := List.mem_map.mp hb
  exact (h p (List.mem_filter.mp hp).1).abs

theorem allCents_calculateBalances (participants : List Participant) (payments : List Payment)
    (perPersonShare : ℚ) : AllCents (calculateBalances participants payments perPersonShare) := by
  intro b hb
  unfold calculateBalances at hb
  obtain ⟨p, _, rfl⟩ := List.mem_map.mp hb
  exact isCents_round2 _

/-- On whole cents every pushed amount is the transfer itself, above one cent. -/
theorem settleLoop_amount (fuel : Nat) (ds cs : List Balance) (hd : AllCents ds)
    (hc : AllCents cs) :
    ∀ s ∈ settleLoop fuel ds cs, s.amount > 1 / 100 ∧ IsCents s.amount := by
  induction fuel generalizing ds cs with
  | zero => simp [settleLoop]
  | succ fuel ih =>
    cases ds with
    | nil => simp [settleLoop_nil_left]
    | cons d ds =>
      cases cs with
      | nil => simp [settleLoop_nil_right]
      | cons c cs =>
        have ha : IsCents (min d.balance c.balance) := hd.head.min hc.head
        intro s hs
        rw [settleLoop_succ, List.mem_append] at hs
        rcases hs with hs | hs
        · split_ifs at hs with hgt
          · rw [List.mem_singleton] at hs
            subst hs
            simp only [round2_of_isCents ha]
            exact ⟨hgt, ha⟩
          · exact absurd hs (List.not_mem_nil s)
        · exact ih _ _ (hd.step _ ha) (hc.step _ ha) s hs

/-! ## What one party sends and receives -/

theorem sentBy_nil (name : String) : sentBy [] name = 0 := rfl

theorem sentBy_append (l₁ l₂ : List Settlement) (name : String) :
    sentBy (l₁ ++ l₂) name = sentBy l₁ name + sentBy l₂ name := by
  unfold sentBy
  rw [List.filter_append, List.map_append, List.sum_append]

theorem sentBy_singleton (s : Settlement) (name : String) :
    sentBy [s] name = if s.fromName = name then s.amount else 0 := by
  unfold sentBy
  by_cases h : s.fromName = name <;> simp [List.filter_cons, h]

theorem receivedBy_eq_sentBy_swap (l : List Settlement) (name : String) :
    receivedBy l name = sentBy (l.map Settlement.swap) name := by
  unfold receivedBy sentBy
  induction l with
  | nil => rfl
  | cons s l ih =>
    simp only [List.map_cons, List.filter_cons, Settlement.swap]
    by_cases h : s.toName = name
    · simp only [h, decide_True, if_true, List.map_cons, List.sum_cons]
      rw [ih]
    · simp only [h, decide_False, Bool.false_eq_true, if_false]
      rw [ih]

/-- Nothing is sent under a name that no settlement has as `from`. -/
theorem sentBy_eq_zero (l : List Settlement) (name : String)
    (h : ∀ s ∈ l, s.fromName ≠ name) : sentBy l name = 0 := by
  unfold sentBy
  rw [List.filter_eq_nil_iff.mpr]
  · rfl
  · intro s hs
    simpa using h s hs

theorem sentBy_nonneg (l : List Settlement) (name : String)
    (h : ∀ s ∈ l, 0 ≤ s.amount) : 0 ≤ sentBy l name := by
  unfold sentBy
  apply List.sum_nonneg
  intro x hx
  obtain ⟨s, hs, rfl⟩ := List.mem_map.mp hx
  exact h s (List.mem_filter.mp hs).1

/-- The loop is symmetric in its two arrays. -/
theorem settleLoop_swap (fuel : Nat) (ds cs : List Balance) :
    settleLoop fuel cs ds = (settleLoop fuel ds cs).map Settlement.swap := by
  induction fuel generalizing ds cs with
  | zero => simp [settleLoop]
  | succ fuel ih =>
    cases ds with
    | nil => simp [settleLoop_nil_left, settleLoop_nil_right]
    | cons d ds =>
      cases cs with
      | nil => simp [settleLoop_nil_left, settleLoop_nil_right]
      | cons c cs =>
        rw [settleLoop_succ, settleLoop_succ, List.map_append, ← ih, min_comm c.balance d.balance]
        congr 1
        split_ifs <;> rfl

/-- Every settlement goes from a record of the debtor array to one of the creditor array. -/
theorem settleLoop_names (fuel : Nat) (ds cs : List Balance) :
    ∀ s ∈ settleLoop fuel ds cs,
      s.fromName ∈ ds.map (fun b => b.name) ∧ s.toName ∈ cs.map (fun b => b.name) := by
  induction fuel generalizing ds cs with
  | zero => simp [settleLoop]
  | succ fuel ih =>
    cases ds with
    | nil => simp [settleLoop_nil_left]
    | cons d ds =>
      cases cs with
      | nil => simp [settleLoop_nil_right]
      | cons c cs =>
        intro s hs
        rw [settleLoop_succ, List.mem_append] at hs
        rcases hs with hs | hs
        · split_ifs at hs
          · rw [List.mem_singleton] at hs
            subst hs
            simp
          · exact absurd hs (List.not_mem_nil s)
        · have h := ih _ _ s hs
          constructor
          · have h1 := h.1
            split_ifs at h1
            · exact List.mem_cons_of_mem _ h1
            · simpa using h1
          · have h2 := h.2
            split_ifs at h2
            · exact List.mem_cons_of_mem _ h2
            · simpa using h2

theorem settleLoop_sentBy_eq_zero (fuel : Nat) (ds cs : List Balance) (name : String)
    (h : name ∉ ds.map fun b => b.name) : sentBy (settleLoop fuel ds cs) name = 0 := by
  apply sentBy_eq_zero
  intro s hs heq
  exact h (heq ▸ (settleLoop_names fuel ds cs s hs).1)

/-- The names in the debtor array after an iteration are among those before; they are
distinct if they were. -/
theorem step_names_nodup {d : Balance} {ds : List Balance} (a : ℚ)
    (h : ((d :: ds).map fun b => b.name).Nodup) :
    ((if d.balance - a < 1 / 100 then ds
      else { d with balance := d.balance - a } :: ds).map fun b => b.name).Nodup := by
  split_ifs
  · exact (List.nodup_cons.mp h).2
  · exact h

/-- On whole cents a debtor never sends more than its debt. -/
theorem settleLoop_sent_le (fuel : Nat) (ds cs : List Balance) (hdc : AllCents ds)
    (hcc : AllCents cs) (hd0 : ∀ b ∈ ds, 0 ≤ b.balance) (hc0 : ∀ b ∈ cs, 0 ≤ b.balance)
    (hn : (ds.map fun b => b.name).Nodup) :
    ∀ d ∈ ds, sentBy (settleLoop fuel ds cs) d.name ≤ d.balance := by
  induction fuel generalizing ds cs with
  | zero =>
    intro d hd
    simpa [settleLoop, sentBy_nil] using hd0 d hd
  | succ fuel ih =>
    cases ds with
    | nil => intro d hd; exact absurd hd (List.not_mem_nil d)
    | cons d ds =>
      cases cs with
      | nil =>
        intro x hx
        rw [settleLoop_nil_right, sentBy_nil]
        exact hd0 x hx
      | cons c cs =>
        have ha : IsCents (min d.balance c.balance) := hdc.head.min hcc.head
        have had : min d.balance c.balance ≤ d.balance := min_le_left _ _
        have hac : min d.balance c.balance ≤ c.balance := min_le_right _ _
        have ha0 : 0 ≤ min d.balance c.balance :=
          le_min (hd0 d (List.mem_cons_self _ _)) (hc0 c (List.mem_cons_self _ _))
        have hd0' : ∀ b ∈ (if d.balance - min d.balance c.balance < 1 / 100 then ds
            else { d with balance := d.balance - min d.balance c.balance } :: ds),
            0 ≤ b.balance := by
          intro b hb
          split_ifs at hb
          · exact hd0 b (List.mem_cons_of_mem _ hb)
          · rcases List.mem_cons.mp hb with rfl | hb
            · simp
            · exact hd0 b (List.mem_cons_of_mem _ hb)
        have hc0' : ∀ b ∈ (if c.balance - min d.balance c.balance < 1 / 100 then cs
            else { c with balance := c.balance - min d.balance c.balance } :: cs),
            0 ≤ b.balance := by
          intro b hb
          split_ifs at hb
          · exact hc0 b (List.mem_cons_of_mem _ hb)
          · rcases List.mem_cons.mp hb with rfl | hb
            · simp
            · exact hc0 b (List.mem_cons_of_mem _ hb)
        have hrec := ih _ _ (hdc.step _ ha) (hcc.step _ ha) hd0' hc0' (step_names_nodup _ hn)
        have hpush : ∀ name : String,
            sentBy (if min d.balance c.balance > 1 / 100 then
              [({ fromName := d.name, toName := c.name,
                  amount := round2 (min d.balance c.balance) } : Settlement)]
              else []) name
            = if min d.balance c.balance > 1 / 100 ∧ d.name = name
                then min d.balance c.balance else 0 := by
          intro name
          by_cases hgt : min d.balance c.balance > 1 / 100
          · rw [if_pos hgt, sentBy_singleton, round2_of_isCents ha]
            by_cases hname : d.name = name
            · rw [if_pos hname, if_pos ⟨hgt, hname⟩]
            · rw [if_neg hname, if_neg (fun h => hname h.2)]
          · rw [if_neg hgt, sentBy_nil, if_neg (fun h => hgt h.1)]
        have hnd := List.nodup_cons.mp hn
        intro x hx
        rw [settleLoop_succ, sentBy_append, hpush]
        rcases List.mem_cons.mp hx with rfl | hx
        · have h1 : (if min x.balance c.balance > 1 / 100 ∧ x.name = x.name
              then min x.balance c.balance else 0) ≤ min x.balance c.balance := by
            split_ifs
            · exact le_refl _
            · exact ha0
          by_cases hadv : x.balance - min x.balance c.balance < 1 / 100
          · rw [if_pos hadv, settleLoop_sentBy_eq_zero _ _ _ _ hnd.1]
            linarith
          · have h2 := hrec { x with balance := x.balance - min x.balance c.balance }
              (by rw [if_neg hadv]; exact List.mem_cons_self _ _)
            simp only at h2
            linarith
        · have hne : d.name ≠ x.name := by
            intro heq
            have hm : x.name ∈ ds.map (fun b => b.name) :=
              List.mem_map_of_mem (fun b => b.name) hx
            rw [← heq] at hm
            exact hnd.1 hm
          rw [if_neg (fun h => hne h.2), zero_add]
          apply hrec x
          split_ifs
          · exact hx
          · exact List.mem_cons_of_mem _ hx

/-- On whole cents a creditor never receives more than its credit. -/
theorem settleLoop_received_le (fuel : Nat) (ds cs : List Balance) (hdc : AllCents ds)
    (hcc : AllCents cs) (hd0 : ∀ b ∈ ds, 0 ≤ b.balance) (hc0 : ∀ b ∈ cs, 0 ≤ b.balance)
    (hn : (cs.map fun b => b.name).Nodup) :
    ∀ c ∈ cs, receivedBy (settleLoop fuel ds cs) c.name ≤ c.balance := by
  intro c hc
  rw [receivedBy_eq_sentBy_swap, ← settleLoop_swap]
  exact settleLoop_sent_le fuel cs ds hcc hdc hc0 hd0 hn c hc

theorem settleLoop_receivedBy_eq_zero (fuel : Nat) (ds cs : List Balance) (name : String)
    (h : name ∉ cs.map fun b => b.name) : receivedBy (settleLoop fuel ds cs) name = 0 := by
  rw [receivedBy_eq_sentBy_swap, ← settleLoop_swap]
  exact settleLoop_sentBy_eq_zero fuel cs ds name h

/-! ## The two arrays of `generateSettlements` -/

theorem mem_creditorsOf {c : Balance} {balances : List Balance} :
    c ∈ creditorsOf balances ↔ c ∈ balances ∧ c.balance > 1 / 100 := by
  rw [creditorsOf, mem_sortDesc, List.mem_filter, decide_eq_true_eq]

theorem mem_debtorsOf {d : Balance} {balances : List Balance} :
    d ∈ debtorsOf balances ↔
      ∃ p ∈ balances, p.balance < -(1 / 100) ∧ d = { p with balance := |p.balance| } := by
  rw [debtorsOf, mem_sortDesc, List.mem_map]
  constructor
  · rintro ⟨p, hp, rfl⟩
    rw [List.mem_filter, decide_eq_true_eq] at hp
    exact ⟨p, hp.1, hp.2, rfl⟩
  · rintro ⟨p, hp, hlt, rfl⟩
    exact ⟨p, List.mem_filter.mpr ⟨hp, by simpa using hlt⟩, rfl⟩

theorem nodup_names_creditorsOf {balances : List Balance}
    (h : (balances.map fun b => b.name).Nodup) :
    ((creditorsOf balances).map fun b => b.name).Nodup := by
  have hp : ((creditorsOf balances).map fun b => b.name).Perm
      ((balances.filter fun p => decide (p.balance > 1 / 100)).map fun b => b.name) :=
    (perm_sortDesc _).map _
  rw [hp.nodup_iff]
  exact h.sublist ((List.filter_sublist _).map _)

theorem nodup_names_debtorsOf {balances : List Balance}
    (h : (balances.map fun b => b.name).Nodup) :
    ((debtorsOf balances).map fun b => b.name).Nodup := by
  have hp : ((debtorsOf balances).map fun b => b.name).Perm
      (((balances.filter fun p => decide (p.balance < -(1 / 100))).map fun p =>
        ({ p with balance := |p.balance| } : Balance)).map fun b => b.name) :=
    (perm_sortDesc _).map _
  rw [hp.nodup_iff, List.map_map]
  exact h.sublist ((List.filter_sublist _).map _)

/-- With distinct names a record is found by its name. -/
theorem eq_of_name_eq {balances : List Balance} (h : (balances.map fun b => b.name).Nodup)
    {x y : Balance} (hx : x ∈ balances) (hy : y ∈ balances) (hxy : x.name = y.name) : x = y :=
  List.inj_on_of_nodup_map h hx hy hxy

theorem name_mem_debtorsOf {balances : List Balance}
    (h : (balances.map fun b => b.name).Nodup) {b : Balance} (hb : b ∈ balances) :
    b.name ∈ (debtorsOf balances).map (fun b => b.name) ↔ b.balance < -(1 / 100) := by
  rw [List.mem_map]
  constructor
  · rintro ⟨d, hd, hname⟩
    obtain ⟨p, hp, hlt, rfl⟩ := mem_debtorsOf.mp hd
    have : p = b := eq_of_name_eq h hp hb hname
    rw [← this]
    exact hlt
  · intro hlt
    exact ⟨{ b with balance := |b.balance| }, mem_debtorsOf.mpr ⟨b, hb, hlt, rfl⟩, rfl⟩

theorem name_mem_creditorsOf {balances : List Balance}
    (h : (balances.map fun b => b.name).Nodup) {b : Balance} (hb : b ∈ balances) :
    b.name ∈ (creditorsOf balances).map (fun b => b.name) ↔ b.balance > 1 / 100 := by
  rw [List.mem_map]
  constructor
  · rintro ⟨c, hc, hname⟩
    obtain ⟨hc1, hc2⟩ := mem_creditorsOf.mp hc
    have : c = b := eq_of_name_eq h hc1 hb hname
    rw [← this]
    exact hc2
  · intro hgt
    exact ⟨b, mem_creditorsOf.mpr ⟨hb, hgt⟩, rfl⟩

theorem nonneg_debtorsOf (balances : List Balance) : ∀ b ∈ debtorsOf balances, 0 ≤ b.balance := by
  intro b hb
  obtain ⟨p, _, _, rfl⟩ := mem_debtorsOf.mp hb
  exact abs_nonneg _

theorem nonneg_creditorsOf (balances : List Balance) :
    ∀ b ∈ creditorsOf balances, 0 ≤ b.balance := by
  intro b hb
  have := (mem_creditorsOf.mp hb).2
  linarith

/-! ## Settlements against the balances -/

theorem generateSettlements_sent_le {balances : List Balance}
    (hn : (balances.map fun b => b.name).Nodup) (hc : AllCents balances) :
    ∀ b ∈ balances, b.balance < -(1 / 100) →
      sentBy (generateSettlements balances) b.name ≤ |b.balance| := by
  intro b hb hlt
  exact settleLoop_sent_le _ _ _ (allCents_debtorsOf hc) (allCents_creditorsOf hc)
    (nonneg_debtorsOf balances) (nonneg_creditorsOf balances) (nodup_names_debtorsOf hn)
    { b with balance := |b.balance| } (mem_debtorsOf.mpr ⟨b, hb, hlt, rfl⟩)

theorem generateSettlements_received_le {balances : List Balance}
    (hn : (balances.map fun b => b.name).Nodup) (hc : AllCents balances) :
    ∀ b ∈ balances, b.balance > 1 / 100 →
      receivedBy (generateSettlements balances) b.name ≤ b.balance := by
  intro b hb hgt
  exact settleLoop_received_le _ _ _ (allCents_debtorsOf hc) (allCents_creditorsOf hc)
    (nonneg_debtorsOf balances) (nonneg_creditorsOf balances) (nodup_names_creditorsOf hn)
    b (mem_creditorsOf.mpr ⟨hb, hgt⟩)

theorem generateSettlements_sent_eq_zero {balances : List Balance}
    (hn : (balances.map fun b => b.name).Nodup) {b : Balance} (hb : b ∈ balances)
    (h : ¬ b.balance < -(1 / 100)) : sentBy (generateSettlements balances) b.name = 0 :=
  settleLoop_sentBy_eq_zero _ _ _ _ (fun hm => h ((name_mem_debtorsOf hn hb).mp hm))

theorem generateSettlements_received_eq_zero {balances : List Balance}
    (hn : (balances.map fun b => b.name).Nodup) {b : Balance} (hb : b ∈ balances)
    (h : ¬ b.balance > 1 / 100) : receivedBy (generateSettlements balances) b.name = 0 :=
  settleLoop_receivedBy_eq_zero _ _ _ _ (fun hm => h ((name_mem_creditorsOf hn hb).mp hm))

theorem generateSettlements_amount_nonneg {balances : List Balance} (hc : AllCents balances) :
    ∀ s ∈ generateSettlements balances, 0 ≤ s.amount := by
  intro s hs
  have := (settleLoop_amount _ _ _ (allCents_debtorsOf hc) (allCents_creditorsOf hc) s hs).1
  linarith

theorem receivedBy_nonneg (l : List Settlement) (name : String)
    (h : ∀ s ∈ l, 0 ≤ s.amount) : 0 ≤ receivedBy l name := by
  rw [receivedBy_eq_sentBy_swap]
  apply sentBy_nonneg
  intro s hs
  obtain ⟨t, ht, rfl⟩ := List.mem_map.mp hs
  exact h t ht

/-- Applying the settlements moves no balance away from zero or across it. -/
theorem abs_applySettlements_le {balances : List Balance}
    (hn : (balances.map fun b => b.name).Nodup) (hc : AllCents balances) :
    ∀ b ∈ balances, |applySettlements (generateSettlements balances) b| ≤ |b.balance| := by
  intro b hb
  unfold applySettlements
  have hs0 := sentBy_nonneg (generateSettlements balances) b.name
    (generateSettlements_amount_nonneg hc)
  have hr0 := receivedBy_nonneg (generateSettlements balances) b.name
    (generateSettlements_amount_nonneg hc)
  by_cases hlt : b.balance < -(1 / 100)
  · have h1 := generateSettlements_sent_le hn hc b hb hlt
    have h2 := generateSettlements_received_eq_zero hn hb (by intro h; linarith)
    rw [h2]
    rw [abs_of_neg (by linarith : b.balance < 0)] at h1 ⊢
    rw [abs_le]
    constructor <;> linarith
  · have h1 := generateSettlements_sent_eq_zero hn hb hlt
    rw [h1]
    by_cases hgt : b.balance > 1 / 100
    · have h2 := generateSettlements_received_le hn hc b hb hgt
      rw [abs_of_pos (by linarith : (0 : ℚ) < b.balance), abs_le]
      constructor <;> linarith
    · rw [generateSettlements_received_eq_zero hn hb hgt]
      simp

/-- C5 as amended: for every list of balances with distinct names whose balances are whole
numbers of cents, in the output of `generateSettlements` the amounts sent by any one debtor
total at most that debtor's `|balance|`, the amounts received by any one creditor total at
most that creditor's balance, and the sum of `|balance|` over all participants after
applying all settlements is no larger than before. -/
theorem settlements_within_balances (balances : List Balance)
    (hn : (balances.map fun b => b.name).Nodup) (hc : AllCents balances) :
    (∀ b ∈ balances, b.balance < -(1 / 100) →
      sentBy (generateSettlements balances) b.name ≤ |b.balance|) ∧
    (∀ b ∈ balances, b.balance > 1 / 100 →
      receivedBy (generateSettlements balances) b.name ≤ b.balance) ∧
    (balances.map fun b => |applySettlements (generateSettlements balances) b|).sum
      ≤ (balances.map fun b => |b.balance|).sum :=
  ⟨generateSettlements_sent_le hn hc, generateSettlements_received_le hn hc,
    List.sum_le_sum (abs_applySettlements_le hn hc)⟩


/-- Witness for `settlements_within_balances`: A is owed 200, B and C owe 100 each. -/
theorem settlements_within_balances_witness :
    (([⟨1, "A", 300, 200⟩, ⟨2, "B", 0, -100⟩, ⟨3, "C", 0, -100⟩] : List Balance).map
      fun b => b.name).Nodup ∧
    AllCents [⟨1, "A", 300, 200⟩, ⟨2, "B", 0, -100⟩, ⟨3, "C", 0, -100⟩] ∧
    ((∀ b ∈ ([⟨1, "A", 300, 200⟩, ⟨2, "B", 0, -100⟩, ⟨3, "C", 0, -100⟩] : List Balance),
      b.balance < -(1 / 100) →
      sentBy (generateSettlements [⟨1, "A", 300, 200⟩, ⟨2, "B", 0, -100⟩, ⟨3, "C", 0, -100⟩])
        b.name ≤ |b.balance|) ∧
    (∀ b ∈ ([⟨1, "A", 300, 200⟩, ⟨2, "B", 0, -100⟩, ⟨3, "C", 0, -100⟩] : List Balance),
      b.balance > 1 / 100 →
      receivedBy (generateSettlements [⟨1, "A", 300, 200⟩, ⟨2, "B", 0, -100⟩, ⟨3, "C", 0, -100⟩])
        b.name ≤ b.balance) ∧
    (([⟨1, "A", 300, 200⟩, ⟨2, "B", 0, -100⟩, ⟨3, "C", 0, -100⟩] : List Balance).map fun b =>
      |applySettlements
        (generateSettlements [⟨1, "A", 300, 200⟩, ⟨2, "B", 0, -100⟩, ⟨3, "C", 0, -100⟩]) b|).sum
      ≤ (([⟨1, "A", 300, 200⟩, ⟨2, "B", 0, -100⟩, ⟨3, "C", 0, -100⟩] : List Balance).map
          fun b => |b.balance|).sum) :=
  ⟨by decide, by decide!, settlements_within_balances _ (by decide) (by decide!)⟩

/-- C5 fails as stated: for the balances A = -0.016 and B = 0.016 the one settlement is
A to B with the transfer 0.016 rounded to 0.02, more than A owes. -/
theorem settlements_overshoot_counterexample :
    (([⟨1, "A", 0, -(2 / 125)⟩, ⟨2, "B", 0, 2 / 125⟩] : List Balance).map
      fun b => b.name).Nodup ∧
    generateSettlements [⟨1, "A", 0, -(2 / 125)⟩, ⟨2, "B", 0, 2 / 125⟩]
      = [⟨"A", "B", 2 / 100⟩] ∧
    ¬ (∀ b ∈ ([⟨1, "A", 0, -(2 / 125)⟩, ⟨2, "B", 0, 2 / 125⟩] : List Balance),
      b.balance < -(1 / 100) →
      sentBy (generateSettlements [⟨1, "A", 0, -(2 / 125)⟩, ⟨2, "B", 0, 2 / 125⟩]) b.name
        ≤ |b.balance|) := by
  decide!

/-! ## The loop on whole cents -/

theorem swap_swap (l : List Settlement) : (l.map Settlement.swap).map Settlement.swap = l := by
  rw [List.map_map]
  conv_rhs => rw [← List.map_id l]
  apply List.map_congr_left
  intro s _
  rfl

theorem sentBy_swap (l : List Settlement) : sentBy (l.map Settlement.swap) = receivedBy l :=
  funext fun name => (receivedBy_eq_sentBy_swap l name).symm

theorem receivedBy_swap (l : List Settlement) : receivedBy (l.map Settlement.swap) = sentBy l := by
  funext name
  rw [receivedBy_eq_sentBy_swap, swap_swap]

theorem isCents_cent : IsCents (1 / 100) := (isCents_iff _).mpr ⟨1, by norm_num⟩

/-- More than a cent, in whole cents, is at least two cents. -/
theorem two_cents_le {x : ℚ} (hx : IsCents x) (h : 1 / 100 < x) : 2 / 100 ≤ x := by
  have := isCents_cent.add_cent_le hx h
  linarith

/-- The loop from a state in which the debtor at the cursor owes less than the creditor
at the cursor is owed: one iteration, then the loop from the next state. -/
theorem settleLoop_lt (fuel : Nat) {d c : Balance} {dt ct : List Balance}
    (hd : IsCents d.balance) (hc : IsCents c.balance) (hlt : d.balance < c.balance) :
    settleLoop (fuel + 1) (d :: dt) (c :: ct)
      = (if d.balance > 1 / 100 then
          [({ fromName := d.name, toName := c.name, amount := d.balance } : Settlement)]
          else [])
        ++ settleLoop fuel dt ({ c with balance := c.balance - d.balance } :: ct) := by
  have hgap := hd.add_cent_le hc hlt
  have h1 : d.balance - d.balance < 1 / 100 := by rw [sub_self]; norm_num
  have h2 : ¬ c.balance - d.balance < 1 / 100 := by linarith
  rw [settleLoop_succ, min_eq_left (le_of_lt hlt), if_pos h1, if_neg h2, round2_of_isCents hd]

/-- The loop from a state in which debtor and creditor at the cursors match. -/
theorem settleLoop_eq (fuel : Nat) {d c : Balance} {dt ct : List Balance}
    (hd : IsCents d.balance) (heq : d.balance = c.balance) :
    settleLoop (fuel + 1) (d :: dt) (c :: ct)
      = (if d.balance > 1 / 100 then
          [({ fromName := d.name, toName := c.name, amount := d.balance } : Settlement)]
          else [])
        ++ settleLoop fuel dt ct := by
  have h1 : d.balance - d.balance < 1 / 100 := by rw [sub_self]; norm_num
  rw [settleLoop_succ, ← heq, min_self, if_pos h1, if_pos h1, round2_of_isCents hd]

theorem receivedBy_append (l₁ l₂ : List Settlement) (name : String) :
    receivedBy (l₁ ++ l₂) name = receivedBy l₁ name + receivedBy l₂ name := by
  rw [receivedBy_eq_sentBy_swap, List.map_append, sentBy_append,
    ← receivedBy_eq_sentBy_swap, ← receivedBy_eq_sentBy_swap]

theorem name_ne_of_nodup {d : Balance} {dt : List Balance}
    (h : ((d :: dt).map fun b => b.name).Nodup) {e : Balance} (he : e ∈ dt) :
    d.name ≠ e.name := by
  intro heq
  have hm : e.name ∈ dt.map (fun b => b.name) := List.mem_map_of_mem (fun b => b.name) he
  rw [← heq] at hm
  exact (List.nodup_cons.mp h).1 hm

/-! ## The balances of `calculate` -/

theorem addPayment_map_name (l : List Balance) (payment : Payment) :
    (addPayment l payment).map (fun b => b.name) = l.map fun b => b.name := by
  induction l with
  | nil => rfl
  | cons b rest ih =>
    unfold addPayment
    split_ifs with h
    · rfl
    · simp only [List.map_cons, ih]

/-- The balances carry the participants' names, in order. -/
theorem calculateBalances_map_name (participants : List Participant) (payments : List Payment)
    (perPersonShare : ℚ) :
    (calculateBalances participants payments perPersonShare).map (fun b => b.name)
      = participants.map fun p => p.name := by
  have hfold : ∀ (pays : List Payment) (l : List Balance),
      (pays.foldl addPayment l).map (fun b => b.name) = l.map fun b => b.name := by
    intro pays
    induction pays with
    | nil => intro l; rfl
    | cons p pays ih =>
      intro l
      rw [List.foldl_cons, ih, addPayment_map_name]
  unfold calculateBalances
  simp only [List.map_map]
  have e : ((fun b : Balance => b.name) ∘ fun p : Balance =>
      ({ p with balance := round2 p.balance } : Balance)) = fun b => b.name := rfl
  rw [e, hfold, List.map_map]
  rfl

/-- A debt can stay whole even when the payments add up to the bill and the share is
exact: a bill of 11 among eleven, A paying 0.90 and the ten others 1.01 each.  A owes
0.10, each of the others is owed 0.01 and counts as settled, so there is no creditor and
no settlement. -/
theorem settled_creditors_example :
    ValidInput 11
      [⟨1, "A"⟩, ⟨2, "B"⟩, ⟨3, "C"⟩, ⟨4, "D"⟩, ⟨5, "E"⟩, ⟨6, "F"⟩, ⟨7, "G"⟩, ⟨8, "H"⟩,
        ⟨9, "I"⟩, ⟨10, "J"⟩, ⟨11, "K"⟩]
      [⟨1, 1, 90 / 100⟩, ⟨2, 2, 101 / 100⟩, ⟨3, 3, 101 / 100⟩, ⟨4, 4, 101 / 100⟩,
        ⟨5, 5, 101 / 100⟩, ⟨6, 6, 101 / 100⟩, ⟨7, 7, 101 / 100⟩, ⟨8, 8, 101 / 100⟩,
        ⟨9, 9, 101 / 100⟩, ⟨10, 10, 101 / 100⟩, ⟨11, 11, 101 / 100⟩] ∧
    (validate 11
      [⟨1, "A"⟩, ⟨2, "B"⟩, ⟨3, "C"⟩, ⟨4, "D"⟩, ⟨5, "E"⟩, ⟨6, "F"⟩, ⟨7, "G"⟩, ⟨8, "H"⟩,
        ⟨9, "I"⟩, ⟨10, "J"⟩, ⟨11, "K"⟩]
      [⟨1, 1, 90 / 100⟩, ⟨2, 2, 101 / 100⟩, ⟨3, 3, 101 / 100⟩, ⟨4, 4, 101 / 100⟩,
        ⟨5, 5, 101 / 100⟩, ⟨6, 6, 101 / 100⟩, ⟨7, 7, 101 / 100⟩, ⟨8, 8, 101 / 100⟩,
        ⟨9, 9, 101 / 100⟩, ⟨10, 10, 101 / 100⟩, ⟨11, 11, 101 / 100⟩]).warning = none ∧
    (calculate 11
      [⟨1, "A"⟩, ⟨2, "B"⟩, ⟨3, "C"⟩, ⟨4, "D"⟩, ⟨5, "E"⟩, ⟨6, "F"⟩, ⟨7, "G"⟩, ⟨8, "H"⟩,
        ⟨9, "I"⟩, ⟨10, "J"⟩, ⟨11, "K"⟩]
      [⟨1, 1, 90 / 100⟩, ⟨2, 2, 101 / 100⟩, ⟨3, 3, 101 / 100⟩, ⟨4, 4, 101 / 100⟩,
        ⟨5, 5, 101 / 100⟩, ⟨6, 6, 101 / 100⟩, ⟨7, 7, 101 / 100⟩, ⟨8, 8, 101 / 100⟩,
        ⟨9, 9, 101 / 100⟩, ⟨10, 10, 101 / 100⟩, ⟨11, 11, 101 / 100⟩]).balances.map
        (fun b => b.balance)
      = [-(10 / 100), 1 / 100, 1 / 100, 1 / 100, 1 / 100, 1 / 100, 1 / 100, 1 / 100, 1 / 100,
          1 / 100, 1 / 100] ∧
    (calculate 11
      [⟨1, "A"⟩, ⟨2, "B"⟩, ⟨3, "C"⟩, ⟨4, "D"⟩, ⟨5, "E"⟩, ⟨6, "F"⟩, ⟨7, "G"⟩, ⟨8, "H"⟩,
        ⟨9, "I"⟩, ⟨10, "J"⟩, ⟨11, "K"⟩]
      [⟨1, 1, 90 / 100⟩, ⟨2, 2, 101 / 100⟩, ⟨3, 3, 101 / 100⟩, ⟨4, 4, 101 / 100⟩,
        ⟨5, 5, 101 / 100⟩, ⟨6, 6, 101 / 100⟩, ⟨7, 7, 101 / 100⟩, ⟨8, 8, 101 / 100⟩,
        ⟨9, 9, 101 / 100⟩, ⟨10, 10, 101 / 100⟩, ⟨11, 11, 101 / 100⟩]).settlements = [] := by
  decide!

/-! ## Payments by unknown payers -/

/-- Without a record for the payer `balances.find` returns nothing and the array stays. -/
theorem addPayment_of_not_mem (l : List Balance) (payment : Payment)
    (h : payment.payerId ∉ l.map fun b => b.id) : addPayment l payment = l := by
  induction l with
  | nil => rfl
  | cons b rest ih =>
    rw [List.map_cons, List.mem_cons, not_or] at h
    unfold addPayment
    rw [if_neg (fun hb => h.1 hb.symm), ih h.2]

theorem foldl_addPayment_filter (ids : List Int) (payments : List Payment) :
    ∀ l : List Balance, (l.map fun b => b.id) = ids →
      payments.foldl addPayment l
        = (payments.filter fun pay => decide (pay.payerId ∈ ids)).foldl addPayment l := by
  induction payments with
  | nil => intro l _; rfl
  | cons pay payments ih =>
    intro l hl
    rw [List.foldl_cons, List.filter_cons]
    by_cases hmem : pay.payerId ∈ ids
    · rw [if_pos (by simpa using hmem), List.foldl_cons]
      exact ih _ (by rw [addPayment_map_id, hl])
    · rw [if_neg (by simpa using hmem), addPayment_of_not_mem l pay (by rw [hl]; exact hmem)]
      exact ih l hl

theorem calculateBalances_filter_known (participants : List Participant)
    (payments : List Payment) (perPersonShare : ℚ) :
    calculateBalances participants payments perPersonShare
      = calculateBalances participants (payments.filter (knownPayer participants))
          perPersonShare := by
  unfold calculateBalances
  simp only
  rw [foldl_addPayment_filter (participants.map fun p => p.id) payments _
    (by rw [List.map_map]; rfl)]
  rfl

/-- C14: a payment whose `payerId` is no participant's id is ignored by the balance
computation but counted in `totalPaid`: for every input `calculate` returns the same
`perPersonShare`, `balances` and `settlements` as with all such payments removed, and
`totalPaid` is `round2` of the sum of the amounts of all payments. -/
theorem unknown_payer_ignored (totalBill : ℚ) (participants : List Participant)
    (payments : List Payment) :
    (calculate totalBill participants payments).perPersonShare
      = (calculate totalBill participants
          (payments.filter (knownPayer participants))).perPersonShare ∧
    (calculate totalBill participants payments).balances
      = (calculate totalBill participants
          (payments.filter (knownPayer participants))).balances ∧
    (calculate totalBill participants payments).settlements
      = (calculate totalBill participants
          (payments.filter (knownPayer participants))).settlements ∧
    (calculate totalBill participants payments).totalPaid
      = round2 (payments.map fun pay => pay.amount).sum := by
  have hb : (calculate totalBill participants payments).balances
      = (calculate totalBill participants
          (payments.filter (knownPayer participants))).balances :=
    calculateBalances_filter_known participants payments _
  refine ⟨rfl, hb, ?_, ?_⟩
  · show generateSettlements (calculate totalBill participants payments).balances
      = generateSettlements (calculate totalBill participants
          (payments.filter (knownPayer participants))).balances
    rw [hb]
  · show round2 (sumAmounts payments) = _
    rw [sumAmounts_eq_sum]

/-- A payment of 50 by the unknown payer 9 next to a payment of 300 by A: the balances
and settlements are those of the payment of 300 alone, `totalPaid` is 350. -/
theorem unknown_payer_example :
    (calculate 300 [⟨1, "A"⟩, ⟨2, "B"⟩, ⟨3, "C"⟩] [⟨1, 1, 300⟩, ⟨2, 9, 50⟩]).balances
      = [⟨1, "A", 300, 200⟩, ⟨2, "B", 0, -100⟩, ⟨3, "C", 0, -100⟩] ∧
    (calculate 300 [⟨1, "A"⟩, ⟨2, "B"⟩, ⟨3, "C"⟩] [⟨1, 1, 300⟩, ⟨2, 9, 50⟩]).totalPaid = 350 ∧
    ([⟨1, 1, 300⟩, ⟨2, 9, 50⟩] : List Payment).filter
        (knownPayer [⟨1, "A"⟩, ⟨2, "B"⟩, ⟨3, "C"⟩]) = [⟨1, 1, 300⟩] := by
  decide!

/-! ## Who appears in a settlement -/

theorem generateSettlements_from {balances : List Balance} {s : Settlement}
    (hs : s ∈ generateSettlements balances) :
    ∃ b ∈ balances, b.name = s.fromName ∧ b.balance < -(1 / 100) := by
  obtain ⟨d, hd, hname⟩ := List.mem_map.mp (settleLoop_names _ _ _ s hs).1
  obtain ⟨p, hp, hlt, rfl⟩ := mem_debtorsOf.mp hd
  exact ⟨p, hp, hname, hlt⟩

theorem generateSettlements_to {balances : List Balance} {s : Settlement}
    (hs : s ∈ generateSettlements balances) :
    ∃ b ∈ balances, b.name = s.toName ∧ b.balance > 1 / 100 := by
  obtain ⟨c, hc, hname⟩ := List.mem_map.mp (settleLoop_names _ _ _ s hs).2
  exact ⟨c, (mem_creditorsOf.mp hc).1, hname, (mem_creditorsOf.mp hc).2⟩

/-- C13: for balances with distinct names every settlement of `generateSettlements` has
as `from` the name of a participant with balance below -0.01 and as `to` the name of a
participant with balance above 0.01; no participant with `|balance| <= 0.01` appears in
it and `from` differs from `to`. -/
theorem settlement_roles (balances : List Balance)
    (hn : (balances.map fun b => b.name).Nodup) :
    ∀ s ∈ generateSettlements balances,
      (∃ b ∈ balances, b.name = s.fromName ∧ b.balance < -(1 / 100)) ∧
      (∃ b ∈ balances, b.name = s.toName ∧ b.balance > 1 / 100) ∧
      (∀ b ∈ balances, |b.balance| ≤ 1 / 100 → b.name ≠ s.fromName ∧ b.name ≠ s.toName) ∧
      s.fromName ≠ s.toName := by
  intro s hs
  obtain ⟨d, hd, hdn, hdlt⟩ := generateSettlements_from hs
  obtain ⟨c, hc, hcn, hcgt⟩ := generateSettlements_to hs
  refine ⟨⟨d, hd, hdn, hdlt⟩, ⟨c, hc, hcn, hcgt⟩, ?_, ?_⟩
  · intro b hb habs
    rw [abs_le] at habs
    constructor
    · intro hname
      have : b = d := eq_of_name_eq hn hb hd (hname.trans hdn.symm)
      rw [this] at habs
      linarith [habs.1]
    · intro hname
      have : b = c := eq_of_name_eq hn hb hc (hname.trans hcn.symm)
      rw [this] at habs
      linarith [habs.2]
  · intro hft
    have : d = c := eq_of_name_eq hn hd hc (hdn.trans (hft.trans hcn.symm))
    rw [this] at hdlt
    linarith

/-- Witness for `settlement_roles`: A is owed 200, B and C owe 100 each, D is settled;
the settlement from B to A. -/
theorem settlement_roles_witness :
    (([⟨1, "A", 300, 200⟩, ⟨2, "B", 0, -100⟩, ⟨3, "C", 0, -100⟩, ⟨4, "D", 100, 0⟩] :
      List Balance).map fun b => b.name).Nodup ∧
    (⟨"B", "A", 100⟩ : Settlement) ∈ generateSettlements
      [⟨1, "A", 300, 200⟩, ⟨2, "B", 0, -100⟩, ⟨3, "C", 0, -100⟩, ⟨4, "D", 100, 0⟩] ∧
    ((∃ b ∈ ([⟨1, "A", 300, 200⟩, ⟨2, "B", 0, -100⟩, ⟨3, "C", 0, -100⟩, ⟨4, "D", 100, 0⟩] :
        List Balance), b.name = (⟨"B", "A", 100⟩ : Settlement).fromName ∧
        b.balance < -(1 / 100)) ∧
      (∃ b ∈ ([⟨1, "A", 300, 200⟩, ⟨2, "B", 0, -100⟩, ⟨3, "C", 0, -100⟩, ⟨4, "D", 100, 0⟩] :
        List Balance), b.name = (⟨"B", "A", 100⟩ : Settlement).toName ∧
        b.balance > 1 / 100) ∧
      (∀ b ∈ ([⟨1, "A", 300, 200⟩, ⟨2, "B", 0, -100⟩, ⟨3, "C", 0, -100⟩, ⟨4, "D", 100, 0⟩] :
        List Balance), |b.balance| ≤ 1 / 100 →
        b.name ≠ (⟨"B", "A", 100⟩ : Settlement).fromName ∧
        b.name ≠ (⟨"B", "A", 100⟩ : Settlement).toName) ∧
      (⟨"B", "A", 100⟩ : Settlement).fromName ≠ (⟨"B", "A", 100⟩ : Settlement).toName) :=
  ⟨by decide, by decide!, settlement_roles _ (by decide) _ (by decide!)⟩

/-! ## The order of the settlements -/

theorem balanceOf_cons (b : Balance) (l : List Balance) (name : String) :
    balanceOf (b :: l) name = if b.name = name then b.balance else balanceOf l name := by
  unfold balanceOf
  rw [List.find?_cons]
  by_cases h : b.name = name <;> simp [h]

/-- With distinct names `balanceOf` finds the participant's own balance. -/
theorem balanceOf_eq {balances : List Balance} (hn : (balances.map fun b => b.name).Nodup)
    {b : Balance} (hb : b ∈ balances) : balanceOf balances b.name = b.balance := by
  induction balances with
  | nil => exact absurd hb (List.not_mem_nil b)
  | cons a l ih =>
    rw [balanceOf_cons]
    rcases List.mem_cons.mp hb with rfl | hb
    · rw [if_pos rfl]
    · rw [if_neg (name_ne_of_nodup hn hb), ih (List.nodup_cons.mp hn).2 hb]

/-- The names in the debtor array after an iteration are names of the array before. -/
theorem step_names_subset {d : Balance} {ds : List Balance} (a : ℚ) {name : String}
    (h : name ∈ (if d.balance - a < 1 / 100 then ds
      else { d with balance := d.balance - a } :: ds).map fun b => b.name) :
    name ∈ (d :: ds).map fun b => b.name := by
  split_ifs at h
  · exact List.mem_cons_of_mem _ h
  · exact h

theorem step_keys_pairwise (f : String → ℚ) {d : Balance} {ds : List Balance} (a : ℚ)
    (h : ((d :: ds).map fun b => f b.name).Pairwise (· ≥ ·)) :
    ((if d.balance - a < 1 / 100 then ds
      else { d with balance := d.balance - a } :: ds).map fun b => f b.name).Pairwise
        (· ≥ ·) := by
  split_ifs
  · exact (List.pairwise_cons.mp h).2
  · exact h

/-- The debtors come up in the settlements in the order of the debtor array: a key that
does not increase along the array does not increase along the settlements. -/
theorem settleLoop_from_pairwise (f : String → ℚ) (fuel : Nat) (ds cs : List Balance)
    (h : (ds.map fun b => f b.name).Pairwise (· ≥ ·)) :
    ((settleLoop fuel ds cs).map fun s => f s.fromName).Pairwise (· ≥ ·) := by
  induction fuel generalizing ds cs with
  | zero => simp [settleLoop]
  | succ fuel ih =>
    cases ds with
    | nil => simp [settleLoop_nil_left]
    | cons d ds =>
      cases cs with
      | nil => simp [settleLoop_nil_right]
      | cons c cs =>
        rw [settleLoop_succ, List.map_append, List.pairwise_append]
        refine ⟨?_, ih _ _ (step_keys_pairwise f _ h), ?_⟩
        · split_ifs <;> simp
        · intro x hx y hy
          have hx' : x = f d.name := by
            split_ifs at hx
            · simpa using hx
            · simp at hx
          obtain ⟨s, hs, rfl⟩ := List.mem_map.mp hy
          have hmem := step_names_subset _ (settleLoop_names fuel _ _ s hs).1
          rw [hx']
          rw [List.map_cons, List.mem_cons] at hmem
          rcases hmem with heq | hmem
          · rw [heq]
          · obtain ⟨e, he, hename⟩ := List.mem_map.mp hmem
            have := (List.pairwise_cons.mp h).1 (f e.name)
              (List.mem_map_of_mem (fun b => f b.name) he)
            rw [← hename]
            exact this

/-- The creditors come up in the settlements in the order of the creditor array. -/
theorem settleLoop_to_pairwise (g : String → ℚ) (fuel : Nat) (ds cs : List Balance)
    (h : (cs.map fun b => g b.name).Pairwise (· ≥ ·)) :
    ((settleLoop fuel ds cs).map fun s => g s.toName).Pairwise (· ≥ ·) := by
  have := settleLoop_from_pairwise g fuel cs ds h
  rw [settleLoop_swap fuel ds cs, List.map_map] at this
  exact this

/-- The sort leaves the larger balances in front. -/
theorem sortDesc_pairwise (l : List Balance) :
    (sortDesc l).Pairwise fun a b => b.balance ≤ a.balance := by
  haveI : IsTotal Balance (fun a b => b.balance ≤ a.balance) :=
    ⟨fun a b => le_total b.balance a.balance⟩
  haveI : IsTrans Balance (fun a b => b.balance ≤ a.balance) :=
    ⟨fun _ _ _ hab hbc => le_trans hbc hab⟩
  exact List.sorted_insertionSort (fun a b : Balance => b.balance ≤ a.balance) l

theorem debtorsOf_keys {balances : List Balance} (hn : (balances.map fun b => b.name).Nodup) :
    ((debtorsOf balances).map fun b => |balanceOf balances b.name|).Pairwise (· ≥ ·) := by
  have hkey : ((debtorsOf balances).map fun b => |balanceOf balances b.name|)
      = (debtorsOf balances).map fun b => b.balance := by
    apply List.map_congr_left
    intro d hd
    obtain ⟨p, hp, _, rfl⟩ := mem_debtorsOf.mp hd
    simp only
    rw [balanceOf_eq hn hp]
  rw [hkey, List.pairwise_map]
  exact sortDesc_pairwise _

theorem creditorsOf_keys {balances : List Balance}
    (hn : (balances.map fun b => b.name).Nodup) :
    ((creditorsOf balances).map fun b => balanceOf balances b.name).Pairwise (· ≥ ·) := by
  have hkey : ((creditorsOf balances).map fun b => balanceOf balances b.name)
      = (creditorsOf balances).map fun b => b.balance := by
    apply List.map_congr_left
    intro c hc
    rw [balanceOf_eq hn (mem_creditorsOf.mp hc).1]
  rw [hkey, List.pairwise_map]
  exact sortDesc_pairwise _

/-- The first iteration pushes a settlement when both arrays have a record. -/
theorem settleLoop_head (fuel : Nat) (d c : Balance) (ds cs : List Balance)
    (hd : d.balance > 1 / 100) (hc : c.balance > 1 / 100) :
    (settleLoop (fuel + 1) (d :: ds) (c :: cs)).head?
      = some { fromName := d.name, toName := c.name,
               amount := round2 (min d.balance c.balance) } := by
  rw [settleLoop_succ, if_pos (lt_min hd hc)]
  rfl

/-- The largest debtor and the largest creditor are at the front of their arrays, and the
first settlement goes from the one to the other. -/
theorem generateSettlements_head (balances : List Balance)
    (hd : ∃ b ∈ balances, b.balance < -(1 / 100)) (hc : ∃ b ∈ balances, b.balance > 1 / 100) :
    ∃ bd ∈ balances, ∃ bc ∈ balances,
      bd.balance < -(1 / 100) ∧ (∀ b ∈ balances, b.balance < -(1 / 100) →
        |b.balance| ≤ |bd.balance|) ∧
      bc.balance > 1 / 100 ∧ (∀ b ∈ balances, b.balance > 1 / 100 → b.balance ≤ bc.balance) ∧
      (generateSettlements balances).head?
        = some { fromName := bd.name, toName := bc.name,
                 amount := round2 (min |bd.balance| bc.balance) } := by
  obtain ⟨b1, hb1, hlt1⟩ := hd
  obtain ⟨b2, hb2, hgt2⟩ := hc
  have hdm : ({ b1 with balance := |b1.balance| } : Balance) ∈ debtorsOf balances :=
    mem_debtorsOf.mpr ⟨b1, hb1, hlt1, rfl⟩
  have hcm : b2 ∈ creditorsOf balances := mem_creditorsOf.mpr ⟨hb2, hgt2⟩
  have hds := sortDesc_pairwise ((balances.filter fun p => decide (p.balance < -(1 / 100))).map
    fun p => ({ p with balance := |p.balance| } : Balance))
  have hcs := sortDesc_pairwise (balances.filter fun p => decide (p.balance > 1 / 100))
  have hgen : generateSettlements balances
      = settleLoop ((debtorsOf balances).length + (creditorsOf balances).length)
          (debtorsOf balances) (creditorsOf balances) := rfl
  change (debtorsOf balances).Pairwise _ at hds
  change (creditorsOf balances).Pairwise _ at hcs
  rw [hgen]
  cases hD : debtorsOf balances with
  | nil => rw [hD] at hdm; exact absurd hdm (List.not_mem_nil _)
  | cons d ds =>
    cases hC : creditorsOf balances with
    | nil => rw [hC] at hcm; exact absurd hcm (List.not_mem_nil _)
    | cons c cs =>
      rw [hD] at hds
      rw [hC] at hcs
      have hdmem : d ∈ debtorsOf balances := by rw [hD]; exact List.mem_cons_self _ _
      have hcmem : c ∈ creditorsOf balances := by rw [hC]; exact List.mem_cons_self _ _
      obtain ⟨p, hp, hplt, hdp⟩ := mem_debtorsOf.mp hdmem
      obtain ⟨hcb, hcgt⟩ := mem_creditorsOf.mp hcmem
      have hdbal : d.balance = |p.balance| := by rw [hdp]
      have hdname : d.name = p.name := by rw [hdp]
      have hdgt : d.balance > 1 / 100 := by
        rw [hdbal, gt_iff_lt, lt_abs]
        right
        linarith
      refine ⟨p, hp, c, hcb, hplt, ?_, hcgt, ?_, ?_⟩
      · intro b hb hblt
        have hm : ({ b with balance := |b.balance| } : Balance) ∈ d :: ds := by
          rw [← hD]
          exact mem_debtorsOf.mpr ⟨b, hb, hblt, rfl⟩
        rw [← hdbal]
        rcases List.mem_cons.mp hm with heq | hm
        · rw [← heq]
        · exact (List.pairwise_cons.mp hds).1 _ hm
      · intro b hb hbgt
        have hm : b ∈ c :: cs := by
          rw [← hC]
          exact mem_creditorsOf.mpr ⟨hb, hbgt⟩
        rcases List.mem_cons.mp hm with heq | hm
        · rw [heq]
        · exact (List.pairwise_cons.mp hcs).1 _ hm
      · have hlen : (d :: ds).length + (c :: cs).length
            = (ds.length + cs.length + 1) + 1 := by
          simp only [List.length_cons]
          omega
        rw [hlen, settleLoop_head _ d c ds cs hdgt hcgt, hdbal, hdname]

/-- C12 fails as stated: for the balances A = -0.016 and B = 0.016 the first settlement
goes from A to B for 0.02, the minimum 0.016 of the largest debt and the largest credit
rounded to 2 decimals, not for that minimum. -/
theorem first_settlement_rounded_counterexample :
    (([⟨1, "A", 0, -(2 / 125)⟩, ⟨2, "B", 0, 2 / 125⟩] : List Balance).map
      fun b => b.name).Nodup ∧
    (∃ b ∈ ([⟨1, "A", 0, -(2 / 125)⟩, ⟨2, "B", 0, 2 / 125⟩] : List Balance),
      b.balance < -(1 / 100)) ∧
    (∃ b ∈ ([⟨1, "A", 0, -(2 / 125)⟩, ⟨2, "B", 0, 2 / 125⟩] : List Balance),
      b.balance > 1 / 100) ∧
    (generateSettlements [⟨1, "A", 0, -(2 / 125)⟩, ⟨2, "B", 0, 2 / 125⟩]).head?
      = some ⟨"A", "B", 2 / 100⟩ ∧
    ¬ (∃ bd ∈ ([⟨1, "A", 0, -(2 / 125)⟩, ⟨2, "B", 0, 2 / 125⟩] : List Balance),
      ∃ bc ∈ ([⟨1, "A", 0, -(2 / 125)⟩, ⟨2, "B", 0, 2 / 125⟩] : List Balance),
        (generateSettlements [⟨1, "A", 0, -(2 / 125)⟩, ⟨2, "B", 0, 2 / 125⟩]).head?
          = some { fromName := bd.name, toName := bc.name,
                   amount := min |bd.balance| bc.balance }) := by
  decide!

/-! ## One participant pays the whole bill -/

theorem IsCents.nat_mul {x : ℚ} (k : Nat) (hx : IsCents x) : IsCents ((k : ℚ) * x) := by
  obtain ⟨m, rfl⟩ := (isCents_iff _).mp hx
  exact (isCents_iff _).mpr ⟨(k : ℤ) * m, by push_cast; ring⟩

/-- Records with one and the same balance are left in their order by the sort. -/
theorem sortDesc_const (s : ℚ) (l : List Balance) (h : ∀ b ∈ l, b.balance = s) :
    sortDesc l = l := by
  induction l with
  | nil => rfl
  | cons a l ih =>
    have ih' := ih fun b hb => h b (List.mem_cons_of_mem _ hb)
    unfold sortDesc at ih' ⊢
    rw [List.insertionSort, ih']
    cases l with
    | nil => rfl
    | cons b l =>
      apply List.orderedInsert_of_le
      rw [h a (List.mem_cons_self _ _), h b (List.mem_cons_of_mem _ (List.mem_cons_self _ _))]

/-- With distinct ids the participants with the id of `P` are `P` alone. -/
theorem filter_id_eq (participants : List Participant) (P : Participant)
    (hids : (participants.map fun p => p.id).Nodup) (hP : P ∈ participants) :
    participants.filter (fun p => decide (p.id = P.id)) = [P] := by
  induction participants with
  | nil => exact absurd hP (List.not_mem_nil P)
  | cons q rest ih =>
    rw [List.map_cons, List.nodup_cons] at hids
    rw [List.filter_cons]
    by_cases hq : q.id = P.id
    · have hnone : rest.filter (fun p => decide (p.id = P.id)) = [] := by
        rw [List.filter_eq_nil_iff]
        intro p hp hpid
        apply hids.1
        rw [hq, ← of_decide_eq_true hpid]
        exact List.mem_map_of_mem (fun p => p.id) hp
      have hqP : q = P := by
        rcases List.mem_cons.mp hP with h | h
        · exact h.symm
        · exfalso
          apply hids.1
          rw [hq]
          exact List.mem_map_of_mem (fun p => p.id) h
      rw [if_pos (by simpa using hq), hnone, hqP]
    · have hPr : P ∈ rest := by
        rcases List.mem_cons.mp hP with h | h
        · exact absurd (by rw [h]) hq
        · exact h
      rw [if_neg (by simpa using hq), ih hids.2 hPr]

/-- Debtors who owe `s` each against one creditor who is owed the total: one transfer of
`s` per debtor, in the order of the debtor array. -/
theorem settleLoop_single_creditor (s : ℚ) (hs : IsCents s) (hgt : s > 1 / 100)
    (ds : List Balance) (hds : ∀ d ∈ ds, d.balance = s) :
    ∀ (fuel : Nat) (c : Balance), c.balance = (ds.length : ℚ) * s → ds.length + 1 ≤ fuel →
      settleLoop fuel ds [c]
        = ds.map fun d => { fromName := d.name, toName := c.name, amount := s } := by
  induction ds with
  | nil =>
    intro fuel c _ _
    rw [settleLoop_nil_left]
    rfl
  | cons d rest ih =>
    intro fuel c hc hfuel
    have hd : d.balance = s := hds d (List.mem_cons_self _ _)
    have hrest : ∀ e ∈ rest, e.balance = s := fun e he => hds e (List.mem_cons_of_mem _ he)
    have hdc : IsCents d.balance := by rw [hd]; exact hs
    have hdgt : d.balance > 1 / 100 := by rw [hd]; exact hgt
    obtain ⟨fuel', rfl⟩ : ∃ f, fuel = f + 1 := ⟨fuel - 1, by
      simp only [List.length_cons] at hfuel
      omega⟩
    simp only [List.length_cons, Nat.cast_succ] at hc hfuel
    cases rest with
    | nil =>
      have heq : d.balance = c.balance := by
        rw [hd, hc]
        simp
      rw [settleLoop_eq fuel' hdc heq, if_pos hdgt, settleLoop_nil_left, hd]
      rfl
    | cons e rest' =>
      have hpos : (0 : ℚ) < ((e :: rest').length : ℚ) * s := by
        apply mul_pos
        · simp only [List.length_cons, Nat.cast_succ]
          positivity
        · linarith
      have hlt : d.balance < c.balance := by
        rw [hd, hc]
        linarith
      have hcc : IsCents c.balance := by
        rw [hc]
        have := hs.nat_mul ((e :: rest').length + 1)
        simpa using this
      rw [settleLoop_lt fuel' hdc hcc hlt, if_pos hdgt,
        ih hrest fuel' { c with balance := c.balance - d.balance }
          (by simp only; rw [hc, hd]; ring) (by omega), hd]
      rfl

theorem single_payer_share (n : Nat) (hn : 0 < n) (s : ℚ) (hs : IsCents s) :
    calculatePerPersonShare ((n : ℚ) * s) n = s := by
  have hn0 : (n : ℚ) ≠ 0 := by exact_mod_cast Nat.pos_iff_ne_zero.mp hn
  unfold calculatePerPersonShare
  rw [if_neg (Nat.pos_iff_ne_zero.mp hn), mul_div_cancel_left₀ s hn0, round2_of_isCents hs]

theorem single_payer_balances (participants : List Participant) (P : Participant) (s : ℚ)
    (payId : Int) (hids : (participants.map fun p => p.id).Nodup) (hs : IsCents s) :
    calculateBalances participants [⟨payId, P.id, (participants.length : ℚ) * s⟩] s
      = participants.map (singlePayerBalance P participants.length s) := by
  rw [calculateBalances_eq_map _ _ _ hids]
  apply List.map_congr_left
  intro p _
  have hpaid : paidBy [⟨payId, P.id, (participants.length : ℚ) * s⟩] p.id
      = if p.id = P.id then (participants.length : ℚ) * s else 0 := by
    rw [paidBy_cons]
    by_cases h : p.id = P.id
    · rw [if_pos h, if_pos h.symm]
      simp [paidBy]
    · rw [if_neg h, if_neg (fun h' => h h'.symm)]
      simp [paidBy]
  unfold singlePayerBalance
  rw [hpaid]
  by_cases h : p.id = P.id
  · simp only [if_pos h, Balance.mk.injEq, true_and]
    rw [round2_of_isCents ((hs.nat_mul participants.length).sub hs)]
    ring
  · simp only [if_neg h, Balance.mk.injEq, true_and]
    rw [zero_sub, round2_of_isCents hs.neg]

theorem single_payer_creditors (participants : List Participant) (P : Participant) (s : ℚ)
    (hids : (participants.map fun p => p.id).Nodup) (hlen : 2 ≤ participants.length)
    (hP : P ∈ participants) (hgt : s > 1 / 100) :
    creditorsOf (participants.map (singlePayerBalance P participants.length s))
      = [singlePayerBalance P participants.length s P] := by
  have hn : (2 : ℚ) ≤ (participants.length : ℚ) := by exact_mod_cast hlen
  have hpred : ((fun b : Balance => decide (b.balance > 1 / 100))
      ∘ singlePayerBalance P participants.length s) = fun p => decide (p.id = P.id) := by
    funext p
    simp only [Function.comp, singlePayerBalance]
    by_cases h : p.id = P.id
    · simp only [if_pos h]
      have : ((participants.length : ℚ) - 1) * s > 1 / 100 := by nlinarith
      rw [decide_eq_true this, decide_eq_true h]
    · simp only [if_neg h]
      have : ¬ -s > 1 / 100 := by intro h'; linarith
      rw [decide_eq_false this, decide_eq_false h]
  unfold creditorsOf
  rw [List.filter_map, hpred, filter_id_eq participants P hids hP]
  rfl

theorem single_payer_debtors (participants : List Participant) (P : Participant) (s : ℚ)
    (hlen : 2 ≤ participants.length) (hgt : s > 1 / 100) :
    debtorsOf (participants.map (singlePayerBalance P participants.length s))
      = (participants.filter fun p => decide (p.id ≠ P.id)).map fun p =>
          ({ id := p.id, name := p.name, paid := 0, balance := s } : Balance) := by
  have hn : (2 : ℚ) ≤ (participants.length : ℚ) := by exact_mod_cast hlen
  have hpred : ((fun b : Balance => decide (b.balance < -(1 / 100)))
      ∘ singlePayerBalance P participants.length s) = fun p => decide (p.id ≠ P.id) := by
    funext p
    simp only [Function.comp, singlePayerBalance]
    by_cases h : p.id = P.id
    · simp only [if_pos h]
      have : ¬ ((participants.length : ℚ) - 1) * s < -(1 / 100) := by
        intro h'
        nlinarith
      rw [decide_eq_false this, decide_eq_false (fun hne : p.id ≠ P.id => hne h)]
    · simp only [if_neg h]
      have : -s < -(1 / 100) := by linarith
      rw [decide_eq_true this, decide_eq_true (show p.id ≠ P.id from h)]
  have hmap : ((participants.filter fun p => decide (p.id ≠ P.id)).map
        (singlePayerBalance P participants.length s)).map
        (fun p => ({ p with balance := |p.balance| } : Balance))
      = (participants.filter fun p => decide (p.id ≠ P.id)).map fun p =>
          ({ id := p.id, name := p.name, paid := 0, balance := s } : Balance) := by
    rw [List.map_map]
    apply List.map_congr_left
    intro p hp
    have hne : p.id ≠ P.id := by simpa using (List.mem_filter.mp hp).2
    simp only [Function.comp, singlePayerBalance, if_neg hne, abs_neg,
      abs_of_pos (by linarith : (0 : ℚ) < s)]
  unfold debtorsOf
  rw [List.filter_map, hpred, hmap]
  apply sortDesc_const s
  intro b hb
  obtain ⟨p, _, rfl⟩ := List.mem_map.mp hb
  rfl

theorem length_filter_ne (participants : List Participant) (P : Participant)
    (hids : (participants.map fun p => p.id).Nodup) (hP : P ∈ participants) :
    (participants.filter fun p => decide (p.id ≠ P.id)).length + 1 = participants.length := by
  have h1 := filter_id_eq participants P hids hP
  have h2 := List.length_eq_length_filter_add (l := participants)
    (fun p => decide (p.id = P.id))
  have h3 : (fun p : Participant => decide (p.id ≠ P.id))
      = fun p => !decide (p.id = P.id) := by
    funext p
    simp
  rw [h1] at h2
  rw [h3]
  simp only [List.length_singleton] at h2
  omega

/-- C11: for `n >= 2` participants with distinct ids, one of them `P`, and a share `s`
that is a whole number of cents above 0.01, `calculate` on the bill `n * s` with the one
payment of `n * s` by `P` returns `perPersonShare = s`, the balance `(n - 1) * s` for `P`
and `-s` for every other participant, and as settlements one transfer of `s` from each
other participant to `P`, in the participants' input order; the names need not be
distinct for this. -/
theorem single_payer (participants : List Participant) (P : Participant) (s : ℚ) (payId : Int)
    (hids : (participants.map fun p => p.id).Nodup) (hlen : 2 ≤ participants.length)
    (hP : P ∈ participants) (hs : IsCents s) (hgt : s > 1 / 100) :
    (calculate ((participants.length : ℚ) * s) participants
        [⟨payId, P.id, (participants.length : ℚ) * s⟩]).perPersonShare = s ∧
    (calculate ((participants.length : ℚ) * s) participants
        [⟨payId, P.id, (participants.length : ℚ) * s⟩]).balances
      = participants.map (fun p =>
          { id := p.id, name := p.name,
            paid := if p.id = P.id then (participants.length : ℚ) * s else 0,
            balance := if p.id = P.id then ((participants.length : ℚ) - 1) * s else -s }) ∧
    (calculate ((participants.length : ℚ) * s) participants
        [⟨payId, P.id, (participants.length : ℚ) * s⟩]).settlements
      = (participants.filter fun p => decide (p.id ≠ P.id)).map fun p =>
          { fromName := p.name, toName := P.name, amount := s } := by
  have hshare := single_payer_share participants.length (by omega) s hs
  have hbal : (calculate ((participants.length : ℚ) * s) participants
      [⟨payId, P.id, (participants.length : ℚ) * s⟩]).balances
      = participants.map (singlePayerBalance P participants.length s) := by
    show calculateBalances participants [⟨payId, P.id, (participants.length : ℚ) * s⟩]
      (calculatePerPersonShare ((participants.length : ℚ) * s) participants.length) = _
    rw [hshare]
    exact single_payer_balances participants P s payId hids hs
  refine ⟨hshare, hbal, ?_⟩
  show generateSettlements (calculate ((participants.length : ℚ) * s) participants
      [⟨payId, P.id, (participants.length : ℚ) * s⟩]).balances = _
  rw [hbal]
  unfold generateSettlements
  simp only
  rw [single_payer_creditors participants P s hids hlen hP hgt,
    single_payer_debtors participants P s hlen hgt]
  have hcount := length_filter_ne participants P hids hP
  have hcount' : (((participants.filter fun p => decide (p.id ≠ P.id)).length : Nat) : ℚ) + 1
      = (participants.length : ℚ) := by exact_mod_cast hcount
  rw [settleLoop_single_creditor s hs hgt _ (by
      intro d hd
      obtain ⟨p, _, rfl⟩ := List.mem_map.mp hd
      rfl) _ (singlePayerBalance P participants.length s P) (by
      simp only [singlePayerBalance, if_pos, List.length_map]
      rw [← hcount']
      ring) (by simp), List.map_map]
  rfl

/-- Witness for `single_payer`: A, B and C share a bill of 300 that A paid. -/
theorem single_payer_witness :
    (([⟨1, "A"⟩, ⟨2, "B"⟩, ⟨3, "C"⟩] : List Participant).map fun p => p.id).Nodup ∧
    2 ≤ ([⟨1, "A"⟩, ⟨2, "B"⟩, ⟨3, "C"⟩] : List Participant).length ∧
    (⟨1, "A"⟩ : Participant) ∈ ([⟨1, "A"⟩, ⟨2, "B"⟩, ⟨3, "C"⟩] : List Participant) ∧
    IsCents 100 ∧ (100 : ℚ) > 1 / 100 ∧
    ((calculate ((([⟨1, "A"⟩, ⟨2, "B"⟩, ⟨3, "C"⟩] : List Participant).length : ℚ) * 100)
        [⟨1, "A"⟩, ⟨2, "B"⟩, ⟨3, "C"⟩]
        [⟨1, (⟨1, "A"⟩ : Participant).id,
          (([⟨1, "A"⟩, ⟨2, "B"⟩, ⟨3, "C"⟩] : List Participant).length : ℚ) * 100⟩]).perPersonShare
      = 100 ∧
    (calculate ((([⟨1, "A"⟩, ⟨2, "B"⟩, ⟨3, "C"⟩] : List Participant).length : ℚ) * 100)
        [⟨1, "A"⟩, ⟨2, "B"⟩, ⟨3, "C"⟩]
        [⟨1, (⟨1, "A"⟩ : Participant).id,
          (([⟨1, "A"⟩, ⟨2, "B"⟩, ⟨3, "C"⟩] : List Participant).length : ℚ) * 100⟩]).balances
      = ([⟨1, "A"⟩, ⟨2, "B"⟩, ⟨3, "C"⟩] : List Participant).map (fun p =>
          { id := p.id, name := p.name,
            paid := if p.id = (⟨1, "A"⟩ : Participant).id then
              (([⟨1, "A"⟩, ⟨2, "B"⟩, ⟨3, "C"⟩] : List Participant).length : ℚ) * 100 else 0,
            balance := if p.id = (⟨1, "A"⟩ : Participant).id then
              ((([⟨1, "A"⟩, ⟨2, "B"⟩, ⟨3, "C"⟩] : List Participant).length : ℚ) - 1) * 100
              else -100 }) ∧
    (calculate ((([⟨1, "A"⟩, ⟨2, "B"⟩, ⟨3, "C"⟩] : List Participant).length : ℚ) * 100)
        [⟨1, "A"⟩, ⟨2, "B"⟩, ⟨3, "C"⟩]
        [⟨1, (⟨1, "A"⟩ : Participant).id,
          (([⟨1, "A"⟩, ⟨2, "B"⟩, ⟨3, "C"⟩] : List Participant).length : ℚ) * 100⟩]).settlements
      = (([⟨1, "A"⟩, ⟨2, "B"⟩, ⟨3, "C"⟩] : List Participant).filter fun p =>
          decide (p.id ≠ (⟨1, "A"⟩ : Participant).id)).map fun p =>
          { fromName := p.name, toName := (⟨1, "A"⟩ : Participant).name, amount := 100 }) :=
  ⟨by decide, by decide, by decide, by decide!, by norm_num,
    single_payer [⟨1, "A"⟩, ⟨2, "B"⟩, ⟨3, "C"⟩] ⟨1, "A"⟩ 100 1 (by decide) (by decide)
      (by decide) (by decide!) (by norm_num)⟩

/-- The two end-to-end cases: A, B and C share a bill of 300, then one of 90, that A paid;
B and C send A 100.00 each, then 30.00 each, B first. -/
theorem single_payer_examples :
    (calculate 300 [⟨1, "A"⟩, ⟨2, "B"⟩, ⟨3, "C"⟩] [⟨1, 1, 300⟩]).perPersonShare = 100 ∧
    (calculate 300 [⟨1, "A"⟩, ⟨2, "B"⟩, ⟨3, "C"⟩] [⟨1, 1, 300⟩]).balances
      = [⟨1, "A", 300, 200⟩, ⟨2, "B", 0, -100⟩, ⟨3, "C", 0, -100⟩] ∧
    (calculate 300 [⟨1, "A"⟩, ⟨2, "B"⟩, ⟨3, "C"⟩] [⟨1, 1, 300⟩]).settlements
      = [⟨"B", "A", 100⟩, ⟨"C", "A", 100⟩] ∧
    (calculate 90 [⟨1, "A"⟩, ⟨2, "B"⟩, ⟨3, "C"⟩] [⟨1, 1, 90⟩]).perPersonShare = 30 ∧
    (calculate 90 [⟨1, "A"⟩, ⟨2, "B"⟩, ⟨3, "C"⟩] [⟨1, 1, 90⟩]).balances
      = [⟨1, "A", 90, 60⟩, ⟨2, "B", 0, -30⟩, ⟨3, "C", 0, -30⟩] ∧
    (calculate 90 [⟨1, "A"⟩, ⟨2, "B"⟩, ⟨3, "C"⟩] [⟨1, 1, 90⟩]).settlements
      = [⟨"B", "A", 30⟩, ⟨"C", "A", 30⟩] := by
  decide!


namespace F64

/-! ## Rounding to the nearest double -/

theorem log2Aux_eq_log (fuel n : Nat) (h : n ≤ fuel) : log2Aux fuel n = Nat.log 2 n := by
  induction fuel generalizing n with
  | zero =>
    have : n = 0 := by omega
    subst this
    simp [log2Aux]
  | succ fuel ih =>
    unfold log2Aux
    split_ifs with h2
    · exact (Nat.log_of_lt h2).symm
    · rw [ih (n / 2) (by omega)]
      exact (Nat.log_of_one_lt_of_le (by norm_num) (by omega)).symm

theorem log2Aux_self_le {n : Nat} (h : n ≠ 0) : 2 ^ log2Aux n n ≤ n := by
  rw [log2Aux_eq_log n n (le_refl _)]
  exact Nat.pow_log_le_self 2 h

theorem lt_log2Aux_self (n : Nat) : n < 2 ^ (log2Aux n n + 1) := by
  rw [log2Aux_eq_log n n (le_refl _)]
  exact Nat.lt_pow_succ_log_self (by norm_num) n

theorem int_log_eq {x : ℚ} (hx : 0 < x) {e : ℤ} (h1 : (2 : ℚ) ^ e ≤ x)
    (h2 : x < (2 : ℚ) ^ (e + 1)) : Int.log 2 x = e := by
  have a1 : e ≤ Int.log 2 x := by
    rw [← Int.zpow_le_iff_le_log (by norm_num) hx]
    exact_mod_cast h1
  have a2 : Int.log 2 x < e + 1 := by
    rw [← Int.lt_zpow_iff_log_lt (by norm_num) hx]
    exact_mod_cast h2
  omega

/-- `log2Floor` is the integer logarithm to base 2. -/
theorem log2Floor_eq_log {x : ℚ} (hx : 0 < x) : log2Floor x = Int.log 2 x := by
  have hnum : 0 < x.num := Rat.num_pos.mpr hx
  have hden : x.den ≠ 0 := x.den_nz
  have ha0 : x.num.natAbs ≠ 0 := by omega
  have hxe : x = (x.num.natAbs : ℚ) / (x.den : ℚ) := by
    have h2 : ((x.num.natAbs : ℕ) : ℚ) = (x.num : ℚ) := by
      rw [Nat.cast_natAbs, abs_of_pos hnum]
    rw [h2]
    exact (Rat.num_div_den x).symm
  have hb : (0 : ℚ) < (x.den : ℚ) := by exact_mod_cast Nat.pos_of_ne_zero hden
  have a1 : ((2 : ℚ) ^ log2Aux x.num.natAbs x.num.natAbs) ≤ (x.num.natAbs : ℚ) := by
    exact_mod_cast log2Aux_self_le ha0
  have a2 : (x.num.natAbs : ℚ) < (2 : ℚ) ^ (log2Aux x.num.natAbs x.num.natAbs + 1) := by
    exact_mod_cast lt_log2Aux_self x.num.natAbs
  have b1 : ((2 : ℚ) ^ log2Aux x.den x.den) ≤ (x.den : ℚ) := by
    exact_mod_cast log2Aux_self_le hden
  have b2 : (x.den : ℚ) < (2 : ℚ) ^ (log2Aux x.den x.den + 1) := by
    exact_mod_cast lt_log2Aux_self x.den
  set la := log2Aux x.num.natAbs x.num.natAbs with hla
  set lb := log2Aux x.den x.den with hlb
  have two : (2 : ℚ) ≠ 0 := by norm_num
  have hpos : ∀ k : ℤ, (0 : ℚ) < 2 ^ k := fun k => zpow_pos (by norm_num) k
  -- x < 2 ^ (la - lb + 1)
  have up : x < (2 : ℚ) ^ ((la : ℤ) - lb + 1) := by
    rw [hxe, div_lt_iff₀ hb]
    calc (x.num.natAbs : ℚ) < (2 : ℚ) ^ (la + 1) := a2
      _ = (2 : ℚ) ^ ((la : ℤ) - lb + 1) * 2 ^ lb := by
        rw [← zpow_natCast, ← zpow_natCast, ← zpow_add₀ two]
        congr 1
        push_cast
        ring
      _ ≤ (2 : ℚ) ^ ((la : ℤ) - lb + 1) * (x.den : ℚ) :=
        mul_le_mul_of_nonneg_left b1 (le_of_lt (hpos _))
  -- 2 ^ (la - lb - 1) ≤ x
  have low : (2 : ℚ) ^ ((la : ℤ) - lb - 1) ≤ x := by
    rw [hxe, le_div_iff₀ hb]
    calc (2 : ℚ) ^ ((la : ℤ) - lb - 1) * (x.den : ℚ)
        ≤ (2 : ℚ) ^ ((la : ℤ) - lb - 1) * 2 ^ (lb + 1) :=
          mul_le_mul_of_nonneg_left (le_of_lt b2) (le_of_lt (hpos _))
      _ = (2 : ℚ) ^ la := by
        rw [← zpow_natCast, ← zpow_natCast, ← zpow_add₀ two]
        congr 1
        push_cast
        ring
      _ ≤ (x.num.natAbs : ℚ) := a1
  unfold log2Floor
  rw [← hla, ← hlb]
  split_ifs with h
  · exact (int_log_eq hx h up).symm
  · refine (int_log_eq hx low ?_).symm
    have : (la : ℤ) - lb - 1 + 1 = (la : ℤ) - lb := by ring
    rw [this]
    exact not_le.mp h

theorem ulpExp_eq {x : ℚ} (hx : x ≠ 0) : ulpExp x = max (Int.log 2 |x| - 52) (-1074) := by
  unfold ulpExp
  rw [log2Floor_eq_log (abs_pos.mpr hx)]

theorem roundHalfEven_sub_le (t : ℚ) : |(roundHalfEven t : ℚ) - t| ≤ 1 / 2 := by
  have h1 := Int.floor_le t
  have h2 := Int.lt_floor_add_one t
  unfold roundHalfEven
  rw [abs_le]
  split_ifs with ha hb hc
  · constructor <;> linarith
  · push_cast
    constructor <;> linarith
  · constructor <;> linarith
  · push_cast
    constructor <;> linarith

theorem roundHalfEven_intCast (n : ℤ) : roundHalfEven (n : ℚ) = n := by
  unfold roundHalfEven
  rw [Int.floor_intCast, sub_self, if_pos (by norm_num)]

theorem roundHalfEven_mono {t t' : ℚ} (h : t ≤ t') : roundHalfEven t ≤ roundHalfEven t' := by
  rcases eq_or_lt_of_le h with rfl | hlt
  · exact le_refl _
  · have h1 := (abs_le.mp (roundHalfEven_sub_le t)).2
    have h2 := (abs_le.mp (roundHalfEven_sub_le t')).1
    have h3 : (roundHalfEven t : ℚ) < (roundHalfEven t' : ℚ) + 1 := by linarith
    have h4 : roundHalfEven t < roundHalfEven t' + 1 := by exact_mod_cast h3
    omega

theorem roundHalfEven_nonneg {t : ℚ} (h : 0 ≤ t) : 0 ≤ roundHalfEven t := by
  have := roundHalfEven_mono (show ((0 : ℤ) : ℚ) ≤ t by simpa using h)
  rwa [roundHalfEven_intCast] at this

theorem fl_zero : fl 0 = 0 := by
  unfold fl
  rw [if_pos rfl]

theorem fl_of_pos {x : ℚ} (h : 0 < x) :
    fl x = (roundHalfEven (x / 2 ^ ulpExp x) : ℚ) * 2 ^ ulpExp x := by
  unfold fl
  rw [if_neg (ne_of_gt h), if_neg (not_lt.mpr (le_of_lt h))]

theorem ulpExp_neg (x : ℚ) : ulpExp (-x) = ulpExp x := by
  unfold ulpExp
  rw [abs_neg]

theorem fl_neg (x : ℚ) : fl (-x) = -fl x := by
  rcases lt_trichotomy x 0 with h | h | h
  · rw [fl_of_pos (by linarith : (0 : ℚ) < -x), ulpExp_neg]
    unfold fl
    rw [if_neg (ne_of_lt h), if_pos h, neg_neg]
  · subst h
    simp [fl_zero]
  · rw [fl_of_pos h]
    unfold fl
    rw [if_neg (by linarith : -x ≠ 0), if_pos (by linarith : -x < 0), neg_neg, ulpExp_neg]

theorem two_zpow_pos (e : ℤ) : (0 : ℚ) < 2 ^ e := zpow_pos (by norm_num) e

theorem fl_nonneg {x : ℚ} (h : 0 ≤ x) : 0 ≤ fl x := by
  rcases eq_or_lt_of_le h with rfl | hpos
  · rw [fl_zero]
  · rw [fl_of_pos hpos]
    apply mul_nonneg
    · exact_mod_cast roundHalfEven_nonneg (div_nonneg h (le_of_lt (two_zpow_pos _)))
    · exact le_of_lt (two_zpow_pos _)

theorem fl_nonpos {x : ℚ} (h : x ≤ 0) : fl x ≤ 0 := by
  have := fl_nonneg (by linarith : (0 : ℚ) ≤ -x)
  rw [fl_neg] at this
  linarith

theorem two_pow_mul_zpow (k : ℕ) (e : ℤ) :
    (((2 : ℤ) ^ k : ℤ) : ℚ) * 2 ^ e = 2 ^ ((k : ℤ) + e) := by
  rw [Int.cast_pow, Int.cast_ofNat, ← zpow_natCast, ← zpow_add₀ (by norm_num : (2 : ℚ) ≠ 0)]

/-- A positive number is rounded to a double that is at least the power of two below it. -/
theorem zpow_log_le_fl {x : ℚ} (h : 0 < x) (he : ulpExp x = Int.log 2 x - 52) :
    (2 : ℚ) ^ Int.log 2 x ≤ fl x := by
  rw [fl_of_pos h, he]
  have hlog : ((2 : ℕ) : ℚ) ^ Int.log 2 x ≤ x := Int.zpow_log_le_self (by norm_num) h
  rw [Nat.cast_ofNat] at hlog
  have hq : (((2 : ℤ) ^ (52 : ℕ) : ℤ) : ℚ) ≤ x / 2 ^ (Int.log 2 x - 52) := by
    rw [le_div_iff₀ (two_zpow_pos _)]
    have e : (((2 : ℤ) ^ (52 : ℕ) : ℤ) : ℚ) * 2 ^ (Int.log 2 x - 52) = 2 ^ Int.log 2 x := by
      rw [two_pow_mul_zpow]
      congr 1
      omega
    rw [e]
    exact hlog
  have hr := roundHalfEven_mono hq
  rw [roundHalfEven_intCast] at hr
  have hr' : (((2 : ℤ) ^ (52 : ℕ) : ℤ) : ℚ)
      ≤ (roundHalfEven (x / 2 ^ (Int.log 2 x - 52)) : ℚ) := by exact_mod_cast hr
  calc (2 : ℚ) ^ Int.log 2 x
      = (((2 : ℤ) ^ (52 : ℕ) : ℤ) : ℚ) * 2 ^ (Int.log 2 x - 52) := by
        rw [two_pow_mul_zpow]
        congr 1
        omega
    _ ≤ _ := mul_le_mul_of_nonneg_right hr' (le_of_lt (two_zpow_pos _))

/-- A positive number below a power of two is rounded to a double that is at most that
power of two. -/
theorem fl_le_zpow {x : ℚ} (h : 0 < x) (L : ℤ) (hx : x ≤ 2 ^ L) (hL : ulpExp x ≤ L) :
    fl x ≤ (2 : ℚ) ^ L := by
  rw [fl_of_pos h]
  obtain ⟨k, hk⟩ : ∃ k : ℕ, (k : ℤ) = L - ulpExp x := ⟨(L - ulpExp x).toNat, by omega⟩
  have e : (((2 : ℤ) ^ k : ℤ) : ℚ) * 2 ^ ulpExp x = 2 ^ L := by
    rw [two_pow_mul_zpow]
    congr 1
    omega
  have hq : x / 2 ^ ulpExp x ≤ (((2 : ℤ) ^ k : ℤ) : ℚ) := by
    rw [div_le_iff₀ (two_zpow_pos _), e]
    exact hx
  have hr := roundHalfEven_mono hq
  rw [roundHalfEven_intCast] at hr
  have hr' : (roundHalfEven (x / 2 ^ ulpExp x) : ℚ) ≤ (((2 : ℤ) ^ k : ℤ) : ℚ) := by
    exact_mod_cast hr
  rw [← e]
  exact mul_le_mul_of_nonneg_right hr' (le_of_lt (two_zpow_pos _))

theorem fl_mono_of_pos {x y : ℚ} (hx : 0 < x) (hxy : x ≤ y) : fl x ≤ fl y := by
  have hy : 0 < y := lt_of_lt_of_le hx hxy
  have hlog : Int.log 2 x ≤ Int.log 2 y := Int.log_mono_right hx hxy
  have hxa : |x| = x := abs_of_pos hx
  have hya : |y| = y := abs_of_pos hy
  have hex : ulpExp x = max (Int.log 2 x - 52) (-1074) := by
    rw [ulpExp_eq (ne_of_gt hx), hxa]
  have hey : ulpExp y = max (Int.log 2 y - 52) (-1074) := by
    rw [ulpExp_eq (ne_of_gt hy), hya]
  have hle : ulpExp x ≤ ulpExp y := by
    rw [hex, hey]
    exact max_le_max (by omega) (le_refl _)
  rcases eq_or_lt_of_le hle with heq | hlt
  · rw [fl_of_pos hx, fl_of_pos hy, heq]
    apply mul_le_mul_of_nonneg_right _ (le_of_lt (two_zpow_pos _))
    have : x / 2 ^ ulpExp y ≤ y / 2 ^ ulpExp y :=
      div_le_div_of_nonneg_right hxy (le_of_lt (two_zpow_pos _))
    exact_mod_cast roundHalfEven_mono this
  · have hey' : ulpExp y = Int.log 2 y - 52 := by
      rw [hey]
      apply max_eq_left
      have : (-1074 : ℤ) ≤ ulpExp x := by rw [hex]; exact le_max_right _ _
      have h2 : ulpExp y = max (Int.log 2 y - 52) (-1074) := hey
      rcases max_choice (Int.log 2 y - 52) (-1074) with hm | hm
      · rw [hm] at h2; omega
      · rw [hm] at h2; omega
    have hlx : Int.log 2 x - 52 ≤ ulpExp x := by rw [hex]; exact le_max_left _ _
    have hlt' : Int.log 2 x + 1 ≤ Int.log 2 y := by omega
    have hxlt : x < ((2 : ℕ) : ℚ) ^ (Int.log 2 x + 1) := Int.lt_zpow_succ_log_self (by norm_num) x
    rw [Nat.cast_ofNat] at hxlt
    have hpow : (2 : ℚ) ^ (Int.log 2 x + 1) ≤ 2 ^ Int.log 2 y :=
      zpow_le_zpow_right₀ (by norm_num) hlt'
    have h1 : fl x ≤ (2 : ℚ) ^ Int.log 2 y :=
      fl_le_zpow hx _ (le_of_lt (lt_of_lt_of_le hxlt hpow)) (by omega)
    exact le_trans h1 (zpow_log_le_fl hy hey')

/-- Rounding to the nearest double keeps the order. -/
theorem fl_mono {x y : ℚ} (h : x ≤ y) : fl x ≤ fl y := by
  rcases lt_trichotomy x 0 with hx | hx | hx
  · rcases lt_or_le y 0 with hy | hy
    · have := fl_mono_of_pos (by linarith : (0 : ℚ) < -y) (by linarith : -y ≤ -x)
      rw [fl_neg, fl_neg] at this
      linarith
    · exact le_trans (fl_nonpos (le_of_lt hx)) (fl_nonneg hy)
  · subst hx
    rw [fl_zero]
    exact fl_nonneg h
  · exact fl_mono_of_pos hx h

theorem cent_eq : cent = 5764607523034235 / 576460752303423488 := by decide!

theorem cent_gt : (1 : ℚ) / 100 < cent := by
  rw [cent_eq]
  norm_num


/-! ## Per person share on doubles -/

/-- C9 as amended: for `n > 0` (written `n + 1`) `calculatePerPersonShare(totalBill, n)`
is the double nearest to `c`, where `q` is `totalBill / n` computed in double precision
and `c` is `q` rounded half-up to the nearest cent: a whole number of cents at most 0.005
from `q`, a tie of the binary value `q` taking the larger magnitude, which for a bill
that is not negative is the floor of `100 * q + 1/2` over 100; it is 0 when `n = 0`;
`calculate` stores this value for the number of participants and, on an empty participant
list, returns a result with share 0 and no balances or settlements. -/
theorem double_perPersonShare (totalBill : ℚ) (n : Nat)
    (participants : List Participant) (payments : List Payment) :
    calculatePerPersonShare totalBill 0 = 0 ∧
    calculatePerPersonShare totalBill (n + 1)
      = fl (BillCalculator.round2 (fl (totalBill / ((n + 1 : Nat) : ℚ)))) ∧
    IsCents (BillCalculator.round2 (fl (totalBill / ((n + 1 : Nat) : ℚ)))) ∧
    |BillCalculator.round2 (fl (totalBill / ((n + 1 : Nat) : ℚ)))
        - fl (totalBill / ((n + 1 : Nat) : ℚ))| ≤ 5 / 1000 ∧
    (|BillCalculator.round2 (fl (totalBill / ((n + 1 : Nat) : ℚ)))
        - fl (totalBill / ((n + 1 : Nat) : ℚ))| = 5 / 1000 →
      |fl (totalBill / ((n + 1 : Nat) : ℚ))|
        < |BillCalculator.round2 (fl (totalBill / ((n + 1 : Nat) : ℚ)))|) ∧
    (0 ≤ totalBill → BillCalculator.round2 (fl (totalBill / ((n + 1 : Nat) : ℚ)))
      = ((⌊fl (totalBill / ((n + 1 : Nat) : ℚ)) * 100 + 1 / 2⌋ : ℤ) : ℚ) / 100) ∧
    (calculate totalBill participants payments).perPersonShare
      = calculatePerPersonShare totalBill participants.length ∧
    calculate totalBill [] payments
      = { totalBill := totalBill, totalPaid := round2 (sumAmounts payments),
          perPersonShare := 0, balances := [], settlements := [],
          participants := [], payments := payments } := by
  have hs : calculatePerPersonShare totalBill (n + 1)
      = fl (BillCalculator.round2 (fl (totalBill / ((n + 1 : Nat) : ℚ)))) := by
    unfold calculatePerPersonShare
    rw [if_neg (Nat.succ_ne_zero n)]
    rfl
  have e : (5 : ℚ) / 1000 = 1 / 200 := by norm_num
  refine ⟨rfl, hs, isCents_round2 _, ?_, ?_, ?_, rfl, ?_⟩
  · rw [e]; exact abs_round2_sub_le _
  · rw [e]; exact round2_tie _
  · intro h
    exact round2_of_nonneg (fl_nonneg (div_nonneg h (Nat.cast_nonneg _)))
  · have hb : ∀ (l : List Balance) (ps : List Payment), l = [] → ps.foldl addPayment l = [] := by
      intro l ps hl
      subst hl
      induction ps with
      | nil => rfl
      | cons p ps ih => simpa [addPayment] using ih
    simp [calculate, calculatePerPersonShare, calculateBalances, generateSettlements,
      creditorsOf, debtorsOf, sortDesc, settleLoop, hb]

/-- C9 fails as stated: the bill 2.01 shared by two has the quotient 1.005, which rounded
half-up to the nearest cent is 1.01; the program returns 1, because the double 2.01
halved is just below 1.005. -/
theorem share_tie_counterexample :
    calculatePerPersonShare (fl (201 / 100)) 2 = 1 ∧
    fl (fl (201 / 100) / 2) < 1005 / 1000 ∧
    BillCalculator.round2 ((201 / 100 : ℚ) / 2) = 101 / 100 ∧
    fl (101 / 100) ≠ 1 := by
  decide!

/-! ## Validation warning on doubles -/

theorem double_validate_valid_iff_errors (totalBill : ℚ) (participants : List Participant)
    (payments : List Payment) :
    (validate totalBill participants payments).valid = true ↔
      (validate totalBill participants payments).errors = [] := by
  simp [validate, List.length_eq_zero]

/-- C8 as amended: for every input, valid or not, with `sum` the total of the payment
amounts added up in double precision and `d` the difference `sum - totalBill` computed in
double precision, the warning is `overpaid` iff `d > 0.01`, `underpaid` iff `-d > 0.01`
and `null` otherwise, and `difference` is `round2 |d|`; a bill of 100 with payments
summing to 105 gives overpaid / 5.00 and with payments summing to 90 gives
underpaid / 10.00; `valid` is read off the error list alone, and inputs with either
warning are valid. -/
theorem double_validate_warning (totalBill : ℚ) (participants : List Participant)
    (payments : List Payment) :
    ((validate totalBill participants payments).warning = some "overpaid" ↔
        fl (sumAmounts payments - totalBill) > cent) ∧
    ((validate totalBill participants payments).warning = some "underpaid" ↔
        -fl (sumAmounts payments - totalBill) > cent) ∧
    ((validate totalBill participants payments).warning = none ↔
        ¬ fl (sumAmounts payments - totalBill) > cent ∧
        ¬ -fl (sumAmounts payments - totalBill) > cent) ∧
    (validate totalBill participants payments).difference
        = round2 |fl (sumAmounts payments - totalBill)| ∧
    (totalBill = 100 ∧ sumAmounts payments = 105 →
        (validate totalBill participants payments).warning = some "overpaid" ∧
        (validate totalBill participants payments).difference = 5) ∧
    (totalBill = 100 ∧ sumAmounts payments = 90 →
        (validate totalBill participants payments).warning = some "underpaid" ∧
        (validate totalBill participants payments).difference = 10) ∧
    ((validate totalBill participants payments).valid = true ↔
        (validate totalBill participants payments).errors = []) ∧
    validate 100 [⟨1, "A"⟩, ⟨2, "B"⟩] [⟨1, 1, 105⟩]
        = ⟨true, [], some "overpaid", 5⟩ ∧
    validate 100 [⟨1, "A"⟩, ⟨2, "B"⟩] [⟨1, 1, 60⟩, ⟨2, 2, 30⟩]
        = ⟨true, [], some "underpaid", 10⟩ := by
  have hc0 : (0 : ℚ) < cent := lt_trans (by norm_num) cent_gt
  have hw : (validate totalBill participants payments).warning
      = if |fl (sumAmounts payments - totalBill)| > cent then
          (if sumAmounts payments > totalBill then some "overpaid" else some "underpaid")
        else none := rfl
  have key : |fl (sumAmounts payments - totalBill)| > cent ↔
      (fl (sumAmounts payments - totalBill) > cent ∨
        -fl (sumAmounts payments - totalBill) > cent) := by
    rw [gt_iff_lt, lt_abs]
  have hpos : fl (sumAmounts payments - totalBill) > cent → sumAmounts payments > totalBill := by
    intro h
    by_contra hle
    have := fl_nonpos (by linarith : sumAmounts payments - totalBill ≤ 0)
    linarith
  have hneg : -fl (sumAmounts payments - totalBill) > cent →
      ¬ sumAmounts payments > totalBill := by
    intro h hgt
    have := fl_nonneg (by linarith : (0 : ℚ) ≤ sumAmounts payments - totalBill)
    linarith
  have hover : (validate totalBill participants payments).warning = some "overpaid" ↔
      fl (sumAmounts payments - totalBill) > cent := by
    rw [hw]
    split_ifs with h1 h2
    · refine ⟨fun _ => ?_, fun _ => rfl⟩
      rcases key.mp h1 with h | h
      · exact h
      · exact absurd h2 (hneg h)
    · refine ⟨fun h => ?_, fun h => ?_⟩
      · exact absurd h (by decide)
      · exact absurd (hpos h) h2
    · refine ⟨fun h => ?_, fun h => ?_⟩
      · exact absurd h (by decide)
      · exact absurd (key.mpr (Or.inl h)) h1
  have hunder : (validate totalBill participants payments).warning = some "underpaid" ↔
      -fl (sumAmounts payments - totalBill) > cent := by
    rw [hw]
    split_ifs with h1 h2
    · refine ⟨fun h => ?_, fun h => ?_⟩
      · exact absurd h (by decide)
      · exact absurd h2 (hneg h)
    · refine ⟨fun _ => ?_, fun _ => rfl⟩
      rcases key.mp h1 with h | h
      · exact absurd (hpos h) h2
      · exact h
    · refine ⟨fun h => ?_, fun h => ?_⟩
      · exact absurd h (by decide)
      · exact absurd (key.mpr (Or.inr h)) h1
  have hnone : (validate totalBill participants payments).warning = none ↔
      ¬ fl (sumAmounts payments - totalBill) > cent ∧
      ¬ -fl (sumAmounts payments - totalBill) > cent := by
    rw [← not_or, ← key, hw]
    split_ifs with h1 h2
    · exact ⟨fun h => absurd h (by decide), fun h => absurd h1 h⟩
    · exact ⟨fun h => absurd h (by decide), fun h => absurd h1 h⟩
    · exact ⟨fun _ => h1, fun _ => rfl⟩
  have hdiff : (validate totalBill participants payments).difference
      = round2 |fl (sumAmounts payments - totalBill)| := rfl
  have h5 : fl (105 - 100) = 5 := by decide!
  have h10 : fl (90 - 100) = -10 := by decide!
  have hr5 : round2 |(5 : ℚ)| = 5 := by decide!
  have hr10 : round2 |(-10 : ℚ)| = 10 := by decide!
  have hc5 : (5 : ℚ) > cent := by rw [cent_eq]; norm_num
  have hc10 : -(-10 : ℚ) > cent := by rw [cent_eq]; norm_num
  refine ⟨hover, hunder, hnone, hdiff, ?_, ?_,
    double_validate_valid_iff_errors totalBill participants payments, by decide!, by decide!⟩
  · rintro ⟨hb, hs⟩
    refine ⟨hover.mpr (by rw [hb, hs, h5]; exact hc5), ?_⟩
    rw [hdiff, hb, hs, h5, hr5]
  · rintro ⟨hb, hs⟩
    refine ⟨hunder.mpr (by rw [hb, hs, h10]; exact hc10), ?_⟩
    rw [hdiff, hb, hs, h10, hr10]

/-- C8 fails as stated: for a bill of 100 and one payment of 100.01 the sum exceeds the
bill by 0.01, not by more, yet the program warns `overpaid` with difference 0.01: the
double 100.01 minus 100 is a little above the double 0.01. -/
theorem one_cent_over_warns_counterexample :
    validate 100 [⟨1, "A"⟩, ⟨2, "B"⟩] [⟨1, 1, fl (10001 / 100)⟩]
      = ⟨true, [], some "overpaid", cent⟩ ∧
    ¬ ((10001 / 100 : ℚ) - 100 > 1 / 100) ∧
    fl (fl (10001 / 100) - 100) > cent := by
  decide!


/-! ## Balances on doubles -/

theorem addPayment_ids (l : List Balance) (payment : Payment) :
    (addPayment l payment).map (fun b => b.id) = l.map fun b => b.id := by
  induction l with
  | nil => rfl
  | cons b rest ih =>
    unfold addPayment
    split_ifs with h
    · rfl
    · simp only [List.map_cons, ih]

theorem addPayment_eq_map_of_nodup (l : List Balance) (payment : Payment)
    (hl : (l.map fun b => b.id).Nodup) :
    addPayment l payment
      = l.map fun b => if b.id = payment.payerId then
          { b with paid := fl (b.paid + payment.amount),
                   balance := fl (b.balance + payment.amount) } else b := by
  induction l with
  | nil => rfl
  | cons b rest ih =>
    rw [List.map_cons, List.nodup_cons] at hl
    unfold addPayment
    split_ifs with h
    · rw [List.map_cons, if_pos h]
      congr 1
      symm
      conv_rhs => rw [← List.map_id rest]
      apply List.map_congr_left
      intro c hc
      have hne : c.id ≠ payment.payerId := by
        intro hcid
        apply hl.1
        rw [h, ← hcid]
        exact List.mem_map_of_mem (fun b => b.id) hc
      rw [if_neg hne]
      rfl
    · rw [List.map_cons, if_neg h, ih hl.2]

theorem accumulate_cons (init : ℚ) (payment : Payment) (payments : List Payment) (id : Int) :
    accumulate init (payment :: payments) id
      = accumulate (if payment.payerId = id then fl (init + payment.amount) else init)
          payments id := by
  unfold accumulate
  by_cases h : payment.payerId = id <;> simp [List.filter_cons, h]

theorem foldl_addPayment_accumulate (payments : List Payment) (l : List Balance)
    (hl : (l.map fun b => b.id).Nodup) :
    payments.foldl addPayment l
      = l.map fun b => { b with paid := accumulate b.paid payments b.id,
                                balance := accumulate b.balance payments b.id } := by
  induction payments generalizing l with
  | nil =>
    simp [accumulate]
  | cons payment payments ih =>
    rw [List.foldl_cons, ih _ (by rw [addPayment_ids]; exact hl),
      addPayment_eq_map_of_nodup _ _ hl, List.map_map]
    apply List.map_congr_left
    intro b _
    simp only [Function.comp, accumulate_cons]
    by_cases h : b.id = payment.payerId
    · simp only [if_pos h, if_pos h.symm]
    · simp only [if_neg h, if_neg (fun h' : payment.payerId = b.id => h h'.symm)]

/-- C10 as amended: for participants with distinct ids `calculateBalances` returns one
record per participant, in input order and with the participant's `id` and `name` kept,
where `paid` is the sum of the amounts of the payments whose `payerId` is that
participant's id, added up from 0 in payment order in double precision, and `balance` is
`round2` of the same amounts added in the same way to `-perPersonShare`. -/
theorem double_calculateBalances (participants : List Participant)
    (payments : List Payment) (perPersonShare : ℚ)
    (hids : (participants.map fun p => p.id).Nodup) :
    calculateBalances participants payments perPersonShare
      = participants.map fun p =>
          { id := p.id, name := p.name, paid := accumulate 0 payments p.id,
            balance := round2 (accumulate (-perPersonShare) payments p.id) } := by
  unfold calculateBalances
  simp only []
  rw [foldl_addPayment_accumulate _ _ (by rw [List.map_map]; exact hids), List.map_map,
    List.map_map]
  apply List.map_congr_left
  intro p _
  rfl

/-- Witness for `double_calculateBalances`: two payments by one payer accumulate. -/
theorem double_calculateBalances_witness :
    ([(⟨1, "A"⟩ : Participant), ⟨2, "B"⟩].map fun p => p.id).Nodup ∧
    calculateBalances [⟨1, "A"⟩, ⟨2, "B"⟩] [⟨1, 2, 30⟩, ⟨2, 2, 12⟩, ⟨3, 1, 5⟩] 20
      = [(⟨1, "A"⟩ : Participant), ⟨2, "B"⟩].map fun p =>
          { id := p.id, name := p.name,
            paid := accumulate 0 [⟨1, 2, 30⟩, ⟨2, 2, 12⟩, ⟨3, 1, 5⟩] p.id,
            balance := round2 (accumulate (-20) [⟨1, 2, 30⟩, ⟨2, 2, 12⟩, ⟨3, 1, 5⟩] p.id) } :=
  ⟨by decide, double_calculateBalances _ _ _ (by decide)⟩

/-- C10 fails as stated: A pays 0.1 and 0.2, B pays nothing, the share is 1.005.  The
program returns `paid` 0.30000000000000004 for A, which is neither 0.3 nor the double 0.3
nor the exact sum of the two doubles, and the balance -1 for B, where 0 - 1.005 rounded to
2 decimals is -1.01. -/
theorem balances_double_sum_counterexample :
    ([(⟨1, "A"⟩ : Participant), ⟨2, "B"⟩].map fun p => p.id).Nodup ∧
    calculateBalances [⟨1, "A"⟩, ⟨2, "B"⟩] [⟨1, 1, fl (1 / 10)⟩, ⟨2, 1, fl (2 / 10)⟩]
        (fl (1005 / 1000))
      = [⟨1, "A", 1351079888211149 / 4503599627370496, fl (-(70 / 100))⟩,
          ⟨2, "B", 0, -1⟩] ∧
    (1351079888211149 / 4503599627370496 : ℚ) ≠ 3 / 10 ∧
    (1351079888211149 / 4503599627370496 : ℚ) ≠ fl (3 / 10) ∧
    (1351079888211149 / 4503599627370496 : ℚ) ≠ fl (1 / 10) + fl (2 / 10) ∧
    BillCalculator.round2 (0 - 1005 / 1000) = -(101 / 100) ∧
    fl (-(101 / 100)) ≠ -1 := by
  decide!


/-! ## Settlement amounts on doubles -/

/-- An amount above the double 0.01 is stored as a whole number of cents, at least one. -/
theorem round2_of_gt_cent {x : ℚ} (h : x > cent) :
    cent ≤ round2 x ∧ ∃ k : ℤ, 1 ≤ k ∧ round2 x = fl ((k : ℚ) / 100) := by
  have hx : 1 / 100 < x := lt_trans cent_gt h
  have hk : (1 : ℤ) ≤ ⌊x * 100 + 1 / 2⌋ := by
    rw [Int.le_floor]
    push_cast
    linarith
  have hr : round2 x = fl (((⌊x * 100 + 1 / 2⌋ : ℤ) : ℚ) / 100) := by
    unfold round2
    rw [round2_of_nonneg (by linarith : (0 : ℚ) ≤ x)]
  refine ⟨?_, ⌊x * 100 + 1 / 2⌋, hk, hr⟩
  rw [hr]
  have h1 : (1 : ℚ) ≤ ((⌊x * 100 + 1 / 2⌋ : ℤ) : ℚ) := by exact_mod_cast hk
  exact fl_mono (by linarith)

theorem double_settleLoop_succ (fuel : Nat) (d c : Balance) (ds cs : List Balance) :
    settleLoop (fuel + 1) (d :: ds) (c :: cs)
      = (if min d.balance c.balance > cent then
          [{ fromName := d.name, toName := c.name, amount := round2 (min d.balance c.balance) }]
          else [])
        ++ settleLoop fuel
            (if fl (d.balance - min d.balance c.balance) < cent then ds
              else { d with balance := fl (d.balance - min d.balance c.balance) } :: ds)
            (if fl (c.balance - min d.balance c.balance) < cent then cs
              else { c with balance := fl (c.balance - min d.balance c.balance) } :: cs) := rfl

theorem double_settleLoop_amount (fuel : Nat) (ds cs : List Balance) :
    ∀ s ∈ settleLoop fuel ds cs,
      cent ≤ s.amount ∧ ∃ k : ℤ, 1 ≤ k ∧ s.amount = fl ((k : ℚ) / 100) := by
  induction fuel generalizing ds cs with
  | zero => simp [settleLoop]
  | succ fuel ih =>
    cases ds with
    | nil => simp [settleLoop]
    | cons d ds =>
      cases cs with
      | nil => simp [settleLoop]
      | cons c cs =>
        intro s hs
        rw [double_settleLoop_succ, List.mem_append] at hs
        rcases hs with hs | hs
        · split_ifs at hs with hgt
          · rw [List.mem_singleton] at hs
            subst hs
            exact round2_of_gt_cent hgt
          · exact absurd hs (List.not_mem_nil s)
        · exact ih _ _ s hs

/-- C4 as amended: every settlement returned by `calculate` has an amount of at least
0.01; the stored amount is the double of a whole number of cents `k / 100` with `k >= 1`.
This holds for every input. -/
theorem double_settlement_amount_ge (totalBill : ℚ) (participants : List Participant)
    (payments : List Payment) :
    ∀ s ∈ (calculate totalBill participants payments).settlements,
      cent ≤ s.amount ∧ ∃ k : ℤ, 1 ≤ k ∧ s.amount = fl ((k : ℚ) / 100) :=
  double_settleLoop_amount _ _ _

/-- Witness for `double_settlement_amount_ge`: the settlement of 0.01 from D to B when B
paid a bill of 0.07 shared by four. -/
theorem double_settlement_amount_ge_witness :
    (⟨"D", "B", cent⟩ : Settlement)
      ∈ (calculate (fl (7 / 100)) [⟨1, "A"⟩, ⟨2, "B"⟩, ⟨3, "C"⟩, ⟨4, "D"⟩]
          [⟨1, 2, fl (7 / 100)⟩]).settlements ∧
    (cent ≤ (⟨"D", "B", cent⟩ : Settlement).amount ∧
      ∃ k : ℤ, 1 ≤ k ∧ (⟨"D", "B", cent⟩ : Settlement).amount = fl ((k : ℚ) / 100)) :=
  ⟨by decide!, double_settlement_amount_ge (fl (7 / 100))
    [⟨1, "A"⟩, ⟨2, "B"⟩, ⟨3, "C"⟩, ⟨4, "D"⟩] [⟨1, 2, fl (7 / 100)⟩] ⟨"D", "B", cent⟩
    (by decide!)⟩

/-- C4 fails as stated: a bill of 0.07 among A, B, C and D that B paid is a valid input;
the share is 0.02, B is owed 0.05, and after A and C have sent 0.02 each B's remainder is
0.010000000000000002, above the double 0.01, so D's transfer is pushed and stored as 0.01,
which is not greater than 0.01. -/
theorem settlement_of_one_cent_counterexample :
    ValidInput (fl (7 / 100)) [⟨1, "A"⟩, ⟨2, "B"⟩, ⟨3, "C"⟩, ⟨4, "D"⟩]
      [⟨1, 2, fl (7 / 100)⟩] ∧
    (calculate (fl (7 / 100)) [⟨1, "A"⟩, ⟨2, "B"⟩, ⟨3, "C"⟩, ⟨4, "D"⟩]
      [⟨1, 2, fl (7 / 100)⟩]).settlements
      = [⟨"A", "B", fl (2 / 100)⟩, ⟨"C", "B", fl (2 / 100)⟩, ⟨"D", "B", fl (1 / 100)⟩] ∧
    fl (fl (fl (5 / 100) - fl (2 / 100)) - fl (2 / 100)) > fl (1 / 100) ∧
    ¬ (∀ s ∈ (calculate (fl (7 / 100)) [⟨1, "A"⟩, ⟨2, "B"⟩, ⟨3, "C"⟩, ⟨4, "D"⟩]
      [⟨1, 2, fl (7 / 100)⟩]).settlements, s.amount > cent) := by
  decide!

end F64

/-- C12 as amended: for every list of balances with distinct names, along the settlement
list of `generateSettlements` the debtors appear in non-increasing order of their original
debt magnitude and the creditors in non-increasing order of their original balance; when at
least one debtor and one creditor exist, the first settlement is from a largest debtor to a
largest creditor, and its amount is `min (largest debt) (largest credit)` when the balances
are whole numbers of cents, as `calculateBalances` returns them. -/
theorem settlements_order (balances : List Balance)
    (hn : (balances.map fun b => b.name).Nodup) :
    ((generateSettlements balances).map fun s => |balanceOf balances s.fromName|).Pairwise
      (· ≥ ·) ∧
    ((generateSettlements balances).map fun s => balanceOf balances s.toName).Pairwise
      (· ≥ ·) ∧
    ((∃ b ∈ balances, b.balance < -(1 / 100)) → (∃ b ∈ balances, b.balance > 1 / 100) →
      ∃ bd ∈ balances, ∃ bc ∈ balances,
        bd.balance < -(1 / 100) ∧
        (∀ b ∈ balances, b.balance < -(1 / 100) → |b.balance| ≤ |bd.balance|) ∧
        bc.balance > 1 / 100 ∧
        (∀ b ∈ balances, b.balance > 1 / 100 → b.balance ≤ bc.balance) ∧
        ∃ s, (generateSettlements balances).head? = some s ∧
          s.fromName = bd.name ∧ s.toName = bc.name ∧
          (AllCents balances → s.amount = min |bd.balance| bc.balance)) := by
  refine ⟨settleLoop_from_pairwise (fun name => |balanceOf balances name|) _ _ _
      (debtorsOf_keys hn),
    settleLoop_to_pairwise (fun name => balanceOf balances name) _ _ _ (creditorsOf_keys hn),
    ?_⟩
  intro hd hc
  obtain ⟨bd, hbd, bc, hbc, h1, h2, h3, h4, h5⟩ := generateSettlements_head balances hd hc
  exact ⟨bd, hbd, bc, hbc, h1, h2, h3, h4, _, h5, rfl, rfl,
    fun hcents => round2_of_isCents ((hcents bd hbd).abs.min (hcents bc hbc))⟩

/-- Witness for `settlements_order`: A owes 70, B owes 30, C is owed 60, D is owed 40; the
settlements are A to C 60, A to D 10, B to D 30. -/
theorem settlements_order_witness :
    (([⟨1, "A", 0, -70⟩, ⟨2, "B", 0, -30⟩, ⟨3, "C", 0, 60⟩, ⟨4, "D", 0, 40⟩] :
      List Balance).map fun b => b.name).Nodup ∧
    generateSettlements [⟨1, "A", 0, -70⟩, ⟨2, "B", 0, -30⟩, ⟨3, "C", 0, 60⟩, ⟨4, "D", 0, 40⟩]
      = [⟨"A", "C", 60⟩, ⟨"A", "D", 10⟩, ⟨"B", "D", 30⟩] ∧
    (((generateSettlements
        [⟨1, "A", 0, -70⟩, ⟨2, "B", 0, -30⟩, ⟨3, "C", 0, 60⟩, ⟨4, "D", 0, 40⟩]).map fun s =>
        |balanceOf [⟨1, "A", 0, -70⟩, ⟨2, "B", 0, -30⟩, ⟨3, "C", 0, 60⟩, ⟨4, "D", 0, 40⟩]
          s.fromName|).Pairwise (· ≥ ·) ∧
    ((generateSettlements
        [⟨1, "A", 0, -70⟩, ⟨2, "B", 0, -30⟩, ⟨3, "C", 0, 60⟩, ⟨4, "D", 0, 40⟩]).map fun s =>
        balanceOf [⟨1, "A", 0, -70⟩, ⟨2, "B", 0, -30⟩, ⟨3, "C", 0, 60⟩, ⟨4, "D", 0, 40⟩]
          s.toName).Pairwise (· ≥ ·) ∧
    ((∃ b ∈ ([⟨1, "A", 0, -70⟩, ⟨2, "B", 0, -30⟩, ⟨3, "C", 0, 60⟩, ⟨4, "D", 0, 40⟩] :
        List Balance), b.balance < -(1 / 100)) →
      (∃ b ∈ ([⟨1, "A", 0, -70⟩, ⟨2, "B", 0, -30⟩, ⟨3, "C", 0, 60⟩, ⟨4, "D", 0, 40⟩] :
        List Balance), b.balance > 1 / 100) →
      ∃ bd ∈ ([⟨1, "A", 0, -70⟩, ⟨2, "B", 0, -30⟩, ⟨3, "C", 0, 60⟩, ⟨4, "D", 0, 40⟩] :
        List Balance),
      ∃ bc ∈ ([⟨1, "A", 0, -70⟩, ⟨2, "B", 0, -30⟩, ⟨3, "C", 0, 60⟩, ⟨4, "D", 0, 40⟩] :
        List Balance),
        bd.balance < -(1 / 100) ∧
        (∀ b ∈ ([⟨1, "A", 0, -70⟩, ⟨2, "B", 0, -30⟩, ⟨3, "C", 0, 60⟩, ⟨4, "D", 0, 40⟩] :
          List Balance), b.balance < -(1 / 100) → |b.balance| ≤ |bd.balance|) ∧
        bc.balance > 1 / 100 ∧
        (∀ b ∈ ([⟨1, "A", 0, -70⟩, ⟨2, "B", 0, -30⟩, ⟨3, "C", 0, 60⟩, ⟨4, "D", 0, 40⟩] :
          List Balance), b.balance > 1 / 100 → b.balance ≤ bc.balance) ∧
        ∃ s, (generateSettlements
          [⟨1, "A", 0, -70⟩, ⟨2, "B", 0, -30⟩, ⟨3, "C", 0, 60⟩, ⟨4, "D", 0, 40⟩]).head? = some s ∧
          s.fromName = bd.name ∧ s.toName = bc.name ∧
          (AllCents [⟨1, "A", 0, -70⟩, ⟨2, "B", 0, -30⟩, ⟨3, "C", 0, 60⟩, ⟨4, "D", 0, 40⟩] →
            s.amount = min |bd.balance| bc.balance))) :=
  ⟨by decide, by decide!, settlements_order _ (by decide)⟩

namespace F64

/-! ## A remainder of one cent on doubles -/

/-- A remainder of one cent is a little below or a little above the double 0.01.  For the
bill of 0.50 among five with payments 0.07, 0.08, 0.12, 0.12 and 0.11 the remainder
0.03 - 0.02 of A is 0.009999999999999998, so the cursor moves on and B sends D 0.02; the
bill of 0.07 that B paid for four ends with a remainder of 0.010000000000000002 and a
settlement of 0.01. -/
theorem one_cent_remainder_examples :
    (calculate (1 / 2) [⟨1, "A"⟩, ⟨2, "B"⟩, ⟨3, "C"⟩, ⟨4, "D"⟩, ⟨5, "E"⟩]
      [⟨1, 1, fl (7 / 100)⟩, ⟨2, 2, fl (8 / 100)⟩, ⟨3, 3, fl (12 / 100)⟩,
        ⟨4, 4, fl (12 / 100)⟩, ⟨5, 5, fl (11 / 100)⟩]).settlements
      = [⟨"A", "C", fl (2 / 100)⟩, ⟨"B", "D", fl (2 / 100)⟩] ∧
    fl (fl (3 / 100) - fl (2 / 100)) < cent ∧
    fl (fl (fl (5 / 100) - fl (2 / 100)) - fl (2 / 100)) > cent := by
  decide!


/-! ## Termination of the loop on doubles -/

theorem cent_pos : (0 : ℚ) < cent := lt_trans (by norm_num) cent_gt

/-- Every iteration moves a cursor: the minimum leaves an exact zero on its own side. -/
theorem double_step_length_lt (d c : Balance) (ds cs : List Balance) :
    (if fl (d.balance - min d.balance c.balance) < cent then ds
        else { d with balance := fl (d.balance - min d.balance c.balance) } :: ds).length
      + (if fl (c.balance - min d.balance c.balance) < cent then cs
        else { c with balance := fl (c.balance - min d.balance c.balance) } :: cs).length
      < (d :: ds).length + (c :: cs).length := by
  have h0 : fl 0 < cent := by rw [fl_zero]; exact cent_pos
  rcases le_total d.balance c.balance with h | h
  · rw [min_eq_left h, sub_self, if_pos h0]
    split_ifs <;> simp only [List.length_cons] <;> omega
  · rw [min_eq_right h, sub_self, if_pos h0]
    split_ifs <;> simp only [List.length_cons] <;> omega

theorem double_settleLoop_nil_left (fuel : Nat) (cs : List Balance) :
    settleLoop fuel [] cs = [] := by
  cases fuel <;> simp [settleLoop]

theorem double_settleLoop_nil_right (fuel : Nat) (ds : List Balance) :
    settleLoop fuel ds [] = [] := by
  cases fuel <;> cases ds <;> simp [settleLoop]

/-- The loop on doubles stops because a cursor reaches the end of its array, not for lack
of fuel: any fuel from `debtors.length + creditors.length` on gives the same settlements. -/
theorem double_settleLoop_fuel (fuel : Nat) (ds cs : List Balance)
    (h : ds.length + cs.length ≤ fuel) :
    settleLoop fuel ds cs = settleLoop (ds.length + cs.length) ds cs := by
  have key : ∀ (f1 f2 : Nat) (ds cs : List Balance), ds.length + cs.length ≤ f1 →
      ds.length + cs.length ≤ f2 → settleLoop f1 ds cs = settleLoop f2 ds cs := by
    intro f1
    induction f1 with
    | zero =>
      intro f2 ds cs h1 _
      have hd : ds = [] := List.length_eq_zero.mp (by omega)
      subst hd
      rw [double_settleLoop_nil_left, double_settleLoop_nil_left]
    | succ f1 ih =>
      intro f2 ds cs h1 h2
      cases ds with
      | nil => rw [double_settleLoop_nil_left, double_settleLoop_nil_left]
      | cons d ds =>
        cases cs with
        | nil => rw [double_settleLoop_nil_right, double_settleLoop_nil_right]
        | cons c cs =>
          cases f2 with
          | zero => simp at h2
          | succ f2 =>
            rw [double_settleLoop_succ, double_settleLoop_succ]
            have hlt := double_step_length_lt d c ds cs
            rw [ih f2 _ _ (by omega) (by omega)]
  exact key _ _ ds cs h (le_refl _)

/-- The two end-to-end cases on doubles: A, B and C share a bill of 300, then one of 90,
that A paid; B and C send A 100.00 each, then 30.00 each, B first. -/
theorem double_single_payer_examples :
    (calculate 300 [⟨1, "A"⟩, ⟨2, "B"⟩, ⟨3, "C"⟩] [⟨1, 1, 300⟩]).settlements
      = [⟨"B", "A", 100⟩, ⟨"C", "A", 100⟩] ∧
    (calculate 90 [⟨1, "A"⟩, ⟨2, "B"⟩, ⟨3, "C"⟩] [⟨1, 1, 90⟩]).settlements
      = [⟨"B", "A", 30⟩, ⟨"C", "A", 30⟩] := by
  decide!


/-! ## No transfer of exactly one cent on doubles -/

theorem onGrid_zero : OnGrid 0 := ⟨0, by norm_num⟩

theorem onGrid_neg {x : ℚ} (h : OnGrid x) : OnGrid (-x) := by
  obtain ⟨k, rfl⟩ := h
  exact ⟨-k, by push_cast; ring⟩

theorem onGrid_sub {x y : ℚ} (hx : OnGrid x) (hy : OnGrid y) : OnGrid (x - y) := by
  obtain ⟨k, rfl⟩ := hx
  obtain ⟨m, rfl⟩ := hy
  exact ⟨k - m, by push_cast; ring⟩

theorem onGrid_abs {x : ℚ} (h : OnGrid x) : OnGrid |x| := by
  rcases abs_choice x with e | e <;> rw [e]
  · exact h
  · exact onGrid_neg h

theorem onGrid_min {x y : ℚ} (hx : OnGrid x) (hy : OnGrid y) : OnGrid (min x y) := by
  rcases min_choice x y with e | e <;> rw [e]
  · exact hx
  · exact hy

/-- The double 0.01 lies between two neighbours on the grid. -/
theorem cent_not_onGrid : ¬ OnGrid cent := by
  rintro ⟨k, hk⟩
  rw [cent_eq] at hk
  have h2 : (5764607523034235 : ℚ) = 2 * (k : ℚ) := by
    have := congrArg (fun t : ℚ => t * 576460752303423488) hk
    simp only at this
    norm_num at this
    linarith
  have h3 : (5764607523034235 : ℤ) = 2 * k := by exact_mod_cast h2
  omega

/-- A double whose last bit is worth at least `2 ^ (-58)` is on the grid. -/
theorem fl_onGrid_of_ulpExp {x : ℚ} (h : -58 ≤ ulpExp x) : OnGrid (fl x) := by
  have key : ∀ y : ℚ, 0 < y → -58 ≤ ulpExp y → OnGrid (fl y) := by
    intro y hy he
    obtain ⟨n, hn⟩ : ∃ n : ℕ, (n : ℤ) = ulpExp y + 58 := ⟨(ulpExp y + 58).toNat, by omega⟩
    refine ⟨roundHalfEven (y / 2 ^ ulpExp y) * 2 ^ n, ?_⟩
    rw [fl_of_pos hy]
    have e : (2 : ℚ) ^ ulpExp y = 2 ^ n / 2 ^ 58 := by
      have : ulpExp y = (n : ℤ) - (58 : ℕ) := by omega
      rw [this, zpow_sub₀ (by norm_num : (2 : ℚ) ≠ 0), zpow_natCast, zpow_natCast]
    rw [e]
    push_cast
    ring
  rcases lt_trichotomy x 0 with hx | hx | hx
  · have := key (-x) (by linarith) (by rw [ulpExp_neg]; exact h)
    rw [fl_neg] at this
    have := onGrid_neg this
    rwa [neg_neg] at this
  · subst hx
    rw [fl_zero]
    exact onGrid_zero
  · exact key x hx h

/-- A number on the grid is rounded to a double on the grid: below `1 / 64` the doubles
are finer than the grid, so the number is a double itself. -/
theorem fl_onGrid {x : ℚ} (h : OnGrid x) : OnGrid (fl x) := by
  rcases le_or_lt (-58) (ulpExp x) with he | he
  · exact fl_onGrid_of_ulpExp he
  · have key : ∀ y : ℚ, 0 < y → ulpExp y < -58 → OnGrid y → fl y = y := by
      intro y hy he hg
      obtain ⟨k, hk⟩ := hg
      obtain ⟨n, hn⟩ : ∃ n : ℕ, (n : ℤ) = -58 - ulpExp y := ⟨(-58 - ulpExp y).toNat, by omega⟩
      have e : (2 : ℚ) ^ ulpExp y = 1 / (2 ^ n * 2 ^ 58) := by
        have : ulpExp y = -((n : ℤ) + (58 : ℕ)) := by omega
        rw [this, zpow_neg, zpow_add₀ (by norm_num : (2 : ℚ) ≠ 0), zpow_natCast, zpow_natCast,
          one_div]
      have hq : y / 2 ^ ulpExp y = ((k * 2 ^ n : ℤ) : ℚ) := by
        rw [e, hk]
        push_cast
        field_simp
        ring
      rw [fl_of_pos hy, hq, roundHalfEven_intCast, e, hk]
      push_cast
      field_simp
      ring
    rcases lt_trichotomy x 0 with hx | hx | hx
    · have h1 := key (-x) (by linarith) (by rw [ulpExp_neg]; exact he) (onGrid_neg h)
      rw [fl_neg] at h1
      have h2 : fl x = x := by linarith
      rw [h2]
      exact h
    · subst hx
      rw [fl_zero]
      exact onGrid_zero
    · rw [key x hx he h]
      exact h

/-- From `1 / 64` on the last bit of a double is worth at least `2 ^ (-58)`. -/
theorem ulpExp_ge_of_le_abs {x : ℚ} (h : 1 / 64 ≤ |x|) : -58 ≤ ulpExp x := by
  have hpos : (0 : ℚ) < |x| := lt_of_lt_of_le (by norm_num) h
  have hlog : (-6 : ℤ) ≤ Int.log 2 |x| := by
    rw [← Int.zpow_le_iff_le_log (by norm_num) hpos]
    have : ((2 : ℕ) : ℚ) ^ (-6 : ℤ) = 1 / 64 := by norm_num [zpow_neg]
    rw [this]
    exact h
  rw [ulpExp_eq (abs_pos.mp hpos)]
  exact le_trans (by omega) (le_max_left _ _)

/-- A value of `parseFloat(x.toFixed(2))` beyond one cent is at least two cents, so on the
grid. -/
theorem double_round2_onGrid {y : ℚ} (h : cent < |round2 y|) : OnGrid (round2 y) := by
  unfold round2 at h ⊢
  apply fl_onGrid_of_ulpExp
  apply ulpExp_ge_of_le_abs
  have hc : IsCents |BillCalculator.round2 y| := (isCents_round2 y).abs
  have habs : |fl (BillCalculator.round2 y)| = fl |BillCalculator.round2 y| := by
    rcases abs_choice (BillCalculator.round2 y) with e | e
    · rw [e, abs_of_nonneg (fl_nonneg (by rw [← e]; exact abs_nonneg _))]
    · rw [e, fl_neg, abs_of_nonpos (fl_nonpos (by
        have := abs_nonneg (BillCalculator.round2 y)
        rw [e] at this
        linarith))]
  rw [habs] at h
  have hgt : 1 / 100 < |BillCalculator.round2 y| := by
    by_contra hle
    have := fl_mono (not_lt.mp hle)
    exact absurd h (not_lt.mpr this)
  have := two_cents_le hc hgt
  linarith

theorem double_loopTransfers_succ (fuel : Nat) (d c : Balance) (ds cs : List Balance) :
    loopTransfers (fuel + 1) (d :: ds) (c :: cs)
      = min d.balance c.balance
        :: loopTransfers fuel
            (if fl (d.balance - min d.balance c.balance) < cent then ds
              else { d with balance := fl (d.balance - min d.balance c.balance) } :: ds)
            (if fl (c.balance - min d.balance c.balance) < cent then cs
              else { c with balance := fl (c.balance - min d.balance c.balance) } :: cs) := rfl

/-- When the two arrays hold balances on the grid, so do the states of the loop, and every
transfer is on the grid. -/
theorem double_loopTransfers_onGrid (fuel : Nat) (ds cs : List Balance)
    (hd : ∀ b ∈ ds, OnGrid b.balance) (hc : ∀ b ∈ cs, OnGrid b.balance) :
    ∀ a ∈ loopTransfers fuel ds cs, OnGrid a := by
  induction fuel generalizing ds cs with
  | zero => intro a ha; simp [loopTransfers] at ha
  | succ fuel ih =>
    cases ds with
    | nil => intro a ha; cases cs <;> simp [loopTransfers] at ha
    | cons d dt =>
      cases cs with
      | nil => intro a ha; simp [loopTransfers] at ha
      | cons c ct =>
        intro a ha
        rw [double_loopTransfers_succ] at ha
        have hdg := hd d (List.mem_cons_self _ _)
        have hcg := hc c (List.mem_cons_self _ _)
        have hm := onGrid_min hdg hcg
        rcases List.mem_cons.mp ha with rfl | ha
        · exact hm
        · refine ih _ _ ?_ ?_ a ha
          · intro b hb
            split_ifs at hb
            · exact hd b (List.mem_cons_of_mem _ hb)
            · rcases List.mem_cons.mp hb with rfl | hb
              · exact fl_onGrid (onGrid_sub hdg hm)
              · exact hd b (List.mem_cons_of_mem _ hb)
          · intro b hb
            split_ifs at hb
            · exact hc b (List.mem_cons_of_mem _ hb)
            · rcases List.mem_cons.mp hb with rfl | hb
              · exact fl_onGrid (onGrid_sub hcg hm)
              · exact hc b (List.mem_cons_of_mem _ hb)

theorem double_mem_sortDesc {b : Balance} {l : List Balance} : b ∈ sortDesc l ↔ b ∈ l :=
  (List.perm_insertionSort _ l).mem_iff

/-- On doubles the loop never meets a transfer of exactly 0.01 on the balances that
`calculateBalances` returns: the balances beyond one cent are doubles from 0.02 on, which
are multiples of `2 ^ (-58)`, every difference the loop stores is one again, and the double
0.01 is not.  A remainder of one cent comes out a little below 0.01, and the cursor moves,
or a little above, and a settlement of 0.01 is pushed. -/
theorem double_transfers_ne_cent (participants : List Participant) (payments : List Payment)
    (perPersonShare : ℚ) :
    ∀ a ∈ transfers (calculateBalances participants payments perPersonShare), a ≠ cent := by
  have hbal : ∀ b ∈ calculateBalances participants payments perPersonShare,
      cent < |b.balance| → OnGrid b.balance := by
    intro b hb hlt
    unfold calculateBalances at hb
    simp only [List.mem_map] at hb
    obtain ⟨p, _, rfl⟩ := hb
    exact double_round2_onGrid hlt
  intro a ha hcent
  have hg : OnGrid a := by
    refine double_loopTransfers_onGrid _ _ _ ?_ ?_ a ha
    · intro b hb
      unfold debtorsOf at hb
      rw [double_mem_sortDesc, List.mem_map] at hb
      obtain ⟨p, hp, rfl⟩ := hb
      rw [List.mem_filter, decide_eq_true_eq] at hp
      have hneg : p.balance < 0 := lt_trans hp.2 (neg_lt_zero.mpr cent_pos)
      exact onGrid_abs (hbal p hp.1 (by rw [abs_of_neg hneg]; linarith))
    · intro b hb
      unfold creditorsOf at hb
      rw [double_mem_sortDesc, List.mem_filter, decide_eq_true_eq] at hb
      have hpos : 0 < b.balance := lt_trans cent_pos hb.2
      exact hbal b hb.1 (by rw [abs_of_pos hpos]; exact hb.2)
  rw [hcent] at hg
  exact cent_not_onGrid hg


/-! ## Rounding errors of the loop on doubles -/

theorem ulpExp_le_of_abs_lt {x : ℚ} (hx : x ≠ 0) {L : ℤ} (h : |x| < 2 ^ (L + 1))
    (hL : -1022 ≤ L) : ulpExp x ≤ L - 52 := by
  have hpos : (0 : ℚ) < |x| := abs_pos.mpr hx
  have hlog : Int.log 2 |x| < L + 1 := by
    rw [← Int.lt_zpow_iff_log_lt (by norm_num) hpos]
    exact_mod_cast h
  rw [ulpExp_eq hx]
  exact max_le (by omega) (by omega)

/-- Below `2 ^ 31` rounding to the nearest double moves a number by at most `2 ^ (-22)`. -/
theorem abs_fl_sub_le {x : ℚ} (h : |x| ≤ 2 ^ 31) : |fl x - x| ≤ 1 / 2 ^ 22 := by
  have key : ∀ y : ℚ, 0 < y → y ≤ 2 ^ 31 → |fl y - y| ≤ 1 / 2 ^ 22 := by
    intro y hy hle
    have he : ulpExp y ≤ -21 := by
      have := ulpExp_le_of_abs_lt (ne_of_gt hy) (L := 31)
        (by rw [abs_of_pos hy]; exact lt_of_le_of_lt hle (by norm_num)) (by norm_num)
      omega
    have hpow : (2 : ℚ) ^ ulpExp y ≤ 1 / 2 ^ 21 := by
      have h1 : (2 : ℚ) ^ ulpExp y ≤ 2 ^ (-21 : ℤ) := zpow_le_zpow_right₀ (by norm_num) he
      have h2 : (2 : ℚ) ^ (-21 : ℤ) = 1 / 2 ^ 21 := by
        rw [zpow_neg, one_div]
        norm_cast
      rw [h2] at h1
      exact h1
    have hp := two_zpow_pos (ulpExp y)
    have hr := roundHalfEven_sub_le (y / 2 ^ ulpExp y)
    rw [fl_of_pos hy]
    have e : (roundHalfEven (y / 2 ^ ulpExp y) : ℚ) * 2 ^ ulpExp y - y
        = ((roundHalfEven (y / 2 ^ ulpExp y) : ℚ) - y / 2 ^ ulpExp y) * 2 ^ ulpExp y := by
      field_simp
    rw [e, abs_mul, abs_of_pos hp]
    calc |(roundHalfEven (y / 2 ^ ulpExp y) : ℚ) - y / 2 ^ ulpExp y| * 2 ^ ulpExp y
        ≤ 1 / 2 * (1 / 2 ^ 21) := mul_le_mul hr hpow (le_of_lt hp) (by norm_num)
      _ = 1 / 2 ^ 22 := by norm_num
  rcases lt_trichotomy x 0 with hx | hx | hx
  · have := key (-x) (by linarith) (by rw [abs_of_neg hx] at h; exact h)
    rw [fl_neg] at this
    have e : -fl x - -x = -(fl x - x) := by ring
    rw [e, abs_neg] at this
    exact this
  · subst hx
    rw [fl_zero]
    norm_num
  · exact key x hx (by rw [abs_of_pos hx] at h; exact h)

/-- A number within half a cent of a whole number of cents prints as that number. -/
theorem round2_eq_of_near {v k : ℚ} (hv : 0 ≤ v) (hk : IsCents k) (h : |v - k| < 1 / 200) :
    BillCalculator.round2 v = k := by
  obtain ⟨m, rfl⟩ := (isCents_iff _).mp hk
  rw [round2_of_nonneg hv]
  have hab := abs_lt.mp h
  have hf : ⌊v * 100 + 1 / 2⌋ = m := by
    rw [Int.floor_eq_iff]
    constructor <;> linarith [hab.1, hab.2]
  rw [hf]

theorem centErr_nonneg (x : ℚ) : 0 ≤ centErr x := abs_nonneg _

theorem errSum_cons (b : Balance) (l : List Balance) :
    errSum (b :: l) = centErr b.balance + errSum l := by
  unfold errSum
  rw [List.map_cons, List.sum_cons]

theorem errSum_nonneg (l : List Balance) : 0 ≤ errSum l := by
  unfold errSum
  apply List.sum_nonneg
  intro x hx
  obtain ⟨b, _, rfl⟩ := List.mem_map.mp hx
  exact centErr_nonneg _

/-- The double nearest to a whole number of cents below `2 ^ 31` prints as that number and
is within `2 ^ (-22)` of it. -/
theorem round2_fl_cents {k : ℚ} (hk : IsCents k) (h0 : 0 ≤ k) (hb : k ≤ 2 ^ 31) :
    BillCalculator.round2 (fl k) = k ∧ centErr (fl k) ≤ 1 / 2 ^ 22 := by
  have herr := abs_fl_sub_le (by rw [abs_of_nonneg h0]; exact hb : |k| ≤ 2 ^ 31)
  have hr : BillCalculator.round2 (fl k) = k :=
    round2_eq_of_near (fl_nonneg h0) hk (lt_of_le_of_lt herr (by norm_num))
  refine ⟨hr, ?_⟩
  unfold centErr
  rw [hr]
  exact herr

/-- A number from 0 up to the double 0.01 prints as 0.00 or as 0.01. -/
theorem round2_of_lt_cent {v : ℚ} (h0 : 0 ≤ v) (h : v < cent) :
    0 ≤ BillCalculator.round2 v ∧ BillCalculator.round2 v ≤ 1 / 100 := by
  rw [cent_eq] at h
  rw [round2_of_nonneg h0]
  have h1 : (0 : ℤ) ≤ ⌊v * 100 + 1 / 2⌋ := Int.floor_nonneg.mpr (by linarith)
  have h2 : ⌊v * 100 + 1 / 2⌋ < 2 := by
    rw [Int.floor_lt]
    push_cast
    linarith
  have h3 : ⌊v * 100 + 1 / 2⌋ ≤ 1 := by omega
  have h1q : (0 : ℚ) ≤ ((⌊v * 100 + 1 / 2⌋ : ℤ) : ℚ) := by exact_mod_cast h1
  have h3q : ((⌊v * 100 + 1 / 2⌋ : ℤ) : ℚ) ≤ 1 := by exact_mod_cast h3
  constructor
  · positivity
  · linarith

/-! ## The state of the loop on doubles -/

theorem DoubleInv.symm {ds cs : List Balance} (h : DoubleInv ds cs) : DoubleInv cs ds :=
  ⟨h.cgrid, h.dgrid, h.clow, h.dlow, h.chigh, h.dhigh, h.cnames, h.dnames, by
    have := h.budget
    linarith⟩

/-- The record at a cursor holds more than the double 0.01: at least that, and it is on
the grid. -/
theorem DoubleInv.head_gt {d : Balance} {dt cs : List Balance} (h : DoubleInv (d :: dt) cs) :
    cent < d.balance := by
  refine lt_of_le_of_ne (h.dlow d (List.mem_cons_self _ _)) ?_
  intro e
  have hg := h.dgrid d (List.mem_cons_self _ _)
  rw [← e] at hg
  exact cent_not_onGrid hg

theorem double_settleLoop_lt (fuel : Nat) {d c : Balance} {dt ct : List Balance}
    (hgt : cent < d.balance) (hlt : d.balance < c.balance) :
    settleLoop (fuel + 1) (d :: dt) (c :: ct)
      = { fromName := d.name, toName := c.name, amount := round2 d.balance }
        :: settleLoop fuel dt
            (if fl (c.balance - d.balance) < cent then ct
              else { c with balance := fl (c.balance - d.balance) } :: ct) := by
  have h0 : fl (d.balance - d.balance) < cent := by rw [sub_self, fl_zero]; exact cent_pos
  rw [double_settleLoop_succ, min_eq_left (le_of_lt hlt), if_pos hgt, if_pos h0]
  rfl

theorem double_settleLoop_eq (fuel : Nat) {d c : Balance} {dt ct : List Balance}
    (hgt : cent < d.balance) (heq : d.balance = c.balance) :
    settleLoop (fuel + 1) (d :: dt) (c :: ct)
      = { fromName := d.name, toName := c.name, amount := round2 d.balance }
        :: settleLoop fuel dt ct := by
  have h0 : fl (d.balance - d.balance) < cent := by rw [sub_self, fl_zero]; exact cent_pos
  rw [double_settleLoop_succ, ← heq, min_self, if_pos hgt, if_pos h0, if_pos h0]
  rfl

/-- What the budget leaves for the two records at the cursors. -/
theorem DoubleInv.heads_budget {d c : Balance} {dt ct : List Balance}
    (h : DoubleInv (d :: dt) (c :: ct)) :
    centErr d.balance + centErr c.balance + 2 / 2 ^ 22 ≤ 1 / 400 := by
  have hb := h.budget
  rw [errSum_cons, errSum_cons] at hb
  have h1 := errSum_nonneg dt
  have h2 := errSum_nonneg ct
  have h3 : (0 : ℚ) ≤ (dt.length : ℚ) := Nat.cast_nonneg _
  have h4 : (0 : ℚ) ≤ (ct.length : ℚ) := Nat.cast_nonneg _
  simp only [List.length_cons, Nat.cast_add, Nat.cast_one] at hb
  have h5 : (2 : ℚ) / 2 ^ 22 ≤ ((dt.length : ℚ) + 1 + ((ct.length : ℚ) + 1)) / 2 ^ 22 := by
    apply div_le_div_of_nonneg_right _ (by positivity)
    linarith
  linarith

/-- The remainder of the larger record after a transfer: a double on the grid, at most
`2 ^ 30`, that prints as the difference of the two numerals; rounding moved it by at most
`2 ^ (-22)`. -/
theorem DoubleInv.remainder {d c : Balance} {dt ct : List Balance}
    (h : DoubleInv (d :: dt) (c :: ct)) (hlt : d.balance < c.balance) :
    0 ≤ fl (c.balance - d.balance) ∧ fl (c.balance - d.balance) ≤ 2 ^ 30 ∧
    OnGrid (fl (c.balance - d.balance)) ∧
    BillCalculator.round2 (fl (c.balance - d.balance))
      = BillCalculator.round2 c.balance - BillCalculator.round2 d.balance ∧
    centErr (fl (c.balance - d.balance))
      ≤ centErr c.balance + centErr d.balance + 1 / 2 ^ 22 := by
  have hd := h.dlow d (List.mem_cons_self _ _)
  have hc30 := h.chigh c (List.mem_cons_self _ _)
  have hx0 : 0 < c.balance - d.balance := by linarith
  have hx30 : c.balance - d.balance ≤ 2 ^ 30 := by linarith [cent_pos]
  have hnn : 0 ≤ fl (c.balance - d.balance) := fl_nonneg (le_of_lt hx0)
  have herr : |fl (c.balance - d.balance) - (c.balance - d.balance)| ≤ 1 / 2 ^ 22 :=
    abs_fl_sub_le (by rw [abs_of_pos hx0]; linarith)
  have hle : fl (c.balance - d.balance) ≤ 2 ^ 30 := by
    have hulp : ulpExp (c.balance - d.balance) ≤ 30 := by
      have := ulpExp_le_of_abs_lt (ne_of_gt hx0) (L := 31)
        (by rw [abs_of_pos hx0]; exact lt_of_le_of_lt hx30 (by norm_num)) (by norm_num)
      omega
    have := fl_le_zpow hx0 30 (by exact_mod_cast hx30) hulp
    exact_mod_cast this
  have hgrid : OnGrid (fl (c.balance - d.balance)) :=
    fl_onGrid (onGrid_sub (h.cgrid c (List.mem_cons_self _ _))
      (h.dgrid d (List.mem_cons_self _ _)))
  have hbud := h.heads_budget
  have hnear : |fl (c.balance - d.balance)
      - (BillCalculator.round2 c.balance - BillCalculator.round2 d.balance)|
      ≤ centErr c.balance + centErr d.balance + 1 / 2 ^ 22 := by
    have e1 := abs_le.mp herr
    have e2 := abs_le.mp (le_refl (centErr c.balance))
    have e3 := abs_le.mp (le_refl (centErr d.balance))
    unfold centErr at e2 e3 ⊢
    rw [abs_le]
    constructor <;> linarith [e1.1, e1.2, e2.1, e2.2, e3.1, e3.2]
  have hr : BillCalculator.round2 (fl (c.balance - d.balance))
      = BillCalculator.round2 c.balance - BillCalculator.round2 d.balance :=
    round2_eq_of_near hnn ((isCents_round2 _).sub (isCents_round2 _))
      (lt_of_le_of_lt hnear (by
        have : (0 : ℚ) < 1 / 2 ^ 22 := by positivity
        linarith))
  refine ⟨hnn, hle, hgrid, hr, ?_⟩
  have e : centErr (fl (c.balance - d.balance))
      = |fl (c.balance - d.balance)
        - (BillCalculator.round2 c.balance - BillCalculator.round2 d.balance)| := by
    unfold centErr
    rw [hr]
  rw [e]
  exact hnear

theorem DoubleInv.step_eq {d c : Balance} {dt ct : List Balance}
    (h : DoubleInv (d :: dt) (c :: ct)) : DoubleInv dt ct := by
  refine ⟨fun b hb => h.dgrid b (List.mem_cons_of_mem _ hb),
    fun b hb => h.cgrid b (List.mem_cons_of_mem _ hb),
    fun b hb => h.dlow b (List.mem_cons_of_mem _ hb),
    fun b hb => h.clow b (List.mem_cons_of_mem _ hb),
    fun b hb => h.dhigh b (List.mem_cons_of_mem _ hb),
    fun b hb => h.chigh b (List.mem_cons_of_mem _ hb),
    (List.nodup_cons.mp h.dnames).2, (List.nodup_cons.mp h.cnames).2, ?_⟩
  have hb := h.budget
  rw [errSum_cons, errSum_cons] at hb
  simp only [List.length_cons, Nat.cast_add, Nat.cast_one] at hb
  have h1 := centErr_nonneg d.balance
  have h2 := centErr_nonneg c.balance
  have h5 : ((dt.length : ℚ) + (ct.length : ℚ)) / 2 ^ 22
      ≤ ((dt.length : ℚ) + 1 + ((ct.length : ℚ) + 1)) / 2 ^ 22 := by
    apply div_le_div_of_nonneg_right _ (by positivity)
    linarith
  linarith

theorem DoubleInv.step_lt {d c : Balance} {dt ct : List Balance}
    (h : DoubleInv (d :: dt) (c :: ct)) (hlt : d.balance < c.balance) :
    DoubleInv dt
      (if fl (c.balance - d.balance) < cent then ct
        else { c with balance := fl (c.balance - d.balance) } :: ct) := by
  obtain ⟨_, hle, hgrid, _, herr⟩ := h.remainder hlt
  split_ifs with hadv
  · exact h.step_eq
  · refine ⟨fun b hb => h.dgrid b (List.mem_cons_of_mem _ hb), ?_,
      fun b hb => h.dlow b (List.mem_cons_of_mem _ hb), ?_,
      fun b hb => h.dhigh b (List.mem_cons_of_mem _ hb), ?_,
      (List.nodup_cons.mp h.dnames).2, h.cnames, ?_⟩
    · intro b hb
      rcases List.mem_cons.mp hb with rfl | hb
      · exact hgrid
      · exact h.cgrid b (List.mem_cons_of_mem _ hb)
    · intro b hb
      rcases List.mem_cons.mp hb with rfl | hb
      · exact not_lt.mp hadv
      · exact h.clow b (List.mem_cons_of_mem _ hb)
    · intro b hb
      rcases List.mem_cons.mp hb with rfl | hb
      · exact hle
      · exact h.chigh b (List.mem_cons_of_mem _ hb)
    · have hb := h.budget
      rw [errSum_cons, errSum_cons] at hb
      rw [errSum_cons]
      simp only [List.length_cons, Nat.cast_add, Nat.cast_one] at hb ⊢
      have e : ((dt.length : ℚ) + 1 + ((ct.length : ℚ) + 1)) / 2 ^ 22
          = ((dt.length : ℚ) + ((ct.length : ℚ) + 1)) / 2 ^ 22 + 1 / 2 ^ 22 := by ring
      rw [e] at hb
      linarith

/-! ## What one party sends and receives, on doubles -/

theorem double_settleLoop_swap (fuel : Nat) (ds cs : List Balance) :
    settleLoop fuel cs ds = (settleLoop fuel ds cs).map Settlement.swap := by
  induction fuel generalizing ds cs with
  | zero => simp [settleLoop]
  | succ fuel ih =>
    cases ds with
    | nil => simp [double_settleLoop_nil_left, double_settleLoop_nil_right]
    | cons d ds =>
      cases cs with
      | nil => simp [double_settleLoop_nil_left, double_settleLoop_nil_right]
      | cons c cs =>
        rw [double_settleLoop_succ, double_settleLoop_succ, List.map_append, ← ih,
          min_comm c.balance d.balance]
        congr 1
        split_ifs <;> rfl

/-- Every settlement goes from a record of the debtor array to one of the creditor array. -/
theorem double_settleLoop_names (fuel : Nat) (ds cs : List Balance) :
    ∀ s ∈ settleLoop fuel ds cs,
      s.fromName ∈ ds.map (fun b => b.name) ∧ s.toName ∈ cs.map (fun b => b.name) := by
  induction fuel generalizing ds cs with
  | zero => simp [settleLoop]
  | succ fuel ih =>
    cases ds with
    | nil => simp [double_settleLoop_nil_left]
    | cons d ds =>
      cases cs with
      | nil => simp [double_settleLoop_nil_right]
      | cons c cs =>
        intro s hs
        rw [double_settleLoop_succ, List.mem_append] at hs
        rcases hs with hs | hs
        · split_ifs at hs
          · rw [List.mem_singleton] at hs
            subst hs
            simp
          · exact absurd hs (List.not_mem_nil s)
        · have h := ih _ _ s hs
          constructor
          · have h1 := h.1
            split_ifs at h1
            · exact List.mem_cons_of_mem _ h1
            · simpa using h1
          · have h2 := h.2
            split_ifs at h2
            · exact List.mem_cons_of_mem _ h2
            · simpa using h2

theorem receivedBy_eq_zero (l : List Settlement) (name : String)
    (h : ∀ s ∈ l, s.toName ≠ name) : receivedBy l name = 0 := by
  rw [receivedBy_eq_sentBy_swap]
  apply sentBy_eq_zero
  intro s hs
  obtain ⟨t, ht, rfl⟩ := List.mem_map.mp hs
  exact h t ht

theorem asPrinted_cons (s : Settlement) (l : List Settlement) :
    asPrinted (s :: l)
      = { s with amount := BillCalculator.round2 s.amount } :: asPrinted l := rfl

theorem asPrinted_swap (l : List Settlement) :
    asPrinted (l.map Settlement.swap) = (asPrinted l).map Settlement.swap := by
  unfold asPrinted
  rw [List.map_map, List.map_map]
  rfl

theorem sentBy_cons (s : Settlement) (l : List Settlement) (name : String) :
    sentBy (s :: l) name = (if s.fromName = name then s.amount else 0) + sentBy l name := by
  have e : s :: l = [s] ++ l := rfl
  rw [e, sentBy_append, sentBy_singleton]

theorem receivedBy_cons (s : Settlement) (l : List Settlement) (name : String) :
    receivedBy (s :: l) name = (if s.toName = name then s.amount else 0) + receivedBy l name := by
  rw [receivedBy_eq_sentBy_swap, List.map_cons, sentBy_cons, ← receivedBy_eq_sentBy_swap]
  rfl

theorem mem_asPrinted {s : Settlement} {l : List Settlement} (h : s ∈ asPrinted l) :
    ∃ t ∈ l, s.fromName = t.fromName ∧ s.toName = t.toName := by
  unfold asPrinted at h
  obtain ⟨t, ht, rfl⟩ := List.mem_map.mp h
  exact ⟨t, ht, rfl, rfl⟩

theorem double_sentBy_eq_zero (fuel : Nat) (ds cs : List Balance) (name : String)
    (h : name ∉ ds.map fun b => b.name) :
    sentBy (settleLoop fuel ds cs) name = 0 ∧
      sentBy (asPrinted (settleLoop fuel ds cs)) name = 0 := by
  constructor
  · apply sentBy_eq_zero
    intro s hs heq
    exact h (heq ▸ (double_settleLoop_names fuel ds cs s hs).1)
  · apply sentBy_eq_zero
    intro s hs heq
    obtain ⟨t, ht, h1, _⟩ := mem_asPrinted hs
    exact h (heq ▸ h1 ▸ (double_settleLoop_names fuel ds cs t ht).1)

theorem double_receivedBy_eq_zero (fuel : Nat) (ds cs : List Balance) (name : String)
    (h : name ∉ cs.map fun b => b.name) :
    receivedBy (settleLoop fuel ds cs) name = 0 ∧
      receivedBy (asPrinted (settleLoop fuel ds cs)) name = 0 := by
  constructor
  · apply receivedBy_eq_zero
    intro s hs heq
    exact h (heq ▸ (double_settleLoop_names fuel ds cs s hs).2)
  · apply receivedBy_eq_zero
    intro s hs heq
    obtain ⟨t, ht, _, h2⟩ := mem_asPrinted hs
    exact h (heq ▸ h2 ▸ (double_settleLoop_names fuel ds cs t ht).2)

theorem doubleSettles_swap (fuel : Nat) (ds cs : List Balance) :
    DoubleSettles fuel cs ds ↔ DoubleSettles fuel ds cs := by
  unfold DoubleSettles
  rw [double_settleLoop_swap fuel ds cs, asPrinted_swap, sentBy_swap, receivedBy_swap]
  exact Or.comm

/-- The amount stored for a transfer from the record at the cursor prints as that record
does. -/
theorem DoubleInv.stored {d : Balance} {dt cs : List Balance} (h : DoubleInv (d :: dt) cs) :
    BillCalculator.round2 (round2 d.balance) = BillCalculator.round2 d.balance ∧
      centErr (round2 d.balance) ≤ 1 / 2 ^ 22 := by
  have hd0 : 0 ≤ d.balance := le_trans (le_of_lt cent_pos) (h.dlow d (List.mem_cons_self _ _))
  have hd30 := h.dhigh d (List.mem_cons_self _ _)
  have hk0 : 0 ≤ BillCalculator.round2 d.balance := by
    rw [round2_of_nonneg hd0]
    have : (0 : ℤ) ≤ ⌊d.balance * 100 + 1 / 2⌋ := Int.floor_nonneg.mpr (by linarith)
    have hq : (0 : ℚ) ≤ ((⌊d.balance * 100 + 1 / 2⌋ : ℤ) : ℚ) := by exact_mod_cast this
    positivity
  have hk31 : BillCalculator.round2 d.balance ≤ 2 ^ 31 := by
    have := (abs_le.mp (abs_round2_sub_le d.balance)).2
    linarith
  exact round2_fl_cents (isCents_round2 _) hk0 hk31

theorem doubleSettles_step_lt (fuel : Nat) {d c : Balance} {dt ct : List Balance}
    (h : DoubleInv (d :: dt) (c :: ct)) (hlt : d.balance < c.balance)
    (ih : DoubleSettles fuel dt
      (if fl (c.balance - d.balance) < cent then ct
        else { c with balance := fl (c.balance - d.balance) } :: ct)) :
    DoubleSettles (fuel + 1) (d :: dt) (c :: ct) := by
  obtain ⟨hnn, _, _, hr, _⟩ := h.remainder hlt
  have hD := h.stored.1
  unfold DoubleSettles at ih ⊢
  rw [double_settleLoop_lt fuel h.head_gt hlt, asPrinted_cons]
  rcases ih with ih | ih
  · left
    intro x hx
    rw [sentBy_cons]
    simp only
    rcases List.mem_cons.mp hx with rfl | hx
    · rw [if_pos rfl, hD,
        (double_sentBy_eq_zero _ _ _ _ (List.nodup_cons.mp h.dnames).1).2, add_zero, sub_self]
      exact ⟨le_refl _, by norm_num⟩
    · rw [if_neg (name_ne_of_nodup h.dnames hx), zero_add]
      exact ih x hx
  · right
    intro x hx
    rw [receivedBy_cons]
    simp only
    rcases List.mem_cons.mp hx with rfl | hx
    · rw [if_pos rfl, hD]
      by_cases hadv : fl (x.balance - d.balance) < cent
      · rw [if_pos hadv,
          (double_receivedBy_eq_zero _ _ _ _ (List.nodup_cons.mp h.cnames).1).2, add_zero, ← hr]
        exact round2_of_lt_cent hnn hadv
      · rw [if_neg hadv] at ih ⊢
        have := ih { x with balance := fl (x.balance - d.balance) } (List.mem_cons_self _ _)
        simp only at this
        rw [hr] at this
        constructor <;> linarith [this.1, this.2]
    · rw [if_neg (name_ne_of_nodup h.cnames hx), zero_add]
      apply ih x
      split_ifs
      · exact hx
      · exact List.mem_cons_of_mem _ hx

theorem doubleSettles_step_eq (fuel : Nat) {d c : Balance} {dt ct : List Balance}
    (h : DoubleInv (d :: dt) (c :: ct)) (heq : d.balance = c.balance)
    (ih : DoubleSettles fuel dt ct) : DoubleSettles (fuel + 1) (d :: dt) (c :: ct) := by
  have hD := h.stored.1
  unfold DoubleSettles at ih ⊢
  rw [double_settleLoop_eq fuel h.head_gt heq, asPrinted_cons]
  rcases ih with ih | ih
  · left
    intro x hx
    rw [sentBy_cons]
    simp only
    rcases List.mem_cons.mp hx with rfl | hx
    · rw [if_pos rfl, hD,
        (double_sentBy_eq_zero _ _ _ _ (List.nodup_cons.mp h.dnames).1).2, add_zero, sub_self]
      exact ⟨le_refl _, by norm_num⟩
    · rw [if_neg (name_ne_of_nodup h.dnames hx), zero_add]
      exact ih x hx
  · right
    intro x hx
    rw [receivedBy_cons]
    simp only
    rcases List.mem_cons.mp hx with rfl | hx
    · rw [if_pos rfl, hD, heq,
        (double_receivedBy_eq_zero _ _ _ _ (List.nodup_cons.mp h.cnames).1).2, add_zero,
        sub_self]
      exact ⟨le_refl _, by norm_num⟩
    · rw [if_neg (name_ne_of_nodup h.cnames hx), zero_add]
      exact ih x hx

/-- On doubles below `2 ^ 30`, with enough fuel, the settlements read as two-decimal
numerals leave every record of one of the two arrays with nothing or with one cent. -/
theorem double_settleLoop_settles (fuel : Nat) (ds cs : List Balance) (hinv : DoubleInv ds cs)
    (hfuel : ds.length + cs.length ≤ fuel) : DoubleSettles fuel ds cs := by
  induction fuel generalizing ds cs with
  | zero =>
    have hd : ds = [] := List.length_eq_zero.mp (by omega)
    subst hd
    exact Or.inl (fun d hd => absurd hd (List.not_mem_nil d))
  | succ fuel ih =>
    cases ds with
    | nil => exact Or.inl (fun d hd => absurd hd (List.not_mem_nil d))
    | cons d dt =>
      cases cs with
      | nil => exact Or.inr (fun c hc => absurd hc (List.not_mem_nil c))
      | cons c ct =>
        simp only [List.length_cons] at hfuel
        rcases lt_trichotomy d.balance c.balance with hlt | heq | hgt
        · refine doubleSettles_step_lt fuel hinv hlt (ih _ _ (hinv.step_lt hlt) ?_)
          split_ifs <;> (try simp only [List.length_cons]) <;> omega
        · exact doubleSettles_step_eq fuel hinv heq (ih _ _ hinv.step_eq (by omega))
        · rw [← doubleSettles_swap]
          refine doubleSettles_step_lt fuel hinv.symm hgt ?_
          rw [doubleSettles_swap]
          refine ih _ _ (hinv.symm.step_lt hgt).symm ?_
          split_ifs <;> (try simp only [List.length_cons]) <;> omega

/-! ## The stored amounts against their numerals -/

/-- Every amount the loop stores is within `2 ^ (-22)` of its two-decimal numeral. -/
theorem double_settleLoop_stored (fuel : Nat) (ds cs : List Balance) (hinv : DoubleInv ds cs) :
    ∀ s ∈ settleLoop fuel ds cs, centErr s.amount ≤ 1 / 2 ^ 22 := by
  induction fuel generalizing ds cs with
  | zero => intro s hs; simp [settleLoop] at hs
  | succ fuel ih =>
    cases ds with
    | nil => intro s hs; simp [double_settleLoop_nil_left] at hs
    | cons d dt =>
      cases cs with
      | nil => intro s hs; simp [double_settleLoop_nil_right] at hs
      | cons c ct =>
        intro s hs
        rcases lt_trichotomy d.balance c.balance with hlt | heq | hgt
        · rw [double_settleLoop_lt fuel hinv.head_gt hlt] at hs
          rcases List.mem_cons.mp hs with rfl | hs
          · exact hinv.stored.2
          · exact ih _ _ (hinv.step_lt hlt) s hs
        · rw [double_settleLoop_eq fuel hinv.head_gt heq] at hs
          rcases List.mem_cons.mp hs with rfl | hs
          · exact hinv.stored.2
          · exact ih _ _ hinv.step_eq s hs
        · rw [double_settleLoop_swap (fuel + 1) (c :: ct) (d :: dt)] at hs
          obtain ⟨t, ht, rfl⟩ := List.mem_map.mp hs
          rw [double_settleLoop_lt fuel hinv.symm.head_gt hgt] at ht
          rcases List.mem_cons.mp ht with rfl | ht
          · exact hinv.symm.stored.2
          · exact ih _ _ (hinv.symm.step_lt hgt) t ht

theorem double_settleLoop_length_le (fuel : Nat) (ds cs : List Balance) :
    (settleLoop fuel ds cs).length ≤ fuel := by
  induction fuel generalizing ds cs with
  | zero => simp [settleLoop]
  | succ fuel ih =>
    cases ds with
    | nil => simp [double_settleLoop_nil_left]
    | cons d dt =>
      cases cs with
      | nil => simp [double_settleLoop_nil_right]
      | cons c ct =>
        rw [double_settleLoop_succ, List.length_append]
        have hrec := ih
          (if fl (d.balance - min d.balance c.balance) < cent then dt
            else { d with balance := fl (d.balance - min d.balance c.balance) } :: dt)
          (if fl (c.balance - min d.balance c.balance) < cent then ct
            else { c with balance := fl (c.balance - min d.balance c.balance) } :: ct)
        have hp : (if min d.balance c.balance > cent then
            [({ fromName := d.name, toName := c.name,
                amount := round2 (min d.balance c.balance) } : Settlement)]
            else []).length ≤ 1 := by
          split_ifs <;> simp
        omega

/-- What one name sent, against the same read from the numerals. -/
theorem abs_sentBy_sub_asPrinted_le (l : List Settlement) (name : String)
    (h : ∀ s ∈ l, centErr s.amount ≤ 1 / 2 ^ 22) :
    |sentBy l name - sentBy (asPrinted l) name| ≤ (l.length : ℚ) / 2 ^ 22 := by
  induction l with
  | nil => simp [sentBy_nil, asPrinted]
  | cons s l ih =>
    have h1 := ih (fun t ht => h t (List.mem_cons_of_mem _ ht))
    have h2 := h s (List.mem_cons_self _ _)
    unfold centErr at h2
    rw [asPrinted_cons, sentBy_cons, sentBy_cons]
    simp only [List.length_cons, Nat.cast_add, Nat.cast_one]
    have e : ((l.length : ℚ) + 1) / 2 ^ 22 = (l.length : ℚ) / 2 ^ 22 + 1 / 2 ^ 22 := by ring
    rw [e]
    have a1 := abs_le.mp h1
    have a2 := abs_le.mp h2
    rw [abs_le]
    split_ifs <;> constructor <;> linarith [a1.1, a1.2, a2.1, a2.2]

theorem abs_receivedBy_sub_asPrinted_le (l : List Settlement) (name : String)
    (h : ∀ s ∈ l, centErr s.amount ≤ 1 / 2 ^ 22) :
    |receivedBy l name - receivedBy (asPrinted l) name| ≤ (l.length : ℚ) / 2 ^ 22 := by
  rw [receivedBy_eq_sentBy_swap, receivedBy_eq_sentBy_swap, ← asPrinted_swap]
  have := abs_sentBy_sub_asPrinted_le (l.map Settlement.swap) name (by
    intro s hs
    obtain ⟨t, ht, rfl⟩ := List.mem_map.mp hs
    exact h t ht)
  rwa [List.length_map] at this

theorem errSum_le (l : List Balance) (h : ∀ b ∈ l, centErr b.balance ≤ 1 / 2 ^ 22) :
    errSum l ≤ (l.length : ℚ) / 2 ^ 22 := by
  induction l with
  | nil => simp [errSum]
  | cons b l ih =>
    rw [errSum_cons]
    simp only [List.length_cons, Nat.cast_add, Nat.cast_one]
    have h1 := ih (fun t ht => h t (List.mem_cons_of_mem _ ht))
    have h2 := h b (List.mem_cons_self _ _)
    have e : ((l.length : ℚ) + 1) / 2 ^ 22 = (l.length : ℚ) / 2 ^ 22 + 1 / 2 ^ 22 := by ring
    rw [e]
    linarith

/-! ## The two arrays of `generateSettlements` on doubles -/

theorem double_mem_creditorsOf {c : Balance} {balances : List Balance} :
    c ∈ creditorsOf balances ↔ c ∈ balances ∧ c.balance > cent := by
  rw [creditorsOf, double_mem_sortDesc, List.mem_filter, decide_eq_true_eq]

theorem double_mem_debtorsOf {d : Balance} {balances : List Balance} :
    d ∈ debtorsOf balances ↔
      ∃ p ∈ balances, p.balance < -cent ∧ d = { p with balance := |p.balance| } := by
  rw [debtorsOf, double_mem_sortDesc, List.mem_map]
  constructor
  · rintro ⟨p, hp, rfl⟩
    rw [List.mem_filter, decide_eq_true_eq] at hp
    exact ⟨p, hp.1, hp.2, rfl⟩
  · rintro ⟨p, hp, hlt, rfl⟩
    exact ⟨p, List.mem_filter.mpr ⟨hp, by simpa using hlt⟩, rfl⟩

theorem double_nodup_names_creditorsOf {balances : List Balance}
    (h : (balances.map fun b => b.name).Nodup) :
    ((creditorsOf balances).map fun b => b.name).Nodup := by
  have hp : ((creditorsOf balances).map fun b => b.name).Perm
      ((balances.filter fun p => decide (p.balance > cent)).map fun b => b.name) :=
    (List.perm_insertionSort _ _).map _
  rw [hp.nodup_iff]
  exact h.sublist ((List.filter_sublist _).map _)

theorem double_nodup_names_debtorsOf {balances : List Balance}
    (h : (balances.map fun b => b.name).Nodup) :
    ((debtorsOf balances).map fun b => b.name).Nodup := by
  have hp : ((debtorsOf balances).map fun b => b.name).Perm
      (((balances.filter fun p => decide (p.balance < -cent)).map fun p =>
        ({ p with balance := |p.balance| } : Balance)).map fun b => b.name) :=
    (List.perm_insertionSort _ _).map _
  rw [hp.nodup_iff, List.map_map]
  exact h.sublist ((List.filter_sublist _).map _)

theorem double_name_mem_debtorsOf {balances : List Balance}
    (h : (balances.map fun b => b.name).Nodup) {b : Balance} (hb : b ∈ balances) :
    b.name ∈ (debtorsOf balances).map (fun b => b.name) ↔ b.balance < -cent := by
  rw [List.mem_map]
  constructor
  · rintro ⟨d, hd, hname⟩
    obtain ⟨p, hp, hlt, rfl⟩ := double_mem_debtorsOf.mp hd
    have : p = b := eq_of_name_eq h hp hb hname
    rw [← this]
    exact hlt
  · intro hlt
    exact ⟨{ b with balance := |b.balance| }, double_mem_debtorsOf.mpr ⟨b, hb, hlt, rfl⟩, rfl⟩

theorem double_name_mem_creditorsOf {balances : List Balance}
    (h : (balances.map fun b => b.name).Nodup) {b : Balance} (hb : b ∈ balances) :
    b.name ∈ (creditorsOf balances).map (fun b => b.name) ↔ b.balance > cent := by
  rw [List.mem_map]
  constructor
  · rintro ⟨c, hc, hname⟩
    obtain ⟨hc1, hc2⟩ := double_mem_creditorsOf.mp hc
    have : c = b := eq_of_name_eq h hc1 hb hname
    rw [← this]
    exact hc2
  · intro hgt
    exact ⟨b, double_mem_creditorsOf.mpr ⟨hb, hgt⟩, rfl⟩

theorem double_length_creditorsOf_le (balances : List Balance) :
    (creditorsOf balances).length ≤ balances.length := by
  unfold creditorsOf sortDesc
  rw [List.length_insertionSort]
  exact List.length_filter_le _ _

theorem double_length_debtorsOf_le (balances : List Balance) :
    (debtorsOf balances).length ≤ balances.length := by
  unfold debtorsOf sortDesc
  rw [List.length_insertionSort, List.length_map]
  exact List.length_filter_le _ _

theorem fl_two_pow_31 : fl (2 ^ 31) = 2 ^ 31 := by decide!

/-- A value of `parseFloat(x.toFixed(2))` of magnitude beyond one cent and up to `10 ^ 9`:
its magnitude is on the grid, at most `2 ^ 30`, and within `2 ^ (-22)` of its numeral. -/
theorem double_round2_facts {y : ℚ} (hgt : cent < |round2 y|) (hle : |round2 y| ≤ 10 ^ 9) :
    OnGrid |round2 y| ∧ |round2 y| ≤ 2 ^ 30 ∧ centErr |round2 y| ≤ 1 / 2 ^ 22 := by
  refine ⟨onGrid_abs (double_round2_onGrid hgt), le_trans hle (by norm_num), ?_⟩
  have habs : |round2 y| = fl |BillCalculator.round2 y| := by
    unfold round2
    rcases abs_choice (BillCalculator.round2 y) with e | e
    · rw [e, abs_of_nonneg (fl_nonneg (by rw [← e]; exact abs_nonneg _))]
    · rw [e, fl_neg, abs_of_nonpos (fl_nonpos (by
        have := abs_nonneg (BillCalculator.round2 y)
        rw [e] at this
        linarith))]
  rw [habs] at hle ⊢
  have h31 : |BillCalculator.round2 y| ≤ 2 ^ 31 := by
    by_contra hcon
    have := fl_mono (le_of_lt (not_le.mp hcon))
    rw [fl_two_pow_31] at this
    have h9 : (10 : ℚ) ^ 9 < 2 ^ 31 := by norm_num
    linarith
  exact (round2_fl_cents (isCents_round2 y).abs (abs_nonneg _) h31).2

/-- The loop of `generateSettlements` starts in a state of `DoubleInv` when the balances
are values of `parseFloat(x.toFixed(2))` up to `10 ^ 9`, of at most 20 participants with
distinct names. -/
theorem doubleInv_init {balances : List Balance} (hn : (balances.map fun b => b.name).Nodup)
    (hr : ∀ b ∈ balances, ∃ y : ℚ, b.balance = round2 y)
    (hbound : ∀ b ∈ balances, |b.balance| ≤ 10 ^ 9) (hlen : balances.length ≤ 20) :
    DoubleInv (debtorsOf balances) (creditorsOf balances) := by
  have hd : ∀ d ∈ debtorsOf balances, OnGrid d.balance ∧ cent ≤ d.balance ∧
      d.balance ≤ 2 ^ 30 ∧ centErr d.balance ≤ 1 / 2 ^ 22 := by
    intro d hd
    obtain ⟨p, hp, hlt, rfl⟩ := double_mem_debtorsOf.mp hd
    obtain ⟨y, hy⟩ := hr p hp
    have hneg : p.balance < 0 := lt_trans hlt (neg_lt_zero.mpr cent_pos)
    have hgt : cent < |p.balance| := by rw [abs_of_neg hneg]; linarith
    have hb := hbound p hp
    simp only
    rw [hy] at hgt hb ⊢
    obtain ⟨h1, h2, h3⟩ := double_round2_facts hgt hb
    exact ⟨h1, le_of_lt hgt, h2, h3⟩
  have hc : ∀ c ∈ creditorsOf balances, OnGrid c.balance ∧ cent ≤ c.balance ∧
      c.balance ≤ 2 ^ 30 ∧ centErr c.balance ≤ 1 / 2 ^ 22 := by
    intro c hc
    obtain ⟨hp, hgt0⟩ := double_mem_creditorsOf.mp hc
    obtain ⟨y, hy⟩ := hr c hp
    have hpos : 0 < c.balance := lt_trans cent_pos hgt0
    have hb := hbound c hp
    have hgt : cent < |c.balance| := by rw [abs_of_pos hpos]; exact hgt0
    have e : c.balance = |round2 y| := by rw [← hy, abs_of_pos hpos]
    rw [hy] at hgt hb
    obtain ⟨h1, h2, h3⟩ := double_round2_facts hgt hb
    rw [e]
    exact ⟨h1, le_of_lt hgt, h2, h3⟩
  refine ⟨fun b hb => (hd b hb).1, fun b hb => (hc b hb).1, fun b hb => (hd b hb).2.1,
    fun b hb => (hc b hb).2.1, fun b hb => (hd b hb).2.2.1, fun b hb => (hc b hb).2.2.1,
    double_nodup_names_debtorsOf hn, double_nodup_names_creditorsOf hn, ?_⟩
  have e1 := errSum_le _ (fun b hb => (hd b hb).2.2.2)
  have e2 := errSum_le _ (fun b hb => (hc b hb).2.2.2)
  have l1 : ((debtorsOf balances).length : ℚ) ≤ 20 := by
    exact_mod_cast le_trans (double_length_debtorsOf_le balances) hlen
  have l2 : ((creditorsOf balances).length : ℚ) ≤ 20 := by
    exact_mod_cast le_trans (double_length_creditorsOf_le balances) hlen
  have e3 : (((debtorsOf balances).length : ℚ) + ((creditorsOf balances).length : ℚ)) / 2 ^ 22
      = ((debtorsOf balances).length : ℚ) / 2 ^ 22
        + ((creditorsOf balances).length : ℚ) / 2 ^ 22 := by ring
  have e4 : ((debtorsOf balances).length : ℚ) / 2 ^ 22 ≤ 20 / 2 ^ 22 :=
    div_le_div_of_nonneg_right l1 (by positivity)
  have e5 : ((creditorsOf balances).length : ℚ) / 2 ^ 22 ≤ 20 / 2 ^ 22 :=
    div_le_div_of_nonneg_right l2 (by positivity)
  rw [e3]
  have e6 : (20 : ℚ) / 2 ^ 22 + 20 / 2 ^ 22 + (20 / 2 ^ 22 + 20 / 2 ^ 22) ≤ 1 / 400 := by
    norm_num
  linarith

/-! ## One side is settled, on doubles -/

/-- For balances that are values of `parseFloat(x.toFixed(2))` up to `10 ^ 9`, of at most
20 participants with distinct names, applying the settlements of `generateSettlements`
leaves every debtor or every creditor within 0.01 of zero when balances and amounts are read
as their two-decimal numerals, and within 0.01001 on the doubles. -/
theorem double_generateSettlements_settles {balances : List Balance}
    (hn : (balances.map fun b => b.name).Nodup)
    (hr : ∀ b ∈ balances, ∃ y : ℚ, b.balance = round2 y)
    (hbound : ∀ b ∈ balances, |b.balance| ≤ 10 ^ 9) (hlen : balances.length ≤ 20) :
    (∀ b ∈ balances, b.balance < -cent →
      |applySettlements (asPrinted (generateSettlements balances)) (printed b)| ≤ 1 / 100 ∧
      |applySettlements (generateSettlements balances) b| ≤ 1 / 100 + 1 / 10 ^ 5) ∨
    (∀ b ∈ balances, b.balance > cent →
      |applySettlements (asPrinted (generateSettlements balances)) (printed b)| ≤ 1 / 100 ∧
      |applySettlements (generateSettlements balances) b| ≤ 1 / 100 + 1 / 10 ^ 5) := by
  have hinv := doubleInv_init hn hr hbound hlen
  have hst := double_settleLoop_stored
    ((debtorsOf balances).length + (creditorsOf balances).length) _ _ hinv
  have hcount : ((generateSettlements balances).length : ℚ) ≤ 40 := by
    have h1 := double_settleLoop_length_le
      ((debtorsOf balances).length + (creditorsOf balances).length)
      (debtorsOf balances) (creditorsOf balances)
    have h2 := double_length_debtorsOf_le balances
    have h3 := double_length_creditorsOf_le balances
    have h4 : (generateSettlements balances).length ≤ 40 := by
      have e : generateSettlements balances
          = settleLoop ((debtorsOf balances).length + (creditorsOf balances).length)
              (debtorsOf balances) (creditorsOf balances) := rfl
      rw [e]
      omega
    exact_mod_cast h4
  have hcount2 : ((generateSettlements balances).length : ℚ) / 2 ^ 22 ≤ 40 / 2 ^ 22 :=
    div_le_div_of_nonneg_right hcount (by positivity)
  have hsmall : (1 : ℚ) / 2 ^ 22 + 40 / 2 ^ 22 ≤ 1 / 10 ^ 5 := by norm_num
  rcases double_settleLoop_settles _ _ _ hinv (le_refl _) with h | h
  · left
    intro b hb hlt
    have hneg : b.balance < 0 := lt_trans hlt (neg_lt_zero.mpr cent_pos)
    have hmem := double_mem_debtorsOf.mpr ⟨b, hb, hlt, rfl⟩
    have h1 := h _ hmem
    have herr : centErr |b.balance| ≤ 1 / 2 ^ 22 := by
      obtain ⟨y, hy⟩ := hr b hb
      have hgt : cent < |b.balance| := by rw [abs_of_neg hneg]; linarith
      have hbd := hbound b hb
      rw [hy] at hgt hbd ⊢
      exact (double_round2_facts hgt hbd).2.2
    have hz := double_receivedBy_eq_zero
      ((debtorsOf balances).length + (creditorsOf balances).length)
      (debtorsOf balances) (creditorsOf balances) b.name
      (fun hm => by
        have := (double_name_mem_creditorsOf hn hb).mp hm
        linarith [cent_pos])
    have hs := abs_sentBy_sub_asPrinted_le (generateSettlements balances) b.name hst
    have e1 : BillCalculator.round2 b.balance = -BillCalculator.round2 |b.balance| := by
      rw [abs_of_neg hneg, round2_neg, neg_neg]
    simp only at h1
    have hp1 : sentBy (asPrinted (settleLoop
        ((debtorsOf balances).length + (creditorsOf balances).length)
        (debtorsOf balances) (creditorsOf balances))) b.name
        = sentBy (asPrinted (generateSettlements balances)) b.name := rfl
    have hp2 : receivedBy (asPrinted (generateSettlements balances)) b.name = 0 := hz.2
    have hp3 : receivedBy (generateSettlements balances) b.name = 0 := hz.1
    rw [hp1] at h1
    unfold centErr at herr
    have a1 := abs_le.mp herr
    have a2 := abs_le.mp hs
    have e2 : |b.balance| = -b.balance := abs_of_neg hneg
    constructor
    · unfold applySettlements printed
      simp only
      rw [hp2, e1, abs_le]
      constructor <;> linarith [h1.1, h1.2]
    · unfold applySettlements
      rw [hp3, abs_le]
      constructor <;> linarith [h1.1, h1.2, a1.1, a1.2, a2.1, a2.2]
  · right
    intro b hb hgt
    have hpos : 0 < b.balance := lt_trans cent_pos hgt
    have hmem := double_mem_creditorsOf.mpr ⟨hb, hgt⟩
    have h1 := h _ hmem
    have herr : centErr b.balance ≤ 1 / 2 ^ 22 := by
      obtain ⟨y, hy⟩ := hr b hb
      have hgt2 : cent < |b.balance| := by rw [abs_of_pos hpos]; exact hgt
      have hbd := hbound b hb
      have e : b.balance = |round2 y| := by rw [← hy, abs_of_pos hpos]
      rw [hy] at hgt2 hbd
      rw [e]
      exact (double_round2_facts hgt2 hbd).2.2
    have hz := double_sentBy_eq_zero
      ((debtorsOf balances).length + (creditorsOf balances).length)
      (debtorsOf balances) (creditorsOf balances) b.name
      (fun hm => by
        have := (double_name_mem_debtorsOf hn hb).mp hm
        linarith [cent_pos])
    have hs := abs_receivedBy_sub_asPrinted_le (generateSettlements balances) b.name hst
    have hp1 : receivedBy (asPrinted (settleLoop
        ((debtorsOf balances).length + (creditorsOf balances).length)
        (debtorsOf balances) (creditorsOf balances))) b.name
        = receivedBy (asPrinted (generateSettlements balances)) b.name := rfl
    have hp2 : sentBy (asPrinted (generateSettlements balances)) b.name = 0 := hz.2
    have hp3 : sentBy (generateSettlements balances) b.name = 0 := hz.1
    rw [hp1] at h1
    unfold centErr at herr
    have a1 := abs_le.mp herr
    have a2 := abs_le.mp hs
    constructor
    · unfold applySettlements printed
      simp only
      rw [hp2, abs_le]
      constructor <;> linarith [h1.1, h1.2]
    · unfold applySettlements
      rw [hp3, abs_le]
      constructor <;> linarith [h1.1, h1.2, a1.1, a1.2, a2.1, a2.2]

theorem double_addPayment_map_name (l : List Balance) (payment : Payment) :
    (addPayment l payment).map (fun b => b.name) = l.map fun b => b.name := by
  induction l with
  | nil => rfl
  | cons b rest ih =>
    unfold addPayment
    split_ifs with h
    · rfl
    · simp only [List.map_cons, ih]

/-- The balances on doubles carry the participants' names, in order. -/
theorem double_calculateBalances_map_name (participants : List Participant)
    (payments : List Payment) (perPersonShare : ℚ) :
    (calculateBalances participants payments perPersonShare).map (fun b => b.name)
      = participants.map fun p => p.name := by
  have hfold : ∀ (pays : List Payment) (l : List Balance),
      (pays.foldl addPayment l).map (fun b => b.name) = l.map fun b => b.name := by
    intro pays
    induction pays with
    | nil => intro l; rfl
    | cons p pays ih =>
      intro l
      rw [List.foldl_cons, ih, double_addPayment_map_name]
  unfold calculateBalances
  simp only [List.map_map]
  have e : ((fun b : Balance => b.name) ∘ fun p : Balance =>
      ({ p with balance := round2 p.balance } : Balance)) = fun b => b.name := rfl
  rw [e, hfold, List.map_map]
  rfl

/-- C2 as amended: for every input of `calculate` on doubles with at most 20 participants,
as `validate` requires, with distinct names and with returned balances of magnitude at most
`10 ^ 9`, applying every returned settlement to the returned balances leaves either every
participant who owed more than 0.01 or every participant who was owed more than 0.01
within 0.01 of zero when balances and amounts are read as the two-decimal numbers they print
as, and within 0.01001 of zero on the doubles themselves. -/
theorem double_settlements_settle_one_side (totalBill : ℚ) (participants : List Participant)
    (payments : List Payment) (hnames : (participants.map fun p => p.name).Nodup)
    (hlen : participants.length ≤ 20)
    (hbound : ∀ b ∈ (calculate totalBill participants payments).balances,
      |b.balance| ≤ 10 ^ 9) :
    (∀ b ∈ (calculate totalBill participants payments).balances, b.balance < -cent →
      |applySettlements (asPrinted (calculate totalBill participants payments).settlements)
        (printed b)| ≤ 1 / 100 ∧
      |applySettlements (calculate totalBill participants payments).settlements b|
        ≤ 1 / 100 + 1 / 10 ^ 5) ∨
    (∀ b ∈ (calculate totalBill participants payments).balances, b.balance > cent →
      |applySettlements (asPrinted (calculate totalBill participants payments).settlements)
        (printed b)| ≤ 1 / 100 ∧
      |applySettlements (calculate totalBill participants payments).settlements b|
        ≤ 1 / 100 + 1 / 10 ^ 5) := by
  have e : (calculate totalBill participants payments).balances
      = calculateBalances participants payments
          (calculatePerPersonShare totalBill participants.length) := rfl
  have hn : ((calculate totalBill participants payments).balances.map fun b => b.name).Nodup := by
    rw [e, double_calculateBalances_map_name]
    exact hnames
  have hl : (calculate totalBill participants payments).balances.length ≤ 20 := by
    have := congrArg List.length (double_calculateBalances_map_name participants payments
      (calculatePerPersonShare totalBill participants.length))
    rw [List.length_map, List.length_map] at this
    rw [e, this]
    exact hlen
  have hr : ∀ b ∈ (calculate totalBill participants payments).balances,
      ∃ y : ℚ, b.balance = round2 y := by
    intro b hb
    rw [e] at hb
    unfold calculateBalances at hb
    obtain ⟨p, _, rfl⟩ := List.mem_map.mp hb
    exact ⟨p.balance, rfl⟩
  exact double_generateSettlements_settles hn hr hbound hl

/-- Witness for `double_settlements_settle_one_side`: a bill of 100 among seven, one
paying all; the creditor is owed 85.71 and is paid in full, the last debtor keeps 0.03. -/
theorem double_settlements_settle_one_side_witness :
    (([⟨1, "A"⟩, ⟨2, "B"⟩, ⟨3, "C"⟩, ⟨4, "D"⟩, ⟨5, "E"⟩, ⟨6, "F"⟩, ⟨7, "G"⟩] :
      List Participant).map fun p => p.name).Nodup ∧
    ([⟨1, "A"⟩, ⟨2, "B"⟩, ⟨3, "C"⟩, ⟨4, "D"⟩, ⟨5, "E"⟩, ⟨6, "F"⟩, ⟨7, "G"⟩] :
      List Participant).length ≤ 20 ∧
    (∀ b ∈ (calculate 100
        [⟨1, "A"⟩, ⟨2, "B"⟩, ⟨3, "C"⟩, ⟨4, "D"⟩, ⟨5, "E"⟩, ⟨6, "F"⟩, ⟨7, "G"⟩]
        [⟨1, 1, 100⟩]).balances, |b.balance| ≤ 10 ^ 9) ∧
    ((∀ b ∈ (calculate 100
        [⟨1, "A"⟩, ⟨2, "B"⟩, ⟨3, "C"⟩, ⟨4, "D"⟩, ⟨5, "E"⟩, ⟨6, "F"⟩, ⟨7, "G"⟩]
        [⟨1, 1, 100⟩]).balances, b.balance < -cent →
      |applySettlements (asPrinted (calculate 100
        [⟨1, "A"⟩, ⟨2, "B"⟩, ⟨3, "C"⟩, ⟨4, "D"⟩, ⟨5, "E"⟩, ⟨6, "F"⟩, ⟨7, "G"⟩]
        [⟨1, 1, 100⟩]).settlements) (printed b)| ≤ 1 / 100 ∧
      |applySettlements (calculate 100
        [⟨1, "A"⟩, ⟨2, "B"⟩, ⟨3, "C"⟩, ⟨4, "D"⟩, ⟨5, "E"⟩, ⟨6, "F"⟩, ⟨7, "G"⟩]
        [⟨1, 1, 100⟩]).settlements b| ≤ 1 / 100 + 1 / 10 ^ 5) ∨
    (∀ b ∈ (calculate 100
        [⟨1, "A"⟩, ⟨2, "B"⟩, ⟨3, "C"⟩, ⟨4, "D"⟩, ⟨5, "E"⟩, ⟨6, "F"⟩, ⟨7, "G"⟩]
        [⟨1, 1, 100⟩]).balances, b.balance > cent →
      |applySettlements (asPrinted (calculate 100
        [⟨1, "A"⟩, ⟨2, "B"⟩, ⟨3, "C"⟩, ⟨4, "D"⟩, ⟨5, "E"⟩, ⟨6, "F"⟩, ⟨7, "G"⟩]
        [⟨1, 1, 100⟩]).settlements) (printed b)| ≤ 1 / 100 ∧
      |applySettlements (calculate 100
        [⟨1, "A"⟩, ⟨2, "B"⟩, ⟨3, "C"⟩, ⟨4, "D"⟩, ⟨5, "E"⟩, ⟨6, "F"⟩, ⟨7, "G"⟩]
        [⟨1, 1, 100⟩]).settlements b| ≤ 1 / 100 + 1 / 10 ^ 5)) :=
  ⟨by decide, by decide, by decide!,
    double_settlements_settle_one_side _ _ _ (by decide) (by decide) (by decide!)⟩


/-! ## Why the amended claim is no stronger -/

/-- On the doubles themselves one cent left over can be more than 0.01.  A bill of 0.17
among four, A paying 0.06 and B 0.11, is a valid input without a warning; the share is 0.04
and the balances are 0.02, 0.07, -0.04 and -0.04.  C sends B 0.04, D sends B 0.03, and the
remainder 0.04 - 0.030000000000000006 of D is below 0.01, so both cursors move and the
debtor array is exhausted.  D then stands at -0.04 + 0.03 = -0.010000000000000002 and A,
who was owed 0.02, has received nothing: on the doubles neither side is within 0.01 of
zero.  Read as two-decimal numbers D is left with exactly 0.01. -/
theorem one_cent_left_example :
    ValidInput (fl (17 / 100)) [⟨1, "A"⟩, ⟨2, "B"⟩, ⟨3, "C"⟩, ⟨4, "D"⟩]
      [⟨1, 1, fl (6 / 100)⟩, ⟨2, 2, fl (11 / 100)⟩] ∧
    validate (fl (17 / 100)) [⟨1, "A"⟩, ⟨2, "B"⟩, ⟨3, "C"⟩, ⟨4, "D"⟩]
      [⟨1, 1, fl (6 / 100)⟩, ⟨2, 2, fl (11 / 100)⟩] = ⟨true, [], none, 0⟩ ∧
    (calculate (fl (17 / 100)) [⟨1, "A"⟩, ⟨2, "B"⟩, ⟨3, "C"⟩, ⟨4, "D"⟩]
      [⟨1, 1, fl (6 / 100)⟩, ⟨2, 2, fl (11 / 100)⟩]).balances
      = [⟨1, "A", fl (6 / 100), fl (2 / 100)⟩, ⟨2, "B", fl (11 / 100), fl (7 / 100)⟩,
         ⟨3, "C", 0, -fl (4 / 100)⟩, ⟨4, "D", 0, -fl (4 / 100)⟩] ∧
    (calculate (fl (17 / 100)) [⟨1, "A"⟩, ⟨2, "B"⟩, ⟨3, "C"⟩, ⟨4, "D"⟩]
      [⟨1, 1, fl (6 / 100)⟩, ⟨2, 2, fl (11 / 100)⟩]).settlements
      = [⟨"C", "B", fl (4 / 100)⟩, ⟨"D", "B", fl (3 / 100)⟩] ∧
    fl (fl (4 / 100) - fl (fl (7 / 100) - fl (4 / 100))) < cent ∧
    cent < |applySettlements [⟨"C", "B", fl (4 / 100)⟩, ⟨"D", "B", fl (3 / 100)⟩]
      ⟨4, "D", 0, -fl (4 / 100)⟩| ∧
    cent < |fl (-fl (4 / 100) + fl (3 / 100))| ∧
    cent < |applySettlements [⟨"C", "B", fl (4 / 100)⟩, ⟨"D", "B", fl (3 / 100)⟩]
      ⟨1, "A", fl (6 / 100), fl (2 / 100)⟩| ∧
    applySettlements (asPrinted [⟨"C", "B", fl (4 / 100)⟩, ⟨"D", "B", fl (3 / 100)⟩])
      (printed ⟨4, "D", 0, -fl (4 / 100)⟩) = -(1 / 100) := by
  decide!

/-- The balances have to be bounded, because the doubles get too coarse for cents.  A bill
of 4503599627370499 among four that A paid alone is a valid input without a warning; the
share 1125899906842624.75 is a double, the balance of A is rounded to 3377699720527874, and
after B and C have sent their share the remainder of A is 1125899906842624.25.  D sends
that and keeps 0.50, A has received 0.25 less than its balance: neither side is within 0.01
of zero, and every number here has two decimals. -/
theorem huge_bill_example :
    ValidInput 4503599627370499 [⟨1, "A"⟩, ⟨2, "B"⟩, ⟨3, "C"⟩, ⟨4, "D"⟩]
      [⟨1, 1, 4503599627370499⟩] ∧
    validate 4503599627370499 [⟨1, "A"⟩, ⟨2, "B"⟩, ⟨3, "C"⟩, ⟨4, "D"⟩]
      [⟨1, 1, 4503599627370499⟩] = ⟨true, [], none, 0⟩ ∧
    (calculate 4503599627370499 [⟨1, "A"⟩, ⟨2, "B"⟩, ⟨3, "C"⟩, ⟨4, "D"⟩]
      [⟨1, 1, 4503599627370499⟩]).balances
      = [⟨1, "A", 4503599627370499, 3377699720527874⟩,
         ⟨2, "B", 0, -(4503599627370499 / 4)⟩, ⟨3, "C", 0, -(4503599627370499 / 4)⟩,
         ⟨4, "D", 0, -(4503599627370499 / 4)⟩] ∧
    (calculate 4503599627370499 [⟨1, "A"⟩, ⟨2, "B"⟩, ⟨3, "C"⟩, ⟨4, "D"⟩]
      [⟨1, 1, 4503599627370499⟩]).settlements
      = [⟨"B", "A", 4503599627370499 / 4⟩, ⟨"C", "A", 4503599627370499 / 4⟩,
         ⟨"D", "A", 4503599627370497 / 4⟩] ∧
    (calculate 4503599627370499 [⟨1, "A"⟩, ⟨2, "B"⟩, ⟨3, "C"⟩, ⟨4, "D"⟩]
      [⟨1, 1, 4503599627370499⟩]).balances.map
      (applySettlements (calculate 4503599627370499 [⟨1, "A"⟩, ⟨2, "B"⟩, ⟨3, "C"⟩, ⟨4, "D"⟩]
        [⟨1, 1, 4503599627370499⟩]).settlements)
      = [1 / 4, 0, 0, -(1 / 2)] ∧
    ((calculate 4503599627370499 [⟨1, "A"⟩, ⟨2, "B"⟩, ⟨3, "C"⟩, ⟨4, "D"⟩]
      [⟨1, 1, 4503599627370499⟩]).balances.map printed).map
      (applySettlements (asPrinted (calculate 4503599627370499
        [⟨1, "A"⟩, ⟨2, "B"⟩, ⟨3, "C"⟩, ⟨4, "D"⟩] [⟨1, 1, 4503599627370499⟩]).settlements))
      = [1 / 4, 0, 0, -(1 / 2)] := by
  decide!

/-- The names have to be distinct on doubles as in exact cents: a bill of 400 among two
participants called X and two called Y, the Y paying 200 each, is a valid input without a
warning; both settlements read X to Y 100, so each X is credited with 200 and ends at 100
and each Y is charged 200 and ends at -100. -/
theorem double_same_names_example :
    ValidInput 400 [⟨1, "X"⟩, ⟨2, "X"⟩, ⟨3, "Y"⟩, ⟨4, "Y"⟩] [⟨1, 3, 200⟩, ⟨2, 4, 200⟩] ∧
    validate 400 [⟨1, "X"⟩, ⟨2, "X"⟩, ⟨3, "Y"⟩, ⟨4, "Y"⟩] [⟨1, 3, 200⟩, ⟨2, 4, 200⟩]
      = ⟨true, [], none, 0⟩ ∧
    (calculate 400 [⟨1, "X"⟩, ⟨2, "X"⟩, ⟨3, "Y"⟩, ⟨4, "Y"⟩]
      [⟨1, 3, 200⟩, ⟨2, 4, 200⟩]).settlements = [⟨"X", "Y", 100⟩, ⟨"X", "Y", 100⟩] ∧
    (calculate 400 [⟨1, "X"⟩, ⟨2, "X"⟩, ⟨3, "Y"⟩, ⟨4, "Y"⟩]
      [⟨1, 3, 200⟩, ⟨2, 4, 200⟩]).balances.map
      (applySettlements (calculate 400 [⟨1, "X"⟩, ⟨2, "X"⟩, ⟨3, "Y"⟩, ⟨4, "Y"⟩]
        [⟨1, 3, 200⟩, ⟨2, 4, 200⟩]).settlements)
      = [100, 100, -100, -100] := by
  decide!


/-- C2 fails as stated: a bill of 100 between A and B with the one payment of 10 by A is
a valid input (the warning is `underpaid`); the balances are -40 and -50, there is no
creditor and no settlement, and both balances stay where they are. -/
theorem double_settlements_leave_debt_counterexample :
    ValidInput 100 [⟨1, "A"⟩, ⟨2, "B"⟩] [⟨1, 1, 10⟩] ∧
    validate 100 [⟨1, "A"⟩, ⟨2, "B"⟩] [⟨1, 1, 10⟩] = ⟨true, [], some "underpaid", 90⟩ ∧
    (calculate 100 [⟨1, "A"⟩, ⟨2, "B"⟩] [⟨1, 1, 10⟩]).balances
      = [⟨1, "A", 10, -40⟩, ⟨2, "B", 0, -50⟩] ∧
    (calculate 100 [⟨1, "A"⟩, ⟨2, "B"⟩] [⟨1, 1, 10⟩]).settlements = [] ∧
    ¬ (∀ b ∈ (calculate 100 [⟨1, "A"⟩, ⟨2, "B"⟩] [⟨1, 1, 10⟩]).balances,
      |applySettlements (calculate 100 [⟨1, "A"⟩, ⟨2, "B"⟩] [⟨1, 1, 10⟩]).settlements b|
        ≤ cent) := by
  decide!

end F64

end BillCalculator

